import Mathlib

/-!
Verification development for the `@synvox/offline` sync database.

We give a shallow embedding of the core of the repository:
* `MemoryStorage` (the staging overlay / backing store from `src/index.ts`,
  quoted in `README.md`): read-through, write-buffered key-value view with
  `transaction`/`commit`,
* `Database` (`src/Database.ts`): the index/row engine (`setItem`,
  `deleteItem`, `clearTable`), the sync engine (`syncTable`/`mergeTable`/
  `sync`), and the query planner (`queryTable`).

JavaScript strings are modelled as `List Char` (`JStr`), JS primitive values
as the inductive `Value` (strict equality `===` on primitives is decidable
equality of `Value`), JS objects used as maps as association lists in
insertion order, and `undefined` as `Option.none` at the use sites.
Asynchronous execution is sequential (the code only awaits storage and
collaborator calls; `MemoryStorage` resolves immediately), and collaborator
calls that may reject are modelled with `Except Unit`.
-/

namespace Offline

/-- JavaScript strings, modelled as their character lists. -/
abbrev JStr := List Char

/-- JS primitive values as they occur in rows, filters and indexes.
`undefined` is represented by `Option.none` where it can occur. -/
inductive Value where
  | vStr : JStr → Value
  | vNum : Int → Value
  | vBool : Bool → Value
  | vNull : Value
deriving DecidableEq, Repr

/-- JS truthiness of a defined value. -/
def Value.truthy : Value → Bool
  | .vStr s => !s.isEmpty
  | .vNum n => n ≠ 0
  | .vBool b => b
  | .vNull => false

/-- JS string coercion of a defined value (template-literal semantics). -/
def Value.toJSString : Value → JStr
  | .vStr s => s
  | .vNum n => (toString n).data
  | .vBool b => if b then ('t' :: 'r' :: 'u' :: 'e' :: []) else ('f' :: 'a' :: 'l' :: 's' :: 'e' :: [])
  | .vNull => ('n' :: 'u' :: 'l' :: 'l' :: [])

/-- JS string coercion including `undefined`. -/
def toJSStringU : Option Value → JStr
  | some v => v.toJSString
  | none => "undefined".data

/-- A row: an attribute map from column names to defined values
(rows delivered by `getSince` are plain data objects). -/
abbrev Row := List (JStr × Value)

/-- `row[column]` : absent attributes read as `undefined`. -/
def Row.get (r : Row) (c : JStr) : Option Value :=
  (r.find? (·.1 == c)).map (·.2)

/-- A row's index snapshot (`table/rows/id/indexes`): map from index name to
the last computed value, which may itself be `undefined`
(`recalculateIndexes` keeps entries whose extractor returned `undefined`). -/
abbrev Snap := List (JStr × Option Value)

/-- property read on a snapshot object, flattening absent to `undefined` -/
def Snap.getP (m : Snap) (n : JStr) : Option Value :=
  ((m.find? (·.1 == n)).map (·.2)).join

/-- `key in obj` for a snapshot object. -/
def Snap.hasK (m : Snap) (n : JStr) : Bool :=
  m.any (·.1 == n)

/-- One index group `{value, ids}`. Ids are stored as the raw key-path
values of rows; per the TypeScript signatures (`ids: string[]`,
`deleteItem(..., id: string)`) they are strings. -/
structure Group where
  value : Value
  ids : List JStr
deriving DecidableEq, Repr

/-- Table metadata `{lastSync: null | string}`. -/
structure Meta where
  lastSync : Option JStr
deriving DecidableEq, Repr

/-- A value stored in the backing store: row objects, row index snapshots,
index group lists, or table metadata. -/
inductive SV where
  | row : Row → SV
  | snap : Snap → SV
  | idx : List Group → SV
  | meta : Meta → SV
deriving DecidableEq, Repr

/-! ### Association-list maps (JS objects keyed by strings) -/

/-- first-match lookup -/
def getK (s : List (JStr × α)) (k : JStr) : Option α :=
  (s.find? (·.1 == k)).map (·.2)

/-- JS property write: overwrite the (first) occurrence in place if the key
is present, else append at the end (JS objects keep insertion order). -/
def setK : List (JStr × α) → JStr → α → List (JStr × α)
  | [], k, v => [(k, v)]
  | p :: t, k, v => if p.1 = k then (k, v) :: t else p :: setK t k v

/-- JS `delete obj[k]`. -/
def delK (s : List (JStr × α)) (k : JStr) : List (JStr × α) :=
  s.filter (fun p => !(p.1 == k))

@[simp] theorem getK_nil (k : JStr) : getK ([] : List (JStr × α)) k = none := rfl

theorem getK_cons (p : JStr × α) (t : List (JStr × α)) (k : JStr) :
    getK (p :: t) k = if p.1 = k then some p.2 else getK t k := by
  unfold getK
  by_cases h : p.1 = k
  · rw [List.find?_cons_of_pos _ (by simpa using h)]
    simp [h]
  · rw [List.find?_cons_of_neg _ (by simpa using h)]
    simp [h]

theorem getK_setK (s : List (JStr × α)) (k k' : JStr) (v : α) :
    getK (setK s k v) k' = if k' = k then some v else getK s k' := by
  induction s with
  | nil =>
    by_cases h : k' = k
    · simp [setK, getK_cons, h]
    · simp [setK, getK_cons, h, Ne.symm h]
  | cons p t ih =>
    by_cases hp : p.1 = k
    · by_cases h : k' = k
      · simp [setK, hp, getK_cons, h]
      · simp [setK, hp, getK_cons, h, Ne.symm h]
    · by_cases h : k' = k
      · subst h
        simp [setK, hp, getK_cons, ih]
      · simp [setK, hp, getK_cons, ih, h]

theorem delK_cons (p : JStr × α) (t : List (JStr × α)) (k : JStr) :
    delK (p :: t) k = if p.1 = k then delK t k else p :: delK t k := by
  unfold delK
  rw [List.filter_cons]
  by_cases hp : p.1 = k <;> simp [hp]

theorem getK_delK (s : List (JStr × α)) (k k' : JStr) :
    getK (delK s k) k' = if k' = k then none else getK s k' := by
  induction s with
  | nil => simp [delK]
  | cons p t ih =>
    rw [delK_cons]
    by_cases h : k' = k
    · subst h
      by_cases hp : p.1 = k'
      · simp [hp, ih]
      · simp [hp, getK_cons, ih]
    · by_cases hp : p.1 = k
      · simp [hp, ih, h, getK_cons, Ne.symm h]
      · simp [hp, getK_cons, ih, h]

theorem getK_mem {s : List (JStr × α)} {k : JStr} {v : α} (h : getK s k = some v) :
    (k, v) ∈ s := by
  induction s with
  | nil => simp at h
  | cons p t ih =>
    rw [getK_cons] at h
    by_cases hp : p.1 = k
    · simp only [hp, if_pos] at h
      cases p
      simp_all
    · simp only [hp, if_neg, not_false_iff] at h
      exact List.mem_cons_of_mem _ (ih h)

theorem getK_eq_none (s : List (JStr × α)) (k : JStr)
    (h : ∀ v, (k, v) ∉ s) : getK s k = none := by
  induction s with
  | nil => simp
  | cons p t ih =>
    rw [getK_cons]
    by_cases hp : p.1 = k
    · exact absurd (by cases p; simp_all : (k, p.2) ∈ p :: t) (h p.2)
    · simp only [hp, if_neg, not_false_iff]
      exact ih (fun v hv => h v (List.mem_cons_of_mem _ hv))

/-! ### MemoryStorage (staging overlay), from `src/index.ts` (README, first
`MemoryStorage` listing)

A `MemoryStorage` holds a JS object `state` (whose properties can hold
`undefined`: `getItem` caches `this.state[key] = value` even when the
fallback returned `undefined`), a `pendingKeys` list, and an optional
fallback.  We model the configuration used by the code: a root
`MemoryStorage` (no fallback) as `ObjMap`, and one child overlay opened on
it by `transaction`. -/

/-- A JS object used as a store: properties can hold `undefined`. -/
abbrev ObjMap := List (JStr × Option SV)

/-- `Object.prototype.hasOwnProperty`. -/
def ObjMap.hasOwn (m : ObjMap) (k : JStr) : Bool :=
  (getK m k).isSome

/-- property read, flattening both an absent property and a stored
`undefined` to `undefined` -/
def ObjMap.getProp (m : ObjMap) (k : JStr) : Option SV :=
  (getK m k).join

/-- The child overlay: its own `state` object and `pendingKeys`. -/
structure Overlay where
  state : ObjMap
  pending : List JStr
deriving DecidableEq, Repr

/-- `MemoryStorage.getItem` on the child: the overlay's own property wins;
otherwise read the fallback (the root) and cache the result — even an
`undefined` result — into `state`. -/
def ovGetItem (root : ObjMap) (ov : Overlay) (k : JStr) : Option SV × Overlay :=
  if ov.state.hasOwn k then (ov.state.getProp k, ov)
  else
    let v := root.getProp k
    (v, ⟨setK ov.state k v, ov.pending⟩)

/-- `MemoryStorage.setItem` on the child: write the overlay's state and mark
the key pending.  The root is not touched. -/
def ovSetItem (ov : Overlay) (k : JStr) (v : Option SV) : Overlay :=
  ⟨setK ov.state k v, ov.pending ++ [k]⟩

/-- `MemoryStorage.removeItem` on the child: delete from the overlay state,
mark pending, and — eagerly — `await this.fallback.removeItem(key)`. -/
def ovRemoveItem (root : ObjMap) (ov : Overlay) (k : JStr) : ObjMap × Overlay :=
  (delK root k, ⟨delK ov.state k, ov.pending ++ [k]⟩)

/-- duplicate removal keeping first occurrences (`Array.from(new Set(...))`) -/
def dedupAux : List JStr → List JStr → List JStr
  | [], _ => []
  | k :: t, seen => if seen.contains k then dedupAux t seen else k :: dedupAux t (k :: seen)

def dedupF (l : List JStr) : List JStr := dedupAux l []

/-- `MemoryStorage.getAllKeys` on the child: fallback keys, then own state
keys, deduplicated. -/
def ovGetAllKeys (root : ObjMap) (ov : Overlay) : List JStr :=
  dedupF (root.map (·.1) ++ ov.state.map (·.1))

/-- `MemoryStorage.commit`: replay each pending key onto the fallback —
`setItem` with the state's current value if the property still exists,
otherwise `removeItem`. -/
def ovCommit (root : ObjMap) (ov : Overlay) : ObjMap :=
  ov.pending.foldl
    (fun r k => if ov.state.hasOwn k then setK r k (getK ov.state k |>.join) else delK r k)
    root

/-- One storage operation performed by a transaction callback on the child
overlay. -/
inductive StOp where
  | setI (k : JStr) (v : SV)
  | removeI (k : JStr)
  | getI (k : JStr)
deriving DecidableEq, Repr

def stepOp (root : ObjMap) (ov : Overlay) : StOp → ObjMap × Overlay
  | .setI k v => (root, ovSetItem ov k (some v))
  | .removeI k => ovRemoveItem root ov k
  | .getI k => (root, (ovGetItem root ov k).2)

def runOps (root : ObjMap) (ov : Overlay) : List StOp → ObjMap × Overlay
  | [] => (root, ov)
  | op :: rest =>
    let p := stepOp root ov op
    runOps p.1 p.2 rest

/-- `transaction(fn)` where `fn` performs `ops` on the child and then
throws: the child is discarded (`trx.clear()`), the error re-raised, and
the visible backing store is the root as the callback left it. -/
def transactionThrow (root : ObjMap) (ops : List StOp) : ObjMap :=
  (runOps root ⟨[], []⟩ ops).1

/-- `transaction(fn)` where `fn` performs `ops` and returns normally: the
child's pending writes are committed onto the root. -/
def transactionOk (root : ObjMap) (ops : List StOp) : ObjMap :=
  let p := runOps root ⟨[], []⟩ ops
  ovCommit p.1 p.2

/-- whether a storage operation is not a `removeItem` -/
def notRemove : StOp → Bool
  | .removeI _ => false
  | _ => true

theorem runOps_fst_no_remove (ops : List StOp) (root : ObjMap) (ov : Overlay)
    (h : ops.all notRemove = true) : (runOps root ov ops).1 = root := by
  induction ops generalizing ov with
  | nil => rfl
  | cons op rest ih =>
    simp only [List.all_cons, Bool.and_eq_true] at h
    cases op with
    | setI k v => simpa [runOps, stepOp] using ih _ h.2
    | getI k => simpa [runOps, stepOp] using ih _ h.2
    | removeI k => simp [notRemove] at h

/-! ### Claims C1 and C9: transaction rollback and key enumeration -/

/-- whether, after running `ops` left to right, the key `k` would be a
property of the overlay's own `state`: `setItem` and `getItem` (which
caches its read, even a miss) make it one, `removeItem` deletes it. -/
def liveStep (k : JStr) (acc : Bool) : StOp → Bool
  | .setI k2 _ => if k2 = k then true else acc
  | .getI k2 => if k2 = k then true else acc
  | .removeI k2 => if k2 = k then false else acc

def lives (ops : List StOp) (k : JStr) : Bool := ops.foldl (liveStep k) false

theorem hasOwn_setK (m : ObjMap) (k k' : JStr) (v : Option SV) :
    ObjMap.hasOwn (setK m k v) k' = if k' = k then true else m.hasOwn k' := by
  unfold ObjMap.hasOwn
  rw [getK_setK]
  by_cases h : k' = k <;> simp [h]

theorem hasOwn_delK (m : ObjMap) (k k' : JStr) :
    ObjMap.hasOwn (delK m k) k' = if k' = k then false else m.hasOwn k' := by
  unfold ObjMap.hasOwn
  rw [getK_delK]
  by_cases h : k' = k <;> simp [h]

theorem hasOwn_runOps (ops : List StOp) (k : JStr) : ∀ (root : ObjMap) (ov : Overlay),
    ((runOps root ov ops).2).state.hasOwn k = ops.foldl (liveStep k) (ov.state.hasOwn k) := by
  induction ops with
  | nil => intro root ov; rfl
  | cons op rest ih =>
    intro root ov
    cases op with
    | setI k2 v =>
      simp only [runOps, stepOp, ovSetItem, List.foldl_cons]
      rw [ih]
      congr 1
      rw [hasOwn_setK]
      by_cases h : k2 = k
      · simp [liveStep, h]
      · simp [liveStep, h, Ne.symm h]
    | getI k2 =>
      simp only [runOps, stepOp, ovGetItem]
      by_cases hc : ov.state.hasOwn k2
      · simp only [hc, if_pos, List.foldl_cons]
        rw [ih]
        congr 1
        by_cases h : k2 = k
        · subst h
          simp [liveStep, hc]
        · simp [liveStep, h]
      · simp only [hc, if_neg, Bool.false_eq_true, not_false_iff, List.foldl_cons]
        rw [ih]
        congr 1
        rw [hasOwn_setK]
        by_cases h : k2 = k
        · simp [liveStep, h]
        · simp [liveStep, h, Ne.symm h]
    | removeI k2 =>
      simp only [runOps, stepOp, ovRemoveItem, List.foldl_cons]
      rw [ih]
      congr 1
      rw [hasOwn_delK]
      by_cases h : k2 = k
      · simp [liveStep, h]
      · simp [liveStep, h, Ne.symm h]

theorem mem_dedupAux (l : List JStr) (k : JStr) : ∀ seen : List JStr,
    k ∈ dedupAux l seen ↔ k ∈ l ∧ k ∉ seen := by
  induction l with
  | nil => intro seen; simp [dedupAux]
  | cons a t ih =>
    intro seen
    by_cases hc : seen.contains a
    · rw [show dedupAux (a :: t) seen = dedupAux t seen from by
        simp only [dedupAux]
        rw [if_pos hc]]
      rw [ih]
      constructor
      · exact fun ⟨h1, h2⟩ => ⟨List.mem_cons_of_mem _ h1, h2⟩
      · rintro ⟨h1, h2⟩
        rcases List.mem_cons.mp h1 with rfl | h1
        · exact absurd (by simpa using hc) h2
        · exact ⟨h1, h2⟩
    · rw [show dedupAux (a :: t) seen = a :: dedupAux t (a :: seen) from by
        simp only [dedupAux]
        rw [if_neg hc]]
      constructor
      · intro h
        rcases List.mem_cons.mp h with rfl | h
        · exact ⟨List.mem_cons_self _ _, fun hk => hc (by simpa using hk)⟩
        · rcases (ih (a :: seen)).mp h with ⟨h1, h2⟩
          exact ⟨List.mem_cons_of_mem _ h1, fun hk => h2 (List.mem_cons_of_mem _ hk)⟩
      · rintro ⟨h1, h2⟩
        rcases List.mem_cons.mp h1 with rfl | h1
        · exact List.mem_cons_self _ _
        · by_cases hak : k = a
          · subst hak
            exact List.mem_cons_self _ _
          · exact List.mem_cons_of_mem _ ((ih (a :: seen)).mpr
              ⟨h1, fun hk => (List.mem_cons.mp hk).elim hak h2⟩)

theorem mem_dedupF (l : List JStr) (k : JStr) : k ∈ dedupF l ↔ k ∈ l := by
  unfold dedupF
  rw [mem_dedupAux]
  simp

theorem hasOwn_iff_mem_keys (m : ObjMap) (k : JStr) :
    m.hasOwn k = true ↔ k ∈ m.map (·.1) := by
  unfold ObjMap.hasOwn getK
  rw [show (Option.map (fun x => (x : JStr × Option SV).2) (List.find? (fun x => x.1 == k) m)).isSome
      = (List.find? (fun x => (x : JStr × Option SV).1 == k) m).isSome from by
    cases List.find? (fun x => (x : JStr × Option SV).1 == k) m <;> rfl]
  rw [List.find?_isSome]
  simp only [List.mem_map, beq_iff_eq]

/-- Claim C1, corrected.  The claim as stated is false: `removeItem` on the
child overlay is forwarded eagerly to the fallback, so removals performed by
a transaction callback that later throws are NOT rolled back
(`counter_C1`).  Amended: if the callback performs no `removeItem`
(only `setItem`/`getItem`), the backing store after the error propagates is
unchanged from before the transaction began. -/
theorem claim_C1 (root : ObjMap) (ops : List StOp)
    (h : ops.all notRemove = true) :
    transactionThrow root ops = root :=
  runOps_fst_no_remove ops root ⟨[], []⟩ h

/-- Claim C1 counterexample: a callback that removes the one stored key and
then throws leaves the backing store empty — its visible contents changed. -/
theorem counter_C1 :
    transactionThrow [(('k' :: []), some (SV.meta ⟨none⟩))] [StOp.removeI ('k' :: [])] = [] ∧
    ([(('k' :: []), some (SV.meta ⟨none⟩))] : ObjMap) ≠ [] := by
  constructor
  · rfl
  · decide

/-- Claim C1 witness: a concrete set-then-throw transaction on an empty
store leaves it empty. -/
theorem claim_C1_witness :
    transactionThrow [] [StOp.setI ('k' :: []) (SV.meta ⟨none⟩), StOp.getI ('j' :: [])] = [] :=
  claim_C1 [] _ (by decide)

/-- Claim C9, corrected.  The claim as stated is false: `getItem` caches
every read into the overlay's `state` — including a read that found the key
absent everywhere — and `getAllKeys` enumerates all `state` keys, so a key
merely read through the overlay IS reported (`counter_C9`).  Amended:
`keys()` is exactly the union of the delegate's enumerable keys and the
keys currently in the overlay's own state, the latter being the keys
touched by `setItem` or `getItem` and not since removed (`lives`). -/
theorem claim_C9 (root : ObjMap) (ops : List StOp) (k : JStr) :
    k ∈ ovGetAllKeys (runOps root ⟨[], []⟩ ops).1 (runOps root ⟨[], []⟩ ops).2 ↔
    (k ∈ (runOps root ⟨[], []⟩ ops).1.map (·.1) ∨ lives ops k = true) := by
  unfold ovGetAllKeys
  rw [mem_dedupF, List.mem_append]
  have key : ((runOps root ⟨[], []⟩ ops).2).state.hasOwn k = lives ops k := by
    have h0 : (Overlay.mk [] []).state.hasOwn k = false := rfl
    have := hasOwn_runOps ops k root ⟨[], []⟩
    rw [h0] at this
    exact this
  constructor
  · rintro (h | h)
    · exact Or.inl h
    · exact Or.inr (key.symm.trans ((hasOwn_iff_mem_keys _ _).mpr h))
  · rintro (h | h)
    · exact Or.inl h
    · exact Or.inr ((hasOwn_iff_mem_keys _ _).mp (key.trans h))

/-- Claim C9 counterexample: on an empty delegate, a callback that merely
reads key "a" (absent everywhere) makes `getAllKeys` report "a", though the
delegate has no keys and the overlay wrote none. -/
theorem counter_C9 :
    ovGetAllKeys (runOps [] ⟨[], []⟩ [StOp.getI ('a' :: [])]).1
        (runOps [] ⟨[], []⟩ [StOp.getI ('a' :: [])]).2 = [('a' :: [])] ∧
    (runOps [] ⟨[], []⟩ [StOp.getI ('a' :: [])]).1 = [] := by
  constructor
  · rfl
  · rfl

/-! ### Percent-encoding (`encodeURIComponent` / `decodeURIComponent`)

The key scheme in `Database.ts` escapes every path component with
`encodeURIComponent`, while `queryTable` maps `decodeURIComponent` over
stored group ids and over row-key segments.  We model both JS functions:
encoding keeps unreserved characters and escapes each UTF-8 byte as `%XX`;
decoding passes plain characters through and decodes maximal runs of `%XX`
escapes as a UTF-8 sequence, failing (`URIError`, modelled as `none`) on
malformed escapes or invalid sequences. -/

/-- characters `encodeURIComponent` leaves unescaped -/
def isUnreserved (c : Char) : Bool :=
  let n := c.toNat
  decide ((65 ≤ n ∧ n ≤ 90) ∨ (97 ≤ n ∧ n ≤ 122) ∨ (48 ≤ n ∧ n ≤ 57) ∨
    n = 45 ∨ n = 95 ∨ n = 46 ∨ n = 33 ∨ n = 126 ∨ n = 42 ∨ n = 39 ∨ n = 40 ∨ n = 41)

/-- the UTF-8 encoding of one character -/
def utf8Bytes (c : Char) : List Nat :=
  let n := c.toNat
  if n < 128 then [n]
  else if n < 2048 then [192 + n / 64, 128 + n % 64]
  else if n < 65536 then [224 + n / 4096, 128 + (n / 64) % 64, 128 + n % 64]
  else [240 + n / 262144, 128 + (n / 4096) % 64, 128 + (n / 64) % 64, 128 + n % 64]

/-- upper-case hex digit -/
def hexDigit (n : Nat) : Char :=
  if n < 10 then Char.ofNat (48 + n) else Char.ofNat (55 + n)

def encByte (b : Nat) : List Char :=
  '%' :: hexDigit (b / 16) :: hexDigit (b % 16) :: []

def encChar (c : Char) : List Char :=
  if isUnreserved c then [c] else ((utf8Bytes c).map encByte).flatten

def encodeURIComponent (s : JStr) : JStr := (s.map encChar).flatten

/-- hex digit value (both cases, as JS accepts) -/
def hexVal (c : Char) : Option Nat :=
  let n := c.toNat
  if 48 ≤ n ∧ n ≤ 57 then some (n - 48)
  else if 65 ≤ n ∧ n ≤ 70 then some (n - 55)
  else if 97 ≤ n ∧ n ≤ 102 then some (n - 87)
  else none

/-- a plain character or one `%XX`-escaped byte -/
inductive Tok where
  | ch (c : Char)
  | byte (b : Nat)
deriving DecidableEq, Repr

/-- split a string into plain characters and `%XX` escape bytes -/
def toToks : List Char → Option (List Tok)
  | [] => some []
  | c :: rest =>
    if c = '%' then
      match rest with
      | a :: b :: rest2 =>
        match hexVal a, hexVal b with
        | some ha, some hb => (toToks rest2).map (Tok.byte (16 * ha + hb) :: ·)
        | _, _ => none
      | _ => none
    else (toToks rest).map (Tok.ch c :: ·)

/-- allowed ranges for the first continuation byte (WHATWG UTF-8 table) -/
def lo3 (b : Nat) : Nat := if b = 224 then 160 else 128
def hi3 (b : Nat) : Nat := if b = 237 then 159 else 191
def lo4 (b : Nat) : Nat := if b = 240 then 144 else 128
def hi4 (b : Nat) : Nat := if b = 244 then 143 else 191

/-- reassemble: plain characters pass through, escape bytes must form valid
UTF-8 sequences (WHATWG automaton; continuation bytes must themselves come
from escapes).  The state is `none` between sequences, or
`some (lo, hi, need, acc)`: the next byte must lie in `[lo, hi]`, `need`
continuation bytes remain, `acc` is the codepoint accumulator. -/
def deSt : List Tok → Option (Nat × Nat × Nat × Nat) → Option (List Char)
  | [], none => some []
  | [], some _ => none
  | .ch c :: rest, none => (deSt rest none).map (c :: ·)
  | .ch _ :: _, some _ => none
  | .byte b :: rest, none =>
    if b < 128 then (deSt rest none).map (Char.ofNat b :: ·)
    else if b < 194 then none
    else if b ≤ 223 then deSt rest (some (128, 191, 1, b - 192))
    else if b ≤ 239 then deSt rest (some (lo3 b, hi3 b, 2, b - 224))
    else if b ≤ 244 then deSt rest (some (lo4 b, hi4 b, 3, b - 240))
    else none
  | .byte b :: rest, some (lo, hi, need, acc) =>
    if lo ≤ b ∧ b ≤ hi then
      if need = 1 then (deSt rest none).map (Char.ofNat (acc * 64 + (b - 128)) :: ·)
      else deSt rest (some (128, 191, need - 1, acc * 64 + (b - 128)))
    else none

def deToks (l : List Tok) : Option (List Char) := deSt l none

def decodeURIComponent (s : JStr) : Option JStr := (toToks s).bind deToks

/-! ### Round-trip lemmas for the escaping layer -/

theorem toNat_ofNat_char (n : Nat) (h : n.isValidChar) : (Char.ofNat n).toNat = n := by
  unfold Char.ofNat
  rw [dif_pos h]
  rfl

theorem ofNat_toNat_char (c : Char) : Char.ofNat c.toNat = c := by
  have h2 := toNat_ofNat_char c.toNat c.valid
  apply Char.ext
  exact UInt32.ext h2

theorem char_lt (c : Char) : c.toNat < 1114112 := by
  have he : c.toNat = c.val.toNat := rfl
  rcases c.valid with h | h
  · omega
  · omega

theorem char_not_surrogate (c : Char) : c.toNat < 55296 ∨ 57343 < c.toNat := by
  have he : c.toNat = c.val.toNat := rfl
  rcases c.valid with h | h
  · exact Or.inl (by omega)
  · exact Or.inr (by omega)

theorem hexVal_hexDigit (n : Nat) (h : n < 16) : hexVal (hexDigit n) = some n := by
  interval_cases n <;> decide

/-- the token a character contributes after encoding -/
def tokOf (c : Char) : List Tok :=
  if isUnreserved c then [Tok.ch c] else (utf8Bytes c).map Tok.byte

def toksOf (s : JStr) : List Tok := (s.map tokOf).flatten

theorem unreserved_ne_pct {c : Char} (h : isUnreserved c = true) : ¬ c = '%' := by
  intro he
  subst he
  simp [isUnreserved] at h

theorem toToks_cons (c : Char) (r : List Char) :
    toToks (c :: r) =
      if c = '%' then
        match r with
        | a :: b :: rest2 =>
          match hexVal a, hexVal b with
          | some ha, some hb => (toToks rest2).map (Tok.byte (16 * ha + hb) :: ·)
          | _, _ => none
        | _ => none
      else (toToks r).map (Tok.ch c :: ·) := by
  rw [toToks.eq_def]

theorem toToks_cons_ch (c : Char) (r : List Char) (h : ¬ c = '%') :
    toToks (c :: r) = (toToks r).map (Tok.ch c :: ·) := by
  rw [toToks_cons, if_neg h]

theorem toToks_encByte (b : Nat) (hb : b < 256) (r : List Char) :
    toToks (encByte b ++ r) = (toToks r).map (Tok.byte b :: ·) := by
  have h1 : hexVal (hexDigit (b / 16)) = some (b / 16) := hexVal_hexDigit _ (by omega)
  have h2 : hexVal (hexDigit (b % 16)) = some (b % 16) := hexVal_hexDigit _ (by omega)
  have hb' : 16 * (b / 16) + b % 16 = b := by omega
  show toToks ('%' :: hexDigit (b / 16) :: hexDigit (b % 16) :: r) = _
  rw [toToks_cons, if_pos rfl]
  simp only [h1, h2, hb']

theorem toToks_encChar (c : Char) (r : List Char) :
    toToks (encChar c ++ r) = (toToks r).map (tokOf c ++ ·) := by
  by_cases hu : isUnreserved c
  · simp only [encChar, if_pos hu, tokOf, List.singleton_append]
    rw [toToks_cons_ch _ _ (unreserved_ne_pct hu)]
  · simp only [encChar, if_neg hu, tokOf]
    have hlt := char_lt c
    by_cases h1 : c.toNat < 128
    · simp only [utf8Bytes, if_pos h1]
      rw [show (([c.toNat].map encByte).flatten : List Char) = encByte c.toNat ++ [] from by simp]
      rw [List.append_assoc, List.nil_append, toToks_encByte _ (by omega)]
      rfl
    · by_cases h2 : c.toNat < 2048
      · simp only [utf8Bytes, if_neg h1, if_pos h2]
        rw [show (([192 + c.toNat / 64, 128 + c.toNat % 64].map encByte).flatten : List Char)
            = encByte (192 + c.toNat / 64) ++ (encByte (128 + c.toNat % 64) ++ []) from by simp]
        rw [List.append_assoc, List.append_assoc, List.nil_append,
          toToks_encByte _ (by omega), toToks_encByte _ (by omega)]
        cases toToks r <;> rfl
      · by_cases h3 : c.toNat < 65536
        · simp only [utf8Bytes, if_neg h1, if_neg h2, if_pos h3]
          rw [show (([224 + c.toNat / 4096, 128 + c.toNat / 64 % 64, 128 + c.toNat % 64].map
                encByte).flatten : List Char)
              = encByte (224 + c.toNat / 4096) ++ (encByte (128 + c.toNat / 64 % 64) ++
                (encByte (128 + c.toNat % 64) ++ [])) from by simp]
          rw [List.append_assoc, List.append_assoc, List.append_assoc, List.nil_append,
            toToks_encByte _ (by omega), toToks_encByte _ (by omega), toToks_encByte _ (by omega)]
          cases toToks r <;> rfl
        · simp only [utf8Bytes, if_neg h1, if_neg h2, if_neg h3]
          rw [show (([240 + c.toNat / 262144, 128 + c.toNat / 4096 % 64, 128 + c.toNat / 64 % 64,
                128 + c.toNat % 64].map encByte).flatten : List Char)
              = encByte (240 + c.toNat / 262144) ++ (encByte (128 + c.toNat / 4096 % 64) ++
                (encByte (128 + c.toNat / 64 % 64) ++ (encByte (128 + c.toNat % 64) ++ []))) from by
            simp]
          rw [List.append_assoc, List.append_assoc, List.append_assoc, List.append_assoc,
            List.nil_append, toToks_encByte _ (by omega), toToks_encByte _ (by omega),
            toToks_encByte _ (by omega), toToks_encByte _ (by omega)]
          cases toToks r <;> rfl

theorem toToks_enc (s : JStr) (r : List Char) :
    toToks (encodeURIComponent s ++ r) = (toToks r).map (toksOf s ++ ·) := by
  induction s with
  | nil =>
    simp only [encodeURIComponent, List.map_nil, List.flatten_nil, List.nil_append, toksOf]
    cases toToks r <;> rfl
  | cons c t ih =>
    simp only [encodeURIComponent, List.map_cons, List.flatten_cons, List.append_assoc] at *
    rw [toToks_encChar, ih]
    simp only [toksOf, List.map_cons, List.flatten_cons]
    cases toToks r <;> simp [List.append_assoc]

theorem deSt_ch (c : Char) (ts : List Tok) :
    deSt (Tok.ch c :: ts) none = (deSt ts none).map (c :: ·) := by
  rw [deSt.eq_def]

theorem deSt_b1 (b : Nat) (hb : b < 128) (ts : List Tok) :
    deSt (Tok.byte b :: ts) none = (deSt ts none).map (Char.ofNat b :: ·) := by
  rw [deSt.eq_def]
  simp [hb]

theorem deSt_seq2 (b1 b2 : Nat) (ts : List Tok) (h1 : ¬ b1 < 128) (h2 : ¬ b1 < 194)
    (h3 : b1 ≤ 223) (h4 : 128 ≤ b2 ∧ b2 ≤ 191) :
    deSt (Tok.byte b1 :: Tok.byte b2 :: ts) none =
      (deSt ts none).map (Char.ofNat ((b1 - 192) * 64 + (b2 - 128)) :: ·) := by
  rw [deSt.eq_def]
  simp only [h1, h2, h3, if_false, if_true, if_neg, if_pos, not_false_iff]
  rw [deSt.eq_def]
  simp [h4]

theorem deSt_seq3 (b1 b2 b3 : Nat) (ts : List Tok) (h1 : ¬ b1 < 128) (h2 : ¬ b1 < 194)
    (h3 : ¬ b1 ≤ 223) (h4 : b1 ≤ 239) (h5 : lo3 b1 ≤ b2 ∧ b2 ≤ hi3 b1)
    (h6 : 128 ≤ b3 ∧ b3 ≤ 191) :
    deSt (Tok.byte b1 :: Tok.byte b2 :: Tok.byte b3 :: ts) none =
      (deSt ts none).map
        (Char.ofNat ((b1 - 224) * 4096 + (b2 - 128) * 64 + (b3 - 128)) :: ·) := by
  rw [deSt.eq_def]
  simp only [h1, h2, h3, h4, if_false, if_true, if_neg, if_pos, not_false_iff]
  rw [deSt.eq_def]
  simp only [h5.1, h5.2, and_self, and_true, true_and, if_pos,
    show ¬ ((2 : Nat) = 1) from by omega, if_neg, if_false, not_false_iff]
  rw [deSt.eq_def]
  simp only [h6.1, h6.2, and_self, and_true, true_and, if_pos, if_true,
    show (1 : Nat) = 1 from rfl]
  rw [show ((b1 - 224) * 64 + (b2 - 128)) * 64 + (b3 - 128) =
    (b1 - 224) * 4096 + (b2 - 128) * 64 + (b3 - 128) from by ring]

theorem deSt_seq4 (b1 b2 b3 b4 : Nat) (ts : List Tok) (h1 : ¬ b1 < 128) (h2 : ¬ b1 < 194)
    (h3 : ¬ b1 ≤ 223) (h4 : ¬ b1 ≤ 239) (h4b : b1 ≤ 244) (h5 : lo4 b1 ≤ b2 ∧ b2 ≤ hi4 b1)
    (h6 : 128 ≤ b3 ∧ b3 ≤ 191) (h7 : 128 ≤ b4 ∧ b4 ≤ 191) :
    deSt (Tok.byte b1 :: Tok.byte b2 :: Tok.byte b3 :: Tok.byte b4 :: ts) none =
      (deSt ts none).map
        (Char.ofNat ((b1 - 240) * 262144 + (b2 - 128) * 4096 + (b3 - 128) * 64 + (b4 - 128))
          :: ·) := by
  rw [deSt.eq_def]
  simp only [h1, h2, h3, h4, h4b, if_false, if_true, if_neg, if_pos, not_false_iff]
  rw [deSt.eq_def]
  simp only [h5.1, h5.2, and_self, and_true, true_and, if_pos,
    show ¬ ((3 : Nat) = 1) from by omega, if_neg, if_false, not_false_iff]
  rw [deSt.eq_def]
  simp only [h6.1, h6.2, and_self, and_true, true_and, if_pos,
    show ¬ ((3 - 1 : Nat) = 1) from by omega, if_neg, if_false, not_false_iff]
  rw [deSt.eq_def]
  simp only [h7.1, h7.2, and_self, and_true, true_and, if_pos, if_true]
  rw [show (((b1 - 240) * 64 + (b2 - 128)) * 64 + (b3 - 128)) * 64 + (b4 - 128) =
    (b1 - 240) * 262144 + (b2 - 128) * 4096 + (b3 - 128) * 64 + (b4 - 128) from by ring]

theorem deToks_tokOf (c : Char) (ts : List Tok) :
    deToks (tokOf c ++ ts) = (deToks ts).map (c :: ·) := by
  unfold deToks
  by_cases hu : isUnreserved c
  · simp only [tokOf, if_pos hu, List.singleton_append]
    exact deSt_ch c ts
  · simp only [tokOf, if_neg hu]
    have hlt := char_lt c
    have hs := char_not_surrogate c
    by_cases h1 : c.toNat < 128
    · simp only [utf8Bytes, if_pos h1, List.map_cons, List.map_nil, List.cons_append,
        List.nil_append]
      rw [deSt_b1 _ h1, ofNat_toNat_char]
    · by_cases h2 : c.toNat < 2048
      · simp only [utf8Bytes, if_neg h1, if_pos h2, List.map_cons, List.map_nil,
          List.cons_append, List.nil_append]
        rw [deSt_seq2 _ _ _ (by omega) (by omega) (by omega) (by omega)]
        rw [show (192 + c.toNat / 64 - 192) * 64 + (128 + c.toNat % 64 - 128) = c.toNat by
          omega]
        rw [ofNat_toNat_char]
      · by_cases h3 : c.toNat < 65536
        · simp only [utf8Bytes, if_neg h1, if_neg h2, if_pos h3, List.map_cons, List.map_nil,
            List.cons_append, List.nil_append]
          have hE : lo3 (224 + c.toNat / 4096) ≤ 128 + c.toNat / 64 % 64 ∧
              128 + c.toNat / 64 % 64 ≤ hi3 (224 + c.toNat / 4096) := by
            unfold lo3 hi3
            constructor
            · by_cases he : 224 + c.toNat / 4096 = 224
              · rw [if_pos he]; omega
              · rw [if_neg he]; omega
            · by_cases he : 224 + c.toNat / 4096 = 237
              · rw [if_pos he]; omega
              · rw [if_neg he]; omega
          rw [deSt_seq3 _ _ _ _ (by omega) (by omega) (by omega) (by omega) hE (by omega)]
          rw [show (224 + c.toNat / 4096 - 224) * 4096 + (128 + c.toNat / 64 % 64 - 128) * 64 +
              (128 + c.toNat % 64 - 128) = c.toNat by omega]
          rw [ofNat_toNat_char]
        · simp only [utf8Bytes, if_neg h1, if_neg h2, if_neg h3, List.map_cons, List.map_nil,
            List.cons_append, List.nil_append]
          have hE : lo4 (240 + c.toNat / 262144) ≤ 128 + c.toNat / 4096 % 64 ∧
              128 + c.toNat / 4096 % 64 ≤ hi4 (240 + c.toNat / 262144) := by
            unfold lo4 hi4
            constructor
            · by_cases he : 240 + c.toNat / 262144 = 240
              · rw [if_pos he]; omega
              · rw [if_neg he]; omega
            · by_cases he : 240 + c.toNat / 262144 = 244
              · rw [if_pos he]; omega
              · rw [if_neg he]; omega
          rw [deSt_seq4 _ _ _ _ _ (by omega) (by omega) (by omega) (by omega) (by omega) hE
            (by omega) (by omega)]
          rw [show (240 + c.toNat / 262144 - 240) * 262144 + (128 + c.toNat / 4096 % 64 - 128) *
              4096 + (128 + c.toNat / 64 % 64 - 128) * 64 + (128 + c.toNat % 64 - 128) =
              c.toNat by omega]
          rw [ofNat_toNat_char]

theorem deToks_toksOf (s : JStr) (ts : List Tok) :
    deToks (toksOf s ++ ts) = (deToks ts).map (s ++ ·) := by
  induction s with
  | nil =>
    simp only [toksOf, List.map_nil, List.flatten_nil, List.nil_append]
    cases deToks ts <;> rfl
  | cons c t ih =>
    simp only [toksOf, List.map_cons, List.flatten_cons, List.append_assoc] at *
    rw [deToks_tokOf, ih]
    cases deToks ts <;> simp

/-- `decodeURIComponent (encodeURIComponent s) = s` -/
theorem decode_encode (s : JStr) : decodeURIComponent (encodeURIComponent s) = some s := by
  unfold decodeURIComponent
  have h1 := toToks_enc s []
  rw [List.append_nil] at h1
  rw [h1]
  rw [show toToks [] = some [] from rfl]
  rw [show ((some [] : Option (List Tok)).map (toksOf s ++ ·)) = some (toksOf s ++ []) from rfl]
  show deToks (toksOf s ++ []) = some s
  rw [deToks_toksOf]
  rw [show deToks [] = some [] from rfl]
  simp

theorem toToks_noPct (s : JStr) (h : ∀ c ∈ s, ¬ c = '%') :
    toToks s = some (s.map Tok.ch) := by
  induction s with
  | nil => rfl
  | cons c t ih =>
    rw [toToks_cons_ch c t (h c (List.mem_cons_self _ _))]
    rw [ih (fun c2 hc2 => h c2 (List.mem_cons_of_mem _ hc2))]
    rfl

theorem deToks_chs (s : JStr) : deToks (s.map Tok.ch) = some s := by
  induction s with
  | nil => rfl
  | cons c t ih =>
    rw [List.map_cons]
    show deSt (Tok.ch c :: t.map Tok.ch) none = some (c :: t)
    rw [deSt_ch]
    rw [show deSt (t.map Tok.ch) none = some t from ih]
    rfl

/-- a percent-free string decodes to itself -/
theorem decode_noPct (s : JStr) (h : ∀ c ∈ s, ¬ c = '%') :
    decodeURIComponent s = some s := by
  unfold decodeURIComponent
  rw [toToks_noPct s h]
  show deToks (s.map Tok.ch) = some s
  exact deToks_chs s

/-! ### Database (`src/Database.ts`)

The backing store root is an `ObjMap`; transactional code is written
against the interface `TxM`, instantiated once by the plain root store
(`flatTx`: the committed effect of a transaction on the root, used for the
single-operation transactions opened by `patch`/`delete`) and once by a
root with an open child overlay (`ovTx`, used by `sync`, whose
`mergeTable`/`getTableMeta`/`setTableMeta` mix `trx` access with direct
`this.storage` access). -/

/-- the key scheme of `storageKey` (components percent-encoded) -/
def tableKey (key : JStr) : JStr := encodeURIComponent key

def tableMetaKey (key : JStr) : JStr := tableKey key ++ ("/meta").data

def rowsKey (key : JStr) : JStr := tableKey key ++ ("/rows").data

def rowKey (key id : JStr) : JStr := rowsKey key ++ ('/' :: encodeURIComponent id)

def rowIndexKey (key id : JStr) : JStr :=
  tableKey key ++ ("/rows/").data ++ encodeURIComponent id ++ ("/indexes").data

def indexKey (key name : JStr) : JStr :=
  tableKey key ++ ("/indexes/").data ++ encodeURIComponent name

/-- a filter entry: a literal or a predicate function
(`typeof value === 'function'`) -/
inductive FilterVal where
  | lit (v : Value)
  | pred (f : Option Value → Bool)

/-- a filter object (also what a function-valued index extractor is applied
to) -/
abbrev Filter := List (JStr × FilterVal)

/-- a row viewed as a JS object, as passed to extractor functions -/
def rowAsObj (r : Row) : Filter := r.map (fun p => (p.1, FilterVal.lit p.2))

/-- an index definition: a column name or an extractor function -/
inductive IndexDef where
  | col (name : JStr)
  | fn (f : Filter → Option Value)

/-- a registered table (collaborators `getSince`/`isItemDeleted` may
reject, modelled with `Except Unit`) -/
structure TableM where
  key : JStr
  keyPath : JStr
  indexes : List (JStr × IndexDef)
  isItemDeleted : Row → Except Unit Bool
  getSince : Option JStr → Except Unit (List Row)
  forceSync : Bool

/-- `recalculateIndexes`: value of one index for one row -/
def evalIdx : IndexDef → Row → Option Value
  | .col c, r => r.get c
  | .fn f, r => f (rowAsObj r)

/-- `recalculateIndexes(table, item)` (keeps `undefined` entries) -/
def recalc (t : TableM) (item : Row) : Snap :=
  t.indexes.map (fun p => (p.1, evalIdx p.2 item))

/-- `item[table.keyPath]` coerced to the string used in keys and groups -/
def idStrOf (t : TableM) (item : Row) : JStr := toJSStringU (item.get t.keyPath)

/-- untyped stored values read back at typed use sites -/
def asSnap : Option SV → Snap
  | some (.snap m) => m
  | _ => []

def asIdx : Option SV → List Group
  | some (.idx g) => g
  | _ => []

def asRow : Option SV → Option Row
  | some (.row r) => some r
  | _ => none

def asMeta : Option SV → Option Meta
  | some (.meta m) => some m
  | _ => none

/-- storage access of transactional code: `get`/`set`/`remove` go to the
`trx` handle, the `root*` operations model the places where the code uses
`this.storage` directly while a transaction is open. -/
class TxM (σ : Type) where
  get : σ → JStr → (Option SV) × σ
  set : σ → JStr → SV → σ
  remove : σ → JStr → σ
  rootGet : σ → JStr → Option SV
  rootSet : σ → JStr → SV → σ
  rootKeys : σ → List JStr

/-- the committed effect of transactional code on the plain root store -/
instance flatTx : TxM ObjMap where
  get s k := (s.getProp k, s)
  set s k v := setK s k (some v)
  remove s k := delK s k
  rootGet s k := s.getProp k
  rootSet s k v := setK s k (some v)
  rootKeys s := s.map (·.1)

/-- a root store with an open child overlay (`trx`) on it -/
instance ovTx : TxM (ObjMap × Overlay) where
  get p k := ((ovGetItem p.1 p.2 k).1, (p.1, (ovGetItem p.1 p.2 k).2))
  set p k v := (p.1, ovSetItem p.2 k (some v))
  remove p k := ovRemoveItem p.1 p.2 k
  rootGet p k := p.1.getProp k
  rootSet p k v := (setK p.1 k (some v), p.2)
  rootKeys p := p.1.map (·.1)

/-- one index's group-list update: strip `u` from the group whose value is
`rm` (when defined), then append `u` to the group whose value is `ad` (when
defined), creating a fresh `{value, ids: [u]}` group if none matches.
Matching is strict equality. -/
def applyDelta (rm ad : Option Value) (u : JStr) (gs : List Group) : List Group :=
  let gs1 := match rm with
    | none => gs
    | some rv => gs.map (fun g =>
        if !(g.value == rv) then g else ⟨g.value, g.ids.filter (fun i => !(i == u))⟩)
  match ad with
  | none => gs1
  | some av =>
    if gs1.any (fun g => g.value == av) then
      gs1.map (fun g => if !(g.value == av) then g else ⟨g.value, g.ids ++ [u]⟩)
    else gs1 ++ [⟨av, [u]⟩]

/-- the per-index group update of `Database.setItem` (the loop over
`Object.keys(table.indexes)`) -/
def updIdx [TxM σ] (t : TableM) (u : JStr) (rmF upF : Snap) :
    List (JStr × IndexDef) → σ → σ
  | [], s => s
  | (n, _) :: rest, s =>
    if !(Snap.hasK rmF n) && !(Snap.hasK upF n) then updIdx t u rmF upF rest s
    else
      let ikey := indexKey t.key n
      let gs := TxM.get s ikey
      let index2 := applyDelta (Snap.getP rmF n) (Snap.getP upF n) u (asIdx gs.1)
      updIdx t u rmF upF rest (TxM.set gs.2 ikey (SV.idx index2))

/-- the per-index strip of `Database.deleteItem` (loop over all index
names; note it writes every index back, touched or not) -/
def delIdx [TxM σ] (t : TableM) (id : JStr) (removeFrom : Snap) :
    List (JStr × IndexDef) → σ → σ
  | [], s => s
  | (n, _) :: rest, s =>
    let ikey := indexKey t.key n
    let gs := TxM.get s ikey
    let index1 := applyDelta (Snap.getP removeFrom n) none id (asIdx gs.1)
    delIdx t id removeFrom rest (TxM.set gs.2 ikey (SV.idx index1))

/-- `Database.deleteItem(trx, table, id)` -/
def deleteItemS [TxM σ] (t : TableM) (id : JStr) (s : σ) : σ :=
  let indexesKey := rowIndexKey t.key id
  let rkey := rowKey t.key id
  let rf := TxM.get s indexesKey
  let removeFrom := asSnap rf.1
  let s2 := delIdx t id removeFrom t.indexes rf.2
  TxM.remove (TxM.remove s2 rkey) indexesKey

/-- `Database.setItem(trx, table, item)`.  The `isItemDeleted` check runs
first (before any storage access); a rejection propagates with the state
unchanged. -/
def setItemS [TxM σ] (t : TableM) (item : Row) (s : σ) : σ × Except Unit Unit :=
  match t.isItemDeleted item with
  | .error e => (s, .error e)
  | .ok true => (deleteItemS t (idStrOf t item) s, .ok ())
  | .ok false =>
    let u := idStrOf t item
    let itemKey := rowKey t.key u
    let indexesKey := rowIndexKey t.key u
    let ov0 := TxM.get s indexesKey
    let oldIndexes := asSnap ov0.1
    let s2 := TxM.set ov0.2 itemKey (SV.row item)
    let newIndexes := recalc t item
    let removeFrom := oldIndexes.filter (fun p =>
      !(Snap.hasK newIndexes p.1) || !(p.2 == Snap.getP newIndexes p.1))
    let updateTo := newIndexes.filter (fun p =>
      p.2.isSome && (!(Snap.hasK oldIndexes p.1) || !(Snap.getP oldIndexes p.1 == p.2)))
    let s3 := TxM.set s2 indexesKey (SV.snap newIndexes)
    (updIdx t u removeFrom updateTo t.indexes s3, .ok ())

/-- `Database.clearTable(trx, table)`: keys are enumerated from
`this.storage` and filtered by `key.startsWith(table.key)` — the RAW table
key, not the encoded prefix -/
def clearTableS [TxM σ] (t : TableM) (s : σ) : σ :=
  let ids := (TxM.rootKeys s).filter (fun k => t.key.isPrefixOf k)
  ids.foldl (fun s2 k => TxM.remove s2 k) s

/-- `Database.getTableMeta` (reads and lazily writes `this.storage`
directly, never the transaction) -/
def getTableMetaS [TxM σ] (t : TableM) (s : σ) : Meta × σ :=
  match asMeta (TxM.rootGet s (tableMetaKey t.key)) with
  | some m => (m, s)
  | none => (⟨none⟩, TxM.rootSet s (tableMetaKey t.key) (SV.meta ⟨none⟩))

/-- `Database.setTableMeta` (writes `this.storage` directly) -/
def setTableMetaS [TxM σ] (t : TableM) (m : Meta) (s : σ) : σ :=
  TxM.rootSet s (tableMetaKey t.key) (SV.meta m)

/-! ### Query planner (`Database.queryTable`), reading `this.storage` only -/

/-- read of the root store at query time -/
def getSV (s : ObjMap) (k : JStr) : Option SV := s.getProp k

/-- JS truthiness of a filter value (functions are truthy) -/
def fvTruthy : FilterVal → Bool
  | .lit v => v.truthy
  | .pred _ => true

/-- the string a filter value contributes when used as a row id
(`storageKey.row` coerces it; a function would coerce to its source text,
which never names a row — represented by a fixed marker) -/
def fvToIdStr : FilterVal → JStr
  | .lit v => v.toJSString
  | .pred _ => ("function").data

/-- step 1: `let ids = filter[table.keyPath] ? [filter[table.keyPath]] :
null` — note the truthiness test -/
def seedIds (t : TableM) (filter : Filter) : Option (List JStr) :=
  match getK filter t.keyPath with
  | some fv => if fvTruthy fv then some [fvToIdStr fv] else none
  | none => none

/-- step 2: every function-valued index, evaluated against the filter
object -/
def fnIndexLoop (t : TableM) (filter : Filter) (s : ObjMap) :
    List (JStr × IndexDef) → Option (List JStr) → List JStr →
    Except Unit (Option (List JStr) × List JStr)
  | [], ids, idxs => .ok (ids, idxs)
  | (n, d) :: rest, ids, idxs =>
    match d with
    | .col _ => fnIndexLoop t filter s rest ids idxs
    | .fn f =>
      let ikey := indexKey t.key n
      let index := asIdx (getSV s ikey)
      match f filter with
      | none => fnIndexLoop t filter s rest ids idxs
      | some iv =>
        match index.find? (fun g => g.value == iv) with
        | none => fnIndexLoop t filter s rest ids idxs
        | some g =>
          match g.ids.mapM decodeURIComponent with
          | none => .error ()
          | some groupIds =>
            let ids2 := match ids with
              | none => groupIds
              | some l => l.filter (fun i => groupIds.contains i)
            fnIndexLoop t filter s rest (some ids2) (idxs ++ [ikey])

/-- the first column-valued index on a given column name (the
`filter(typeof v === 'string').find(columnName === name)` step) -/
def colIndexName (t : TableM) (name : JStr) : Option JStr :=
  ((t.indexes.filter (fun p => match p.2 with | .col _ => true | .fn _ => false)).find?
    (fun p => match p.2 with | .col c => c == name | .fn _ => false)).map (·.1)

/-- `typeof value === 'function' ? index.find(g => value(g.value)) :
index.find(g => g.value === value)` -/
def findGroup (index : List Group) : FilterVal → Option Group
  | .pred f => index.find? (fun g => f (some g.value))
  | .lit v => index.find? (fun g => g.value == v)

/-- step 3: every filter entry; index hit intersects the candidates, miss
moves the entry into the residual scan filters -/
def filterLoop (t : TableM) (s : ObjMap) :
    List (JStr × FilterVal) → Option (List JStr) → Filter → List JStr →
    Except Unit (Option (List JStr) × Filter × List JStr)
  | [], ids, scanF, idxs => .ok (ids, scanF, idxs)
  | (name, value) :: rest, ids, scanF, idxs =>
    match colIndexName t name with
    | none => filterLoop t s rest ids (setK scanF name value) idxs
    | some n =>
      let ikey := indexKey t.key n
      let index := asIdx (getSV s ikey)
      match findGroup index value with
      | none => filterLoop t s rest ids (setK scanF name value) idxs
      | some g =>
        match g.ids.mapM decodeURIComponent with
        | none => .error ()
        | some groupIds =>
          let ids2 := match ids with
            | none => groupIds
            | some l => l.filter (fun i => groupIds.contains i)
          filterLoop t s rest (some ids2) scanF (idxs ++ [ikey])

/-- JS `String.prototype.split(sep)` -/
def splitCh (sep : Char) : JStr → List JStr
  | [] => [[]]
  | x :: xs =>
    match splitCh sep xs with
    | [] => [[x]]
    | h :: rtl => if x = sep then [] :: h :: rtl else (x :: h) :: rtl

/-- JS `String.prototype.replace(substr, '')`: removes the first
occurrence -/
def replFirst : JStr → JStr → JStr
  | [], _ => []
  | c :: rest, pat =>
    if pat.isPrefixOf (c :: rest) then (c :: rest).drop pat.length
    else c :: replFirst rest pat

/-- one key of the full scan: `key.replace(rowsKeys, '').split('/')
.slice(1)` destructured as `[id, index]`; skip when `index` is truthy,
else decode the id (throwing on malformed escapes; an absent `id` coerces
to the string "undefined") -/
def rowIdFromKey (rowsK : JStr) (k : JStr) : Except Unit (Option JStr) :=
  let parts := (splitCh '/' (replFirst k rowsK)).drop 1
  let idStr := match parts.head? with
    | some s => s
    | none => ("undefined").data
  match parts.drop 1 with
  | ix :: _ =>
    if !ix.isEmpty then .ok none
    else match decodeURIComponent idStr with
      | none => .error ()
      | some d => .ok (some d)
  | [] =>
    match decodeURIComponent idStr with
    | none => .error ()
    | some d => .ok (some d)

/-- step 4: full scan — enumerate all row keys of the table's namespace
(`.filter(Boolean)` drops the skipped entries and falsy ids) -/
def fullScanIds (t : TableM) (s : ObjMap) : Except Unit (List JStr) :=
  let rowsK := rowsKey t.key
  let keys := (s.map (·.1)).filter (fun k => rowsK.isPrefixOf k)
  match keys.mapM (fun k => rowIdFromKey rowsK k) with
  | .error e => .error e
  | .ok l => .ok ((l.filterMap id).filter (fun u => !u.isEmpty))

/-- residual scan filters: literal via strict equality, function via
truthiness of the predicate on the named attribute -/
def matchesScan (sf : Filter) (row : Row) : Bool :=
  sf.all (fun p => match p.2 with
    | .pred f => f (row.get p.1)
    | .lit v => row.get p.1 == some v)

/-- step 5: fetch each candidate row, skip absentees, apply scan filters,
skip `offset` matches, then collect up to `limit` matches.  The source
checks `limit && result.length >= limit`; we carry the remaining allowance
instead of the collected length, `some 0` (falsy in JS) never capping. -/
def collectRows (t : TableM) (s : ObjMap) (sf : Filter) :
    List JStr → Nat → Option Nat → List Row
  | [], _, _ => []
  | id :: rest, offRem, lim =>
    match asRow (getSV s (rowKey t.key id)) with
    | none => collectRows t s sf rest offRem lim
    | some row =>
      if matchesScan sf row then
        if offRem ≠ 0 then collectRows t s sf rest (offRem - 1) lim
        else
          match lim with
          | none => row :: collectRows t s sf rest 0 none
          | some 0 => row :: collectRows t s sf rest 0 (some 0)
          | some 1 => [row]
          | some (l + 2) => row :: collectRows t s sf rest 0 (some (l + 1))
      else collectRows t s sf rest offRem lim

/-- `Database.queryTable(table, filter, {limit, offset})`; `offset`
defaults to no skipping (`Number(undefined)` is `NaN`, falsy like `0`) -/
def queryTable (t : TableM) (s : ObjMap) (filter : Filter)
    (limit offset : Option Nat) : Except Unit (List Row × List JStr) :=
  match fnIndexLoop t filter s t.indexes (seedIds t filter) [] with
  | .error e => .error e
  | .ok (ids1, idxs1) =>
    match filterLoop t s filter ids1 [] idxs1 with
    | .error e => .error e
    | .ok (ids2, scanF, idxs2) =>
      match (match ids2 with
        | some l => Except.ok l
        | none => fullScanIds t s) with
      | .error e => .error e
      | .ok ids3 => .ok (collectRows t s scanF ids3 (offset.getD 0) limit, idxs2)

/-! ### Sync engine (`Database.sync` / `syncTable` / `mergeTable`)

The fetch phase runs all `syncTable` calls (concurrently in the source;
with the in-memory store every await resolves immediately — we model the
table order sequentially).  `getTableMeta` runs once in `syncTable` and
again in `mergeTable`; `getSince` receives the parsed `lastSync` unless
the table is `forceSync` (`Date` values are carried as their source
strings).  The merge phase runs every table's closure in order inside ONE
overlay transaction; on success the overlay commits, on failure it is
discarded (but direct `this.storage` writes and eagerly forwarded
removals have already reached the root). -/

def sinceArg (t : TableM) (m : Meta) : Option JStr :=
  match m.lastSync with
  | some ts => if !ts.isEmpty && !t.forceSync then some ts else none
  | none => none

def fetchTable (t : TableM) (s : ObjMap) : ObjMap × Except Unit (Meta × List Row) :=
  let m1 := getTableMetaS t s
  match t.getSince (sinceArg t m1.1) with
  | .error e => (m1.2, .error e)
  | .ok items =>
    let m2 := getTableMetaS t m1.2
    (m2.2, .ok (m2.1, items))

def fetchPhase (tables : List TableM) (s : ObjMap) :
    ObjMap × Except Unit (List (TableM × Meta × List Row)) :=
  match tables with
  | [] => (s, .ok [])
  | t :: rest =>
    match fetchTable t s with
    | (s1, .error e) => (s1, .error e)
    | (s1, .ok mi) =>
      match fetchPhase rest s1 with
      | (s2, .error e) => (s2, .error e)
      | (s2, .ok l) => (s2, .ok ((t, mi.1, mi.2) :: l))

def mergeItems (t : TableM) (items : List Row) (p : ObjMap × Overlay) :
    (ObjMap × Overlay) × Except Unit Unit :=
  match items with
  | [] => (p, .ok ())
  | item :: rest =>
    match setItemS t item p with
    | (p2, .error e) => (p2, .error e)
    | (p2, .ok ()) => mergeItems t rest p2

/-- the closure returned by `mergeTable`, run inside the transaction
(the captured `meta` is spread into the object written by `setTableMeta`,
whose only field `lastSync` is overwritten) -/
def mergeTableRun (t : TableM) (_m : Meta) (items : List Row) (now : JStr)
    (p : ObjMap × Overlay) : (ObjMap × Overlay) × Except Unit Unit :=
  let p1 := if t.forceSync then clearTableS t p else p
  match mergeItems t items p1 with
  | (p2, .error e) => (p2, .error e)
  | (p2, .ok ()) => (setTableMetaS t ⟨some now⟩ p2, .ok ())

def mergePhase (fetched : List (TableM × Meta × List Row)) (now : JStr)
    (p : ObjMap × Overlay) : (ObjMap × Overlay) × Except Unit Unit :=
  match fetched with
  | [] => (p, .ok ())
  | f :: rest =>
    match mergeTableRun f.1 f.2.1 f.2.2 now p with
    | (p2, .error e) => (p2, .error e)
    | (p2, .ok ()) => mergePhase rest now p2

/-- `Database.sync()`: fetch everything, then one transaction merging all
tables; commit on success, discard the overlay (re-raising) on failure -/
def sync (tables : List TableM) (now : JStr) (s : ObjMap) :
    ObjMap × Except Unit Unit :=
  match fetchPhase tables s with
  | (s1, .error e) => (s1, .error e)
  | (s1, .ok fetched) =>
    match mergePhase fetched now (s1, ⟨[], []⟩) with
    | ((root2, ov2), .ok ()) => (ovCommit root2 ov2, .ok ())
    | ((root2, _), .error e) => (root2, .error e)

/-- `table.patch(item)` without an explicit transaction: opens one
transaction around a single `setItem`; the committed effect on the root
is the flat instance's effect -/
def patchF (t : TableM) (item : Row) (s : ObjMap) : ObjMap × Except Unit Unit :=
  setItemS (σ := ObjMap) t item s

/-- `Database.delete` on an already-computed id: the committed effect of
`deleteItem` inside the transaction -/
def deleteF (t : TableM) (id : JStr) (s : ObjMap) : ObjMap :=
  deleteItemS (σ := ObjMap) t id s

/-- a committed storage-mutating operation on one table -/
inductive Op where
  | patch (item : Row)
  | del (id : JStr)
  | meta (m : Meta)

/-- apply a sequence of committed operations (a rejected `patch` leaves
the store unchanged, as its transaction is discarded before any write) -/
def applyOp (t : TableM) (s : ObjMap) : Op → ObjMap
  | .patch item => (patchF t item s).1
  | .del id => deleteF t id s
  | .meta m => setTableMetaS (σ := ObjMap) t m s

def applyOps (t : TableM) (s : ObjMap) : List Op → ObjMap
  | [] => s
  | op :: rest => applyOps t (applyOp t s op) rest

/-! ### Claims C7 and C8: candidate seeding and pagination -/

/-- a shared concrete demonstration table and rows -/
def tDemo : TableM := {
  key := ("comments").data, keyPath := ("id").data,
  indexes := [(("primary").data, .col (("id").data)),
    (("enabled").data, .col (("active").data))],
  isItemDeleted := fun _ => .ok false, getSince := fun _ => .ok [],
  forceSync := false }

def rowA : Row := [(("id").data, .vStr (("1").data)), (("active").data, .vBool true)]

def rowB : Row := [(("id").data, .vStr (("2").data)), (("active").data, .vBool true)]

def sDemo : ObjMap := applyOps tDemo [] [.patch rowA, .patch rowB]

theorem fnIndexLoop_sub (t : TableM) (filter : Filter) (s : ObjMap) :
    ∀ (lst : List (JStr × IndexDef)) (l : List JStr) (idxs : List JStr)
      (ids2 : Option (List JStr)) (idxs2 : List JStr),
    fnIndexLoop t filter s lst (some l) idxs = .ok (ids2, idxs2) →
    ∃ l2, ids2 = some l2 ∧ l2 ⊆ l := by
  intro lst
  induction lst with
  | nil =>
    intro l idxs ids2 idxs2 h
    cases h
    exact ⟨l, rfl, fun a ha => ha⟩
  | cons p rest ih =>
    intro l idxs ids2 idxs2 h
    obtain ⟨n, d⟩ := p
    cases d with
    | col c => exact ih l idxs ids2 idxs2 h
    | fn f =>
      simp only [fnIndexLoop] at h
      cases hf : f filter with
      | none =>
        simp only [hf] at h
        exact ih l idxs ids2 idxs2 h
      | some iv =>
        simp only [hf] at h
        cases hg : (asIdx (getSV s (indexKey t.key n))).find? (fun g => g.value == iv) with
        | none =>
          simp only [hg] at h
          exact ih l idxs ids2 idxs2 h
        | some g =>
          simp only [hg] at h
          cases hm : g.ids.mapM decodeURIComponent with
          | none =>
            simp only [hm] at h
            cases h
          | some gids =>
            simp only [hm] at h
            obtain ⟨l2, hl2, hsub⟩ := ih _ _ ids2 idxs2 h
            exact ⟨l2, hl2, fun a ha => List.mem_of_mem_filter (hsub ha)⟩

theorem filterLoop_sub (t : TableM) (s : ObjMap) :
    ∀ (entries : List (JStr × FilterVal)) (l : List JStr) (scanF : Filter)
      (idxs : List JStr) (ids2 : Option (List JStr)) (scanF2 : Filter) (idxs2 : List JStr),
    filterLoop t s entries (some l) scanF idxs = .ok (ids2, scanF2, idxs2) →
    ∃ l2, ids2 = some l2 ∧ l2 ⊆ l := by
  intro entries
  induction entries with
  | nil =>
    intro l scanF idxs ids2 scanF2 idxs2 h
    cases h
    exact ⟨l, rfl, fun a ha => ha⟩
  | cons p rest ih =>
    intro l scanF idxs ids2 scanF2 idxs2 h
    obtain ⟨name, value⟩ := p
    simp only [filterLoop] at h
    cases hc : colIndexName t name with
    | none =>
      simp only [hc] at h
      exact ih _ _ _ ids2 scanF2 idxs2 h
    | some n =>
      simp only [hc] at h
      cases hg : findGroup (asIdx (getSV s (indexKey t.key n))) value with
      | none =>
        simp only [hg] at h
        exact ih _ _ _ ids2 scanF2 idxs2 h
      | some g =>
        simp only [hg] at h
        cases hm : g.ids.mapM decodeURIComponent with
        | none =>
          simp only [hm] at h
          cases h
        | some gids =>
          simp only [hm] at h
          obtain ⟨l2, hl2, hsub⟩ := ih _ _ _ ids2 scanF2 idxs2 h
          exact ⟨l2, hl2, fun a ha => List.mem_of_mem_filter (hsub ha)⟩

theorem collect_mem (t : TableM) (s : ObjMap) (sf : Filter) :
    ∀ (ids : List JStr) (off : Nat) (lim : Option Nat) (r : Row),
    r ∈ collectRows t s sf ids off lim →
    ∃ id ∈ ids, asRow (getSV s (rowKey t.key id)) = some r ∧ matchesScan sf r = true := by
  intro ids
  induction ids with
  | nil => intro off lim r h; cases h
  | cons id rest ih =>
    intro off lim r h
    simp only [collectRows] at h
    cases hr : asRow (getSV s (rowKey t.key id)) with
    | none =>
      simp only [hr] at h
      obtain ⟨i2, hi2, h2⟩ := ih off lim r h
      exact ⟨i2, List.mem_cons_of_mem _ hi2, h2⟩
    | some row =>
      simp only [hr] at h
      by_cases hm : matchesScan sf row
      · rw [if_pos hm] at h
        by_cases ho : off ≠ 0
        · rw [if_pos ho] at h
          obtain ⟨i2, hi2, h2⟩ := ih _ lim r h
          exact ⟨i2, List.mem_cons_of_mem _ hi2, h2⟩
        · rw [if_neg ho] at h
          cases lim with
          | none =>
            rcases List.mem_cons.mp h with rfl | h2
            · exact ⟨id, List.mem_cons_self _ _, hr, hm⟩
            · obtain ⟨i2, hi2, h3⟩ := ih 0 none r h2
              exact ⟨i2, List.mem_cons_of_mem _ hi2, h3⟩
          | some l =>
            match l with
            | 0 =>
              rcases List.mem_cons.mp h with rfl | h2
              · exact ⟨id, List.mem_cons_self _ _, hr, hm⟩
              · obtain ⟨i2, hi2, h3⟩ := ih 0 (some 0) r h2
                exact ⟨i2, List.mem_cons_of_mem _ hi2, h3⟩
            | 1 =>
              rcases List.mem_cons.mp h with rfl | h2
              · exact ⟨id, List.mem_cons_self _ _, hr, hm⟩
              · cases h2
            | l + 2 =>
              rcases List.mem_cons.mp h with rfl | h2
              · exact ⟨id, List.mem_cons_self _ _, hr, hm⟩
              · obtain ⟨i2, hi2, h3⟩ := ih 0 (some (l + 1)) r h2
                exact ⟨i2, List.mem_cons_of_mem _ hi2, h3⟩
      · rw [if_neg hm] at h
        obtain ⟨i2, hi2, h2⟩ := ih off lim r h
        exact ⟨i2, List.mem_cons_of_mem _ hi2, h2⟩

/-- Claim C7, corrected.  The claim as stated is false: the seeding test is
JS truthiness (`filter[table.keyPath] ? ... : null`), so a falsy literal
(0, empty string, false) does NOT seed the candidate set (`counter_C7`);
the key-path entry then flows into the ordinary index/scan matching.
Amended: when the filter supplies the key-path column with a TRUTHY
literal `v`, the candidate set is seeded to exactly the one id `String(v)`
— consequently every row a successful query returns is the row stored
under that id. -/
theorem claim_C7 (t : TableM) (s : ObjMap) (filter : Filter) (v : Value)
    (limit offset : Option Nat) (res : List Row) (idxs : List JStr)
    (hv : getK filter t.keyPath = some (.lit v)) (ht : v.truthy = true)
    (hq : queryTable t s filter limit offset = .ok (res, idxs)) :
    seedIds t filter = some [v.toJSString] ∧
    ∀ r ∈ res, asRow (getSV s (rowKey t.key v.toJSString)) = some r := by
  have hseed : seedIds t filter = some [v.toJSString] := by
    unfold seedIds
    rw [hv]
    simp [fvTruthy, ht, fvToIdStr]
  refine ⟨hseed, ?_⟩
  intro r hr
  unfold queryTable at hq
  rw [hseed] at hq
  cases hfn : fnIndexLoop t filter s t.indexes (some [v.toJSString]) [] with
  | error e =>
    simp only [hfn] at hq
    cases hq
  | ok p1 =>
    obtain ⟨ids1, idxs1⟩ := p1
    simp only [hfn] at hq
    obtain ⟨l1, rfl, hsub1⟩ := fnIndexLoop_sub t filter s t.indexes _ _ ids1 idxs1 hfn
    cases hfl : filterLoop t s filter (some l1) [] idxs1 with
    | error e =>
      simp only [hfl] at hq
      cases hq
    | ok p2 =>
      obtain ⟨ids2, scanF, idxs2⟩ := p2
      simp only [hfl] at hq
      obtain ⟨l2, hl2, hsub2⟩ := filterLoop_sub t s filter l1 [] idxs1 ids2 scanF idxs2 hfl
      subst hl2
      have hq2 : Except.ok (ε := Unit)
          (collectRows t s scanF l2 (offset.getD 0) limit, idxs2) = .ok (res, idxs) := hq
      cases hq2
      obtain ⟨id, hid, hrow, _⟩ := collect_mem t s scanF l2 (offset.getD 0) limit r hr
      have : id ∈ [v.toJSString] := hsub1 (hsub2 hid)
      rcases List.mem_singleton.mp this with rfl
      exact hrow

/-- Claim C7 counterexample: with the key-path column `id` filtered by the
falsy literal `""`, the candidate set is not seeded at all (`null`), not
seeded to the one id `""`. -/
theorem counter_C7 :
    seedIds tDemo [(("id").data, FilterVal.lit (Value.vStr []))] = none ∧
    (none : Option (List JStr)) ≠ some [Value.toJSString (Value.vStr [])] := by
  constructor
  · rfl
  · decide

/-- Claim C7 witness: a concrete truthy key-path query on the demo store
returns exactly the row stored under the filtered id. -/
theorem claim_C7_witness :
    seedIds tDemo [(("id").data, FilterVal.lit (Value.vStr (("1").data)))]
      = some [Value.toJSString (Value.vStr (("1").data))] ∧
    ∀ r ∈ [rowA], asRow (getSV sDemo
      (rowKey tDemo.key (Value.toJSString (Value.vStr (("1").data))))) = some r := by
  have h := claim_C7 tDemo sDemo
    [(("id").data, FilterVal.lit (Value.vStr (("1").data)))]
    (Value.vStr (("1").data)) none none [rowA]
    [(("comments/indexes/primary").data)] rfl rfl rfl
  exact ⟨h.1, by
    intro r hr
    rcases List.mem_singleton.mp hr with rfl
    exact h.2 rowA (by
      have : queryTable tDemo sDemo
          [(("id").data, FilterVal.lit (Value.vStr (("1").data)))] none none
          = .ok ([rowA], [(("comments/indexes/primary").data)]) := rfl
      exact List.mem_singleton.mpr rfl)⟩

theorem collect_drop (t : TableM) (s : ObjMap) (sf : Filter) :
    ∀ (ids : List JStr) (k : Nat),
    collectRows t s sf ids k none = (collectRows t s sf ids 0 none).drop k := by
  intro ids
  induction ids with
  | nil => intro k; simp [collectRows]
  | cons id rest ih =>
    intro k
    cases hr : asRow (getSV s (rowKey t.key id)) with
    | none => simp only [collectRows, hr]; exact ih k
    | some row =>
      simp only [collectRows, hr]
      by_cases hm : matchesScan sf row
      · rw [if_pos hm, if_pos hm]
        by_cases hk : k ≠ 0
        · rw [if_neg (by omega : ¬ (0 : Nat) ≠ 0), if_pos hk]
          rw [ih (k - 1)]
          rw [show (row :: collectRows t s sf rest 0 none).drop k
            = (collectRows t s sf rest 0 none).drop (k - 1) from by
            cases k with
            | zero => omega
            | succ m => simp]
        · rw [if_neg (by omega : ¬ (0 : Nat) ≠ 0), if_neg hk]
          have hk0 : k = 0 := by omega
          subst hk0
          rfl
      · rw [if_neg hm, if_neg hm]
        exact ih k

theorem collect_zero (t : TableM) (s : ObjMap) (sf : Filter) :
    ∀ (ids : List JStr) (k : Nat),
    collectRows t s sf ids k (some 0) = (collectRows t s sf ids 0 none).drop k := by
  intro ids
  induction ids with
  | nil => intro k; simp [collectRows]
  | cons id rest ih =>
    intro k
    cases hr : asRow (getSV s (rowKey t.key id)) with
    | none => simp only [collectRows, hr]; exact ih k
    | some row =>
      simp only [collectRows, hr]
      by_cases hm : matchesScan sf row
      · rw [if_pos hm, if_pos hm]
        by_cases hk : k ≠ 0
        · rw [if_neg (by omega : ¬ (0 : Nat) ≠ 0), if_pos hk]
          rw [ih (k - 1)]
          rw [show (row :: collectRows t s sf rest 0 none).drop k
            = (collectRows t s sf rest 0 none).drop (k - 1) from by
            cases k with
            | zero => omega
            | succ m => simp]
        · rw [if_neg (by omega : ¬ (0 : Nat) ≠ 0), if_neg hk]
          have hk0 : k = 0 := by omega
          subst hk0
          rw [ih 0]
          rfl
      · rw [if_neg hm, if_neg hm]
        exact ih k

theorem collect_take (t : TableM) (s : ObjMap) (sf : Filter) :
    ∀ (ids : List JStr) (k n : Nat), 1 ≤ n →
    collectRows t s sf ids k (some n) =
      ((collectRows t s sf ids 0 none).drop k).take n := by
  intro ids
  induction ids with
  | nil => intro k n _; simp [collectRows]
  | cons id rest ih =>
    intro k n hn
    cases hr : asRow (getSV s (rowKey t.key id)) with
    | none => simp only [collectRows, hr]; exact ih k n hn
    | some row =>
      simp only [collectRows, hr]
      by_cases hm : matchesScan sf row
      · rw [if_pos hm, if_pos hm]
        by_cases hk : k ≠ 0
        · rw [if_neg (by omega : ¬ (0 : Nat) ≠ 0), if_pos hk]
          rw [ih (k - 1) n hn]
          rw [show (row :: collectRows t s sf rest 0 none).drop k
            = (collectRows t s sf rest 0 none).drop (k - 1) from by
            cases k with
            | zero => omega
            | succ m => simp]
        · rw [if_neg (by omega : ¬ (0 : Nat) ≠ 0), if_neg hk]
          have hk0 : k = 0 := by omega
          subst hk0
          match n with
          | 1 => rfl
          | l + 2 =>
            show row :: collectRows t s sf rest 0 (some (l + 1))
              = List.take (l + 2) (List.drop 0 (row :: collectRows t s sf rest 0 none))
            rw [ih 0 (l + 1) (by omega)]
            simp
      · rw [if_neg hm, if_neg hm]
        exact ih k n hn

/-- Claim C8, corrected.  Offset and limit compose as claimed for every
positive limit, but `limit=0` is falsy in the `limit && result.length >=
limit` check, so it caps NOTHING (treated as unset), not "at most 0 rows"
(`counter_C8`).  Amended: on a query whose unpaginated run succeeds with
rows `res0`, `offset=k` yields `res0.drop k`, adding `limit=n ≥ 1` yields
`(res0.drop k).take n` (stopping early at the n-th match), and `limit=0`
behaves like no limit. -/
theorem claim_C8 (t : TableM) (s : ObjMap) (filter : Filter) (res0 : List Row)
    (idxs : List JStr) (k n : Nat) (hn : 1 ≤ n)
    (h0 : queryTable t s filter none none = .ok (res0, idxs)) :
    queryTable t s filter none (some k) = .ok (res0.drop k, idxs) ∧
    queryTable t s filter (some n) (some k) = .ok ((res0.drop k).take n, idxs) ∧
    queryTable t s filter (some 0) (some k) = .ok (res0.drop k, idxs) := by
  unfold queryTable at h0 ⊢
  cases hfn : fnIndexLoop t filter s t.indexes (seedIds t filter) [] with
  | error e =>
    simp only [hfn] at h0
    cases h0
  | ok p1 =>
    obtain ⟨ids1, idxs1⟩ := p1
    simp only [hfn] at h0 ⊢
    cases hfl : filterLoop t s filter ids1 [] idxs1 with
    | error e =>
      simp only [hfl] at h0
      cases h0
    | ok p2 =>
      obtain ⟨ids2, scanF, idxs2⟩ := p2
      simp only [hfl] at h0 ⊢
      cases ids2 with
      | some l =>
        simp only [] at h0 ⊢
        cases h0
        refine ⟨?_, ?_, ?_⟩
        · rw [show (some k).getD 0 = k from rfl, show (none : Option Nat).getD 0 = 0 from rfl,
            collect_drop]
        · rw [show (some k).getD 0 = k from rfl, show (none : Option Nat).getD 0 = 0 from rfl,
            collect_take t s scanF l k n hn]
        · rw [show (some k).getD 0 = k from rfl, show (none : Option Nat).getD 0 = 0 from rfl,
            collect_zero]
      | none =>
        cases hfs : fullScanIds t s with
        | error e =>
          simp only [hfs] at h0
          cases h0
        | ok ids3 =>
          simp only [hfs] at h0 ⊢
          cases h0
          refine ⟨?_, ?_, ?_⟩
          · rw [show (some k).getD 0 = k from rfl, show (none : Option Nat).getD 0 = 0 from rfl,
              collect_drop]
          · rw [show (some k).getD 0 = k from rfl, show (none : Option Nat).getD 0 = 0 from rfl,
              collect_take t s scanF ids3 k n hn]
          · rw [show (some k).getD 0 = k from rfl, show (none : Option Nat).getD 0 = 0 from rfl,
              collect_zero]

/-- Claim C8 counterexample: with two matching rows stored, `limit = 0`
returns both rows, not at most 0. -/
theorem counter_C8 :
    queryTable tDemo sDemo [] (some 0) none = .ok ([rowA, rowB], []) ∧
    ([rowA, rowB] : List Row).length > 0 := by
  constructor
  · rfl
  · decide

/-- Claim C8 witness: offset 1 and limit 1 on the demo store. -/
theorem claim_C8_witness :
    queryTable tDemo sDemo [] none (some 1) = .ok ([rowB], []) ∧
    queryTable tDemo sDemo [] (some 1) (some 1) = .ok ([rowB], []) ∧
    queryTable tDemo sDemo [] (some 0) (some 1) = .ok ([rowB], []) := by
  have h := claim_C8 tDemo sDemo [] [rowA, rowB] [] 1 1 (by omega) rfl
  exact h

/-! ### Claims C3 and C6: fetch-phase writes and forced resync -/

theorem getTableMetaS_present (t : TableM) (s : ObjMap) (m : Meta)
    (h : asMeta (TxM.rootGet (σ := ObjMap) s (tableMetaKey t.key)) = some m) :
    getTableMetaS (σ := ObjMap) t s = (m, s) := by
  unfold getTableMetaS
  rw [h]

theorem fetchTable_fst (t : TableM) (s : ObjMap) (m : Meta)
    (h : asMeta (TxM.rootGet (σ := ObjMap) s (tableMetaKey t.key)) = some m) :
    (fetchTable t s).1 = s := by
  unfold fetchTable
  simp only [getTableMetaS_present t s m h]
  cases hgs : t.getSince (sinceArg t m) with
  | error e => simp only [hgs]
  | ok items => simp only [hgs, getTableMetaS_present t s m h]

/-- Claim C3, corrected.  The claim as stated is false: `getTableMeta`
lazily CREATES the meta record — a direct `this.storage.setItem` — during
the fetch phase when a table has no meta yet (the fresh-store case the
claim includes, `counter_C3`).  Amended: when every registered table's
meta already exists in the backing store, the fetch phase performs no
writes: the store afterwards equals the store before, whether the fetch
succeeds or fails. -/
theorem claim_C3 (tables : List TableM) (s : ObjMap)
    (h : tables.all
      (fun t => (asMeta (TxM.rootGet (σ := ObjMap) s (tableMetaKey t.key))).isSome) = true) :
    (fetchPhase tables s).1 = s := by
  induction tables generalizing s with
  | nil => rfl
  | cons t rest ih =>
    simp only [List.all_cons, Bool.and_eq_true] at h
    obtain ⟨m, hm⟩ := Option.isSome_iff_exists.mp h.1
    unfold fetchPhase
    have hft : (fetchTable t s).1 = s := fetchTable_fst t s m hm
    cases hf : fetchTable t s with
    | mk s1 r =>
      have hs1 : s = s1 := by rw [← hft, hf]
      subst hs1
      cases r with
      | error e => rfl
      | ok mi =>
        have hrest := ih s (by
          rw [List.all_eq_true] at *
          exact fun t2 ht2 => h.2 t2 ht2)
        show (match fetchPhase rest s with
          | (s2, Except.error e) => (s2, Except.error e)
          | (s2, Except.ok l) => (s2, Except.ok ((t, mi.1, mi.2) :: l))).1 = s
        cases hfp : fetchPhase rest s with
        | mk s2 r2 =>
          have hs2 : s2 = s := by rw [← hrest, hfp]
          cases r2 with
          | error e => exact hs2
          | ok l => exact hs2

/-- Claim C3 counterexample: on a fresh store, fetching one registered
table writes that table's meta record — the store after the fetch phase is
not the store before. -/
theorem counter_C3 :
    (fetchPhase [tDemo] []).1 = [(tableMetaKey tDemo.key, some (SV.meta ⟨none⟩))] ∧
    (fetchPhase [tDemo] []).1 ≠ [] := by
  constructor
  · rfl
  · decide

/-- Claim C3 witness: with the meta present, the fetch phase writes
nothing. -/
theorem claim_C3_witness :
    (fetchPhase [tDemo] [(tableMetaKey tDemo.key, some (SV.meta ⟨none⟩))]).1
      = [(tableMetaKey tDemo.key, some (SV.meta ⟨none⟩))] :=
  claim_C3 [tDemo] [(tableMetaKey tDemo.key, some (SV.meta ⟨none⟩))] (by decide)

theorem foldl_delK (L : List JStr) : ∀ s : ObjMap,
    L.foldl (fun s2 k => delK s2 k) s = s.filter (fun kv => !(L.contains kv.1)) := by
  induction L with
  | nil =>
    intro s
    simp
  | cons k L ih =>
    intro s
    show L.foldl _ (delK s k) = _
    rw [ih (delK s k)]
    unfold delK
    rw [List.filter_filter]
    apply List.filter_congr
    intro a _
    rw [show (k :: L).contains a.1 = (a.1 == k || L.contains a.1) from rfl]
    cases h1 : a.1 == k <;> cases h2 : L.contains a.1 <;> rfl

theorem clearTable_filter (t : TableM) (s : ObjMap) :
    clearTableS (σ := ObjMap) t s = s.filter (fun kv => !(t.key.isPrefixOf kv.1)) := by
  unfold clearTableS
  rw [show (TxM.rootKeys (σ := ObjMap) s) = s.map (·.1) from rfl]
  rw [show (fun s2 k => TxM.remove (σ := ObjMap) s2 k) = (fun s2 k => delK s2 k) from rfl]
  rw [foldl_delK]
  apply List.filter_congr
  intro kv hkv
  have hmem : kv.1 ∈ s.map (·.1) := List.mem_map.mpr ⟨kv, hkv, rfl⟩
  by_cases hp : t.key.isPrefixOf kv.1
  · have hc : ((s.map (·.1)).filter (fun k => t.key.isPrefixOf k)).contains kv.1 = true := by
      exact List.elem_eq_true_of_mem (List.mem_filter.mpr ⟨hmem, hp⟩)
    rw [hc, hp]
  · have hb : t.key.isPrefixOf kv.1 = false := by
      cases hq : t.key.isPrefixOf kv.1
      · rfl
      · exact absurd hq hp
    have hc : ((s.map (·.1)).filter (fun k => t.key.isPrefixOf k)).contains kv.1 = false := by
      cases hq : ((s.map (·.1)).filter (fun k => t.key.isPrefixOf k)).contains kv.1
      · rfl
      · exfalso
        have hm2 := List.mem_filter.mp (List.mem_of_elem_eq_true hq)
        rw [hb] at hm2
        exact absurd hm2.2 (by simp)
    rw [hc, hb]

/-- Claim C6, corrected.  The first half holds: a `forceSync` table always
passes `null` as "since", whatever its stored `lastSync`.  The second half
is false: the pre-clear enumerates `this.storage` keys and removes every
key with the RAW table key as a string prefix, which — because another
table's key can extend it ("comments" vs "comments2") — can remove keys
belonging to other tables' namespaces (`counter_C6`).  Amended: the purge
removes exactly the keys having the raw table key as a prefix: for
ordinary (encoding-invariant) table keys that is the table's whole
namespace, but it also includes every key of any table whose name extends
this table's name. -/
theorem claim_C6 (t : TableM) (ht : t.forceSync = true) (m : Meta) (s : ObjMap) :
    sinceArg t m = none ∧
    clearTableS (σ := ObjMap) t s = s.filter (fun kv => !(t.key.isPrefixOf kv.1)) := by
  constructor
  · unfold sinceArg
    cases m.lastSync with
    | none => rfl
    | some ts => simp [ht]
  · exact clearTable_filter t s

/-- Claim C6 counterexample: clearing table "comments" removes the row key
of table "comments2". -/
theorem counter_C6 :
    clearTableS (σ := ObjMap)
      { key := ("comments").data, keyPath := ("id").data, indexes := [],
        isItemDeleted := fun _ => .ok false, getSince := fun _ => .ok [],
        forceSync := true }
      [(rowKey (("comments2").data) (("1").data), some (SV.row rowA))] = [] ∧
    ([(rowKey (("comments2").data) (("1").data), some (SV.row rowA))] : ObjMap) ≠ [] ∧
    rowKey (("comments2").data) (("1").data) = ("comments2/rows/1").data := by
  refine ⟨rfl, by decide, by decide⟩

/-- Claim C6 witness: concrete forced table, concrete store. -/
theorem claim_C6_witness :
    sinceArg
      { key := ("comments").data, keyPath := ("id").data, indexes := [],
        isItemDeleted := fun _ => .ok false, getSince := fun _ => .ok [],
        forceSync := true } ⟨some (("2020").data)⟩ = none ∧
    clearTableS (σ := ObjMap)
      { key := ("comments").data, keyPath := ("id").data, indexes := [],
        isItemDeleted := fun _ => .ok false, getSince := fun _ => .ok [],
        forceSync := true } [] = ([] : ObjMap).filter
        (fun kv => !((("comments").data).isPrefixOf kv.1)) :=
  claim_C6 _ rfl ⟨some (("2020").data)⟩ []

/-! ### Claim C2: mid-merge failure and the direct meta writes -/

theorem updIdx_root (t : TableM) (u : JStr) (rmF upF : Snap) :
    ∀ (lst : List (JStr × IndexDef)) (p : ObjMap × Overlay),
    (updIdx t u rmF upF lst p).1 = p.1 := by
  intro lst
  induction lst with
  | nil => intro p; rfl
  | cons q rest ih =>
    intro p
    obtain ⟨n, d⟩ := q
    simp only [updIdx]
    by_cases hc : (!(Snap.hasK rmF n) && !(Snap.hasK upF n)) = true
    · rw [if_pos hc]
      exact ih p
    · rw [if_neg hc]
      rw [ih _]
      rfl

theorem setItemS_root_ok (t : TableM) (item : Row) (p : ObjMap × Overlay)
    (h : t.isItemDeleted item = .ok false) :
    (setItemS t item p).1.1 = p.1 ∧ (setItemS t item p).2 = .ok () := by
  unfold setItemS
  rw [h]
  constructor
  · rw [updIdx_root]
    rfl
  · rfl

theorem mergeItems_root_ok (t : TableM) : ∀ (items : List Row) (p : ObjMap × Overlay),
    (∀ item ∈ items, t.isItemDeleted item = .ok false) →
    (mergeItems t items p).1.1 = p.1 ∧ (mergeItems t items p).2 = .ok () := by
  intro items
  induction items with
  | nil => intro p _; exact ⟨rfl, rfl⟩
  | cons item rest ih =>
    intro p h
    have hs := setItemS_root_ok t item p (h item (List.mem_cons_self _ _))
    unfold mergeItems
    cases hset : setItemS t item p with
    | mk p2 r =>
      have hr : r = .ok () := by rw [← hs.2, hset]
      subst hr
      simp only []
      have hih := ih p2 (fun i hi => h i (List.mem_cons_of_mem _ hi))
      refine ⟨?_, hih.2⟩
      rw [hih.1]
      rw [← hs.1, hset]

theorem mergeTableRun_ok_root (t : TableM) (m : Meta) (items : List Row) (now : JStr)
    (p : ObjMap × Overlay) (hf : t.forceSync = false)
    (hdel : ∀ item ∈ items, t.isItemDeleted item = .ok false) :
    (mergeTableRun t m items now p).1.1
      = setK p.1 (tableMetaKey t.key) (some (SV.meta ⟨some now⟩)) ∧
    (mergeTableRun t m items now p).2 = .ok () := by
  unfold mergeTableRun
  rw [if_neg (by simp [hf])]
  have hmi := mergeItems_root_ok t items p hdel
  cases hmr : mergeItems t items p with
  | mk p2 r =>
    have hr : r = .ok () := by rw [← hmi.2, hmr]
    subst hr
    have hp2 : p2.1 = p.1 := by rw [← hmi.1, hmr]
    constructor
    · simp only [hmr]
      show setK p2.1 (tableMetaKey t.key) (some (SV.meta ⟨some now⟩)) = _
      rw [hp2]
    · simp only [hmr]

theorem mergeTableRun_err_first (t : TableM) (m : Meta) (itemB : Row) (restB : List Row)
    (now : JStr) (p : ObjMap × Overlay) (hf : t.forceSync = false)
    (hdel : t.isItemDeleted itemB = .error ()) :
    mergeTableRun t m (itemB :: restB) now p = (p, .error ()) := by
  unfold mergeTableRun
  rw [if_neg (by simp [hf])]
  unfold mergeItems setItemS
  rw [hdel]

theorem fetchTable_eq (t : TableM) (s : ObjMap) (m : Meta) (items : List Row)
    (hm : asMeta (TxM.rootGet (σ := ObjMap) s (tableMetaKey t.key)) = some m)
    (hg : t.getSince (sinceArg t m) = .ok items) :
    fetchTable t s = (s, .ok (m, items)) := by
  unfold fetchTable
  simp only [getTableMetaS_present t s m hm, hg]

theorem mergeItems_err_prefix (t : TableM) (bad : Row) (after : List Row)
    (hbad : t.isItemDeleted bad = .error ()) :
    ∀ (pre : List Row) (p : ObjMap × Overlay),
      (∀ item ∈ pre, t.isItemDeleted item = .ok false) →
      ∃ p2, mergeItems t (pre ++ bad :: after) p = (p2, .error ()) ∧ p2.1 = p.1
  | [], p, _ => by
    refine ⟨p, ?_, rfl⟩
    rw [List.nil_append]
    unfold mergeItems setItemS
    rw [hbad]
  | item :: pre2, p, hpre => by
    rw [List.cons_append]
    have hs := setItemS_root_ok t item p (hpre item (List.mem_cons_self _ _))
    unfold mergeItems
    cases hset : setItemS t item p with
    | mk p2 r =>
      have hr : r = .ok () := by rw [← hs.2, hset]
      subst hr
      simp only []
      obtain ⟨p3, hm, hp3⟩ := mergeItems_err_prefix t bad after hbad pre2 p2
        (fun i hi => hpre i (List.mem_cons_of_mem _ hi))
      refine ⟨p3, hm, ?_⟩
      rw [hp3, ← hs.1, hset]

theorem mergeTableRun_err (t : TableM) (m : Meta) (now : JStr)
    (pre : List Row) (bad : Row) (after : List Row)
    (hf : t.forceSync = false)
    (hpre : ∀ item ∈ pre, t.isItemDeleted item = .ok false)
    (hbad : t.isItemDeleted bad = .error ()) (p : ObjMap × Overlay) :
    ∃ p2, mergeTableRun t m (pre ++ bad :: after) now p = (p2, .error ())
      ∧ p2.1 = p.1 := by
  unfold mergeTableRun
  rw [if_neg (by simp [hf])]
  obtain ⟨p2, hm2, hp2⟩ := mergeItems_err_prefix t bad after hbad pre p hpre
  refine ⟨p2, ?_, hp2⟩
  simp only [hm2]

/-- the fetch phase on a store holding every table's meta: the state is
untouched and every table's fetched rows are collected -/
theorem fetchPhase_all (mt : TableM → Meta) (items : TableM → List Row) :
    ∀ (tables : List TableM) (s : ObjMap),
      (∀ t ∈ tables,
        asMeta (TxM.rootGet (σ := ObjMap) s (tableMetaKey t.key)) = some (mt t)) →
      (∀ t ∈ tables, t.getSince (sinceArg t (mt t)) = .ok (items t)) →
      fetchPhase tables s = (s, .ok (tables.map (fun t => (t, mt t, items t))))
  | [], _, _, _ => rfl
  | t :: rest, s, hm, hg => by
    have hft := fetchTable_eq t s (mt t) (items t)
      (hm t (List.mem_cons_self _ _)) (hg t (List.mem_cons_self _ _))
    have hrest := fetchPhase_all mt items rest s
      (fun t2 h2 => hm t2 (List.mem_cons_of_mem _ h2))
      (fun t2 h2 => hg t2 (List.mem_cons_of_mem _ h2))
    simp only [fetchPhase, hft, hrest, List.map_cons]

/-- running the merge closures of a prefix of tables whose items are all
non-deleted upserts: only the direct meta writes reach the root store -/
theorem mergePhase_append_ok (now : JStr) :
    ∀ (done rest2 : List (TableM × Meta × List Row)) (p : ObjMap × Overlay),
      (∀ f ∈ done, f.1.forceSync = false
        ∧ ∀ item ∈ f.2.2, f.1.isItemDeleted item = .ok false) →
      ∃ ov1, mergePhase (done ++ rest2) now p
        = mergePhase rest2 now
            (done.foldl (fun acc f =>
              setK acc (tableMetaKey f.1.key) (some (SV.meta ⟨some now⟩))) p.1,
             ov1)
  | [], rest2, p, _ => ⟨p.2, by rw [List.nil_append]; rfl⟩
  | f :: done2, rest2, p, hgood => by
    obtain ⟨t, m, its⟩ := f
    have hg := hgood (t, m, its) (List.mem_cons_self _ _)
    have hrun := mergeTableRun_ok_root t m its now p hg.1 hg.2
    have hstep : mergePhase ((t, m, its) :: (done2 ++ rest2)) now p
        = mergePhase (done2 ++ rest2) now (mergeTableRun t m its now p).1 := by
      cases hmr : mergeTableRun t m its now p with
      | mk p2 r =>
        have hr : r = .ok () := by rw [← hrun.2, hmr]
        subst hr
        simp only [mergePhase, hmr]
    rw [List.cons_append, hstep]
    obtain ⟨ov1, hrest⟩ := mergePhase_append_ok now done2 rest2
      (mergeTableRun t m its now p).1
      (fun f2 h2 => hgood f2 (List.mem_cons_of_mem _ h2))
    refine ⟨ov1, ?_⟩
    rw [hrest, hrun.1, List.foldl_cons]

/-- Claim C2, corrected.  The claim as stated is false: `setTableMeta` (and
the lazy meta creation in `getTableMeta`) write to `this.storage` directly,
bypassing the merge transaction, so when a table's merge fails, the
`lastSync` of every table already merged HAS advanced and survives the
abort (`counter_C2`).  Amended: for any registered tables and a mid-merge
failure at any position of the failing table's item list, the error
propagates and the buffered row/snapshot/index writes are discarded; when the
merged items are all upserts, no table is force-synced and every meta
already exists, the resulting store is exactly the original store with the
already-merged tables' metas advanced to the new timestamp.  (Merge-time
deletions and the force-sync pre-clear would additionally survive, because
`trx.removeItem` is forwarded eagerly to the backing store — the C1
correction; and a missing meta is created during the fetch phase — the C3
correction.) -/
theorem claim_C2 (done : List TableM) (tf : TableM) (rest : List TableM)
    (s : ObjMap) (mt : TableM → Meta) (items : TableM → List Row)
    (now : JStr) (pre after : List Row) (bad : Row)
    (hmetas : ∀ t ∈ done ++ tf :: rest,
      asMeta (TxM.rootGet (σ := ObjMap) s (tableMetaKey t.key)) = some (mt t))
    (hsince : ∀ t ∈ done ++ tf :: rest,
      t.getSince (sinceArg t (mt t)) = .ok (items t))
    (hdonefs : ∀ t ∈ done, t.forceSync = false)
    (hdoneok : ∀ t ∈ done, ∀ item ∈ items t, t.isItemDeleted item = .ok false)
    (htffs : tf.forceSync = false)
    (htfitems : items tf = pre ++ bad :: after)
    (hpre : ∀ item ∈ pre, tf.isItemDeleted item = .ok false)
    (hbad : tf.isItemDeleted bad = .error ()) :
    sync (done ++ tf :: rest) now s
      = (done.foldl (fun acc t =>
          setK acc (tableMetaKey t.key) (some (SV.meta ⟨some now⟩))) s,
        .error ()) := by
  have hfp := fetchPhase_all mt items (done ++ tf :: rest) s hmetas hsince
  unfold sync
  rw [hfp]
  simp only [List.map_append, List.map_cons]
  obtain ⟨ov1, hmp⟩ := mergePhase_append_ok now
    (done.map (fun t => (t, mt t, items t)))
    ((tf, mt tf, items tf) :: rest.map (fun t => (t, mt t, items t)))
    (s, ⟨[], []⟩)
    (fun f hf => by
      rw [List.mem_map] at hf
      obtain ⟨t, ht, rfl⟩ := hf
      exact ⟨hdonefs t ht, hdoneok t ht⟩)
  rw [hmp, htfitems]
  unfold mergePhase
  obtain ⟨p2, hrun, hp2⟩ := mergeTableRun_err tf (mt tf) now pre bad after
    htffs hpre hbad
    ((done.map (fun t => (t, mt t, items t))).foldl (fun acc f =>
      setK acc (tableMetaKey f.1.key) (some (SV.meta ⟨some now⟩)))
      (s, (⟨[], []⟩ : Overlay)).1, ov1)
  obtain ⟨p2r, p2o⟩ := p2
  rw [hrun]
  simp only []
  rw [show p2r = _ from hp2, List.foldl_map]

def tCA : TableM := {
  key := ("a").data, keyPath := ("id").data, indexes := [],
  isItemDeleted := fun _ => .ok false, getSince := fun _ => .ok [rowA],
  forceSync := false }

def tCB : TableM := {
  key := ("b").data, keyPath := ("id").data, indexes := [],
  isItemDeleted := fun _ => .error (), getSince := fun _ => .ok [rowB],
  forceSync := false }

def sC2 : ObjMap := [(tableMetaKey (("a").data), some (SV.meta ⟨none⟩)),
  (tableMetaKey (("b").data), some (SV.meta ⟨none⟩))]

/-- Claim C2 counterexample: table `a` merges first and its `lastSync` is
written straight to the backing store; table `b`'s `isItemDeleted` then
rejects, the transaction aborts and the error propagates — yet table `a`'s
meta has visibly advanced. -/
theorem counter_C2 :
    sync [tCA, tCB] (("T1").data) sC2
      = (setK sC2 (tableMetaKey (("a").data))
          (some (SV.meta ⟨some (("T1").data)⟩)), .error ()) ∧
    ObjMap.getProp (setK sC2 (tableMetaKey (("a").data))
        (some (SV.meta ⟨some (("T1").data)⟩))) (tableMetaKey (("a").data))
      ≠ ObjMap.getProp sC2 (tableMetaKey (("a").data)) := by
  constructor
  · rfl
  · decide

/-- Claim C2 witness: the amended statement at the concrete two-table
configuration. -/
theorem claim_C2_witness :
    sync [tCA, tCB] (("T1").data) sC2
      = (setK sC2 (tableMetaKey tCA.key)
          (some (SV.meta ⟨some (("T1").data)⟩)), .error ()) := by
  have h := claim_C2 [tCA] tCB [] sC2 (fun _ => ⟨none⟩)
    (fun t => if t.key = ("a").data then [rowA] else [rowB]) (("T1").data)
    [] [] rowB
    (fun t ht => by
      simp only [List.cons_append, List.nil_append] at ht
      rcases List.mem_cons.mp ht with rfl | ht2
      · rfl
      · rcases List.mem_cons.mp ht2 with rfl | ht3
        · rfl
        · exact absurd ht3 (List.not_mem_nil t))
    (fun t ht => by
      simp only [List.cons_append, List.nil_append] at ht
      rcases List.mem_cons.mp ht with rfl | ht2
      · rfl
      · rcases List.mem_cons.mp ht2 with rfl | ht3
        · rfl
        · exact absurd ht3 (List.not_mem_nil t))
    (fun t ht => by
      rcases List.mem_cons.mp ht with rfl | ht2
      · rfl
      · exact absurd ht2 (List.not_mem_nil t))
    (fun t ht item _ => by
      rcases List.mem_cons.mp ht with rfl | ht2
      · rfl
      · exact absurd ht2 (List.not_mem_nil t))
    rfl rfl (fun item hi => absurd hi (List.not_mem_nil item)) rfl
  exact h

/-! ### Key-scheme facts: injectivity and namespace disjointness

`storageKey` percent-encodes every variable component, so keys of the
`<table>/rows` namespace determine their row id, and the `rows`, `indexes`
and `meta` namespaces of a table are pairwise disjoint. -/

theorem enc_injective {a b : JStr}
    (h : encodeURIComponent a = encodeURIComponent b) : a = b := by
  have ha := decode_encode a
  rw [h, decode_encode b] at ha
  exact (Option.some.inj ha).symm

theorem hexDigit_not_slash {n : Nat} (h : n < 16) : ¬ hexDigit n = '/' := by
  intro hEq
  have hv : (hexDigit n).toNat = 47 := by rw [hEq]; rfl
  unfold hexDigit at hv
  by_cases h10 : n < 10
  · rw [if_pos h10, toNat_ofNat_char _ (Or.inl (by omega))] at hv
    omega
  · rw [if_neg h10, toNat_ofNat_char _ (Or.inl (by omega))] at hv
    omega

theorem encByte_not_slash {c : Char} {b : Nat} (hb : b < 256)
    (hc : c ∈ encByte b) : ¬ c = '/' := by
  simp only [encByte, List.mem_cons, List.not_mem_nil, or_false] at hc
  rcases hc with hc | hc | hc
  · subst hc; decide
  · subst hc; exact hexDigit_not_slash (by omega)
  · subst hc; exact hexDigit_not_slash (by omega)

theorem utf8Bytes_lt (c : Char) : ∀ b ∈ utf8Bytes c, b < 256 := by
  intro b hb
  have hc := char_lt c
  unfold utf8Bytes at hb
  by_cases h1 : c.toNat < 128
  · simp only [h1, if_pos, List.mem_singleton] at hb
    omega
  · by_cases h2 : c.toNat < 2048
    · simp only [h1, h2, if_neg, if_pos, not_false_iff, List.mem_cons,
        List.not_mem_nil, or_false] at hb
      rcases hb with hb | hb <;> omega
    · by_cases h3 : c.toNat < 65536
      · simp only [h1, h2, h3, if_neg, if_pos, not_false_iff, List.mem_cons,
          List.not_mem_nil, or_false] at hb
        rcases hb with hb | hb | hb <;> omega
      · simp only [h1, h2, h3, if_neg, not_false_iff, List.mem_cons,
          List.not_mem_nil, or_false] at hb
        rcases hb with hb | hb | hb | hb <;> omega

theorem enc_not_slash {s : JStr} {c : Char}
    (hc : c ∈ encodeURIComponent s) : ¬ c = '/' := by
  unfold encodeURIComponent at hc
  rw [List.mem_flatten] at hc
  obtain ⟨l, hl, hcl⟩ := hc
  rw [List.mem_map] at hl
  obtain ⟨c0, _, rfl⟩ := hl
  unfold encChar at hcl
  by_cases hu : isUnreserved c0
  · rw [if_pos hu, List.mem_singleton] at hcl
    subst hcl
    intro hEq
    rw [hEq] at hu
    exact absurd hu (by decide)
  · rw [if_neg hu, List.mem_flatten] at hcl
    obtain ⟨l2, hl2, hcl2⟩ := hcl
    rw [List.mem_map] at hl2
    obtain ⟨b, hbmem, rfl⟩ := hl2
    exact encByte_not_slash (utf8Bytes_lt c0 b hbmem) hcl2

theorem isPrefixOf_append_cancel (a b c : JStr) :
    (a ++ b).isPrefixOf (a ++ c) = b.isPrefixOf c := by
  induction a with
  | nil => rw [List.nil_append, List.nil_append]
  | cons x xs ih => simp [List.isPrefixOf, ih]

theorem isPrefixOf_append_self (a b : JStr) : a.isPrefixOf (a ++ b) = true := by
  have h := List.prefix_append a b
  rwa [← List.isPrefixOf_iff_prefix] at h

/-- `rowIndexKey` normalized onto the `rows` namespace prefix -/
theorem rowIndexKey_eq (key u : JStr) :
    rowIndexKey key u
      = rowsKey key ++ ('/' :: (encodeURIComponent u ++ ("/indexes").data)) := by
  have h : ("/rows/").data = ("/rows").data ++ ['/'] := rfl
  simp [rowIndexKey, rowsKey, h, List.append_assoc]

theorem rowKey_eq (key u : JStr) :
    rowKey key u = rowsKey key ++ ('/' :: encodeURIComponent u) := rfl

theorem rowKey_inj {key u u' : JStr} (h : rowKey key u = rowKey key u') :
    u = u' := by
  unfold rowKey at h
  have h2 := List.append_cancel_left h
  simp only [List.cons.injEq, true_and] at h2
  exact enc_injective h2

theorem rowIndexKey_inj {key u u' : JStr}
    (h : rowIndexKey key u = rowIndexKey key u') : u = u' := by
  rw [rowIndexKey_eq, rowIndexKey_eq] at h
  have h2 := List.append_cancel_left h
  simp only [List.cons.injEq, true_and] at h2
  exact enc_injective (List.append_cancel_right h2)

theorem rowKey_ne_rowIndexKey (key u u' : JStr) :
    ¬ rowKey key u = rowIndexKey key u' := by
  intro h
  rw [rowKey_eq, rowIndexKey_eq] at h
  have h2 := List.append_cancel_left h
  simp only [List.cons.injEq, true_and] at h2
  have hm : '/' ∈ encodeURIComponent u := by
    rw [h2]
    refine List.mem_append_right _ ?_
    decide
  exact enc_not_slash hm rfl

theorem rowsKey_prefix_rowKey (key u : JStr) :
    (rowsKey key).isPrefixOf (rowKey key u) = true := by
  rw [rowKey_eq]
  exact isPrefixOf_append_self _ _

theorem rowsKey_prefix_rowIndexKey (key u : JStr) :
    (rowsKey key).isPrefixOf (rowIndexKey key u) = true := by
  rw [rowIndexKey_eq]
  exact isPrefixOf_append_self _ _

theorem rowsKey_not_prefix_indexKey (key n : JStr) :
    (rowsKey key).isPrefixOf (indexKey key n) = false := by
  unfold rowsKey indexKey
  rw [List.append_assoc, isPrefixOf_append_cancel]
  rfl

theorem rowsKey_not_prefix_metaKey (key : JStr) :
    (rowsKey key).isPrefixOf (tableMetaKey key) = false := by
  unfold rowsKey tableMetaKey
  rw [isPrefixOf_append_cancel]
  rfl

theorem indexKey_inj {key n n' : JStr}
    (h : indexKey key n = indexKey key n') : n = n' := by
  unfold indexKey at h
  rw [List.append_assoc, List.append_assoc] at h
  exact enc_injective (List.append_cancel_left (List.append_cancel_left h))

theorem indexKey_ne_rowKey (key n u : JStr) :
    ¬ indexKey key n = rowKey key u := by
  intro h
  have hp := rowsKey_prefix_rowKey key u
  rw [← h, rowsKey_not_prefix_indexKey] at hp
  exact absurd hp (by decide)

theorem indexKey_ne_rowIndexKey (key n u : JStr) :
    ¬ indexKey key n = rowIndexKey key u := by
  intro h
  have hp := rowsKey_prefix_rowIndexKey key u
  rw [← h, rowsKey_not_prefix_indexKey] at hp
  exact absurd hp (by decide)

theorem tableMetaKey_ne_rowKey (key u : JStr) :
    ¬ tableMetaKey key = rowKey key u := by
  intro h
  have hp := rowsKey_prefix_rowKey key u
  rw [← h, rowsKey_not_prefix_metaKey] at hp
  exact absurd hp (by decide)

theorem tableMetaKey_ne_rowIndexKey (key u : JStr) :
    ¬ tableMetaKey key = rowIndexKey key u := by
  intro h
  have hp := rowsKey_prefix_rowIndexKey key u
  rw [← h, rowsKey_not_prefix_metaKey] at hp
  exact absurd hp (by decide)

theorem tableMetaKey_ne_indexKey (key n : JStr) :
    ¬ tableMetaKey key = indexKey key n := by
  intro h
  unfold tableMetaKey indexKey at h
  rw [List.append_assoc] at h
  have h2 := List.append_cancel_left h
  have h3 := congrArg List.length h2
  rw [List.length_append] at h3
  have h5 : (("/meta").data : JStr).length = 5 := rfl
  have h9 : (("/indexes/").data : JStr).length = 9 := rfl
  rw [h5, h9] at h3
  omega

/-! ### Flat-store property lemmas -/

theorem getProp_setK (s : ObjMap) (k k' : JStr) (v : Option SV) :
    ObjMap.getProp (setK s k v) k' = if k' = k then v else s.getProp k' := by
  unfold ObjMap.getProp
  rw [getK_setK]
  by_cases h : k' = k <;> simp [h]

theorem getProp_delK (s : ObjMap) (k k' : JStr) :
    ObjMap.getProp (delK s k) k' = if k' = k then none else s.getProp k' := by
  unfold ObjMap.getProp
  rw [getK_delK]
  by_cases h : k' = k <;> simp [h]

theorem setK_keys_mem (s : ObjMap) (k k' : JStr) (v : Option SV) :
    k' ∈ (setK s k v).map (·.1) ↔ k' ∈ s.map (·.1) ∨ k' = k := by
  induction s with
  | nil => simp [setK]
  | cons p t ih =>
    by_cases hp : p.1 = k
    · simp only [setK, hp, if_pos, List.map_cons, List.mem_cons]
      tauto
    · simp only [setK, hp, if_neg, not_false_iff, List.map_cons, List.mem_cons, ih]
      tauto

theorem setK_keys_nodup {s : ObjMap} (k : JStr) (v : Option SV)
    (h : (s.map (·.1)).Nodup) : ((setK s k v).map (·.1)).Nodup := by
  induction s with
  | nil => simp [setK]
  | cons p t ih =>
    rw [List.map_cons, List.nodup_cons] at h
    by_cases hp : p.1 = k
    · simp only [setK, hp, if_pos, List.map_cons, List.nodup_cons]
      exact ⟨hp ▸ h.1, h.2⟩
    · simp only [setK, hp, if_neg, not_false_iff, List.map_cons, List.nodup_cons]
      refine ⟨?_, ih h.2⟩
      rw [setK_keys_mem]
      rintro (hmem | hEq)
      · exact h.1 hmem
      · exact hp hEq

theorem delK_keys_sublist (s : ObjMap) (k : JStr) :
    List.Sublist ((delK s k).map (·.1)) (s.map (·.1)) :=
  List.Sublist.map _ (List.filter_sublist s)

theorem delK_keys_nodup {s : ObjMap} (k : JStr)
    (h : (s.map (·.1)).Nodup) : ((delK s k).map (·.1)).Nodup :=
  List.Nodup.sublist (delK_keys_sublist s k) h

theorem delK_keys_mem {s : ObjMap} {k k' : JStr}
    (h : k' ∈ (delK s k).map (·.1)) : k' ∈ s.map (·.1) :=
  (delK_keys_sublist s k).subset h

theorem getProp_mem_keys {s : ObjMap} {k : JStr} {v : SV}
    (h : s.getProp k = some v) : k ∈ s.map (·.1) := by
  unfold ObjMap.getProp at h
  cases hg : getK s k with
  | none => rw [hg] at h; simp at h
  | some ov => exact List.mem_map.mpr ⟨(k, ov), getK_mem hg, rfl⟩

/-! ### Semantics of `applyDelta` on index group lists -/

/-- id `w` is a member of the group for value `v` -/
def memG (gs : List Group) (w : JStr) (v : Value) : Prop :=
  ∃ g, g ∈ gs ∧ g.value = v ∧ w ∈ g.ids

theorem applyDelta_split (rm ad : Option Value) (u : JStr) (gs : List Group) :
    applyDelta rm ad u gs = applyDelta none ad u (applyDelta rm none u gs) := by
  cases rm <;> cases ad <;> rfl

theorem applyDelta_none_none (u : JStr) (gs : List Group) :
    applyDelta none none u gs = gs := rfl

theorem applyDelta_some_none (rv : Value) (u : JStr) (gs : List Group) :
    applyDelta (some rv) none u gs
      = gs.map (fun g => if !(g.value == rv) then g
          else ⟨g.value, g.ids.filter (fun i => !(i == u))⟩) := rfl

theorem applyDelta_none_some (av : Value) (u : JStr) (gs : List Group) :
    applyDelta none (some av) u gs
      = if gs.any (fun g => g.value == av) then
          gs.map (fun g => if !(g.value == av) then g
            else ⟨g.value, g.ids ++ [u]⟩)
        else gs ++ [⟨av, [u]⟩] := rfl

theorem memG_strip (rv : Value) (u : JStr) (gs : List Group) (w : JStr) (v : Value) :
    memG (applyDelta (some rv) none u gs) w v ↔
      (memG gs w v ∧ ¬(w = u ∧ v = rv)) := by
  rw [applyDelta_some_none]
  constructor
  · rintro ⟨g', hg', hval, hw⟩
    simp only [List.mem_map] at hg'
    obtain ⟨g, hg, rfl⟩ := hg'
    by_cases hv : g.value = rv
    · rw [if_neg (by simp [hv])] at hval hw
      simp only at hval hw
      rw [List.mem_filter] at hw
      refine ⟨⟨g, hg, hval, hw.1⟩, ?_⟩
      rintro ⟨rfl, rfl⟩
      have h2 := hw.2
      simp at h2
    · rw [if_pos (by simp [hv])] at hval hw
      refine ⟨⟨g, hg, hval, hw⟩, ?_⟩
      rintro ⟨rfl, rfl⟩
      exact hv hval
  · rintro ⟨⟨g, hg, hval, hw⟩, hne⟩
    by_cases hv : g.value = rv
    · refine ⟨⟨g.value, g.ids.filter (fun i => !(i == u))⟩,
        List.mem_map.mpr ⟨g, hg, by rw [if_neg (by simp [hv])]⟩, hval, ?_⟩
      rw [List.mem_filter]
      refine ⟨hw, ?_⟩
      have hwu : ¬ w = u := fun hwu => hne ⟨hwu, hval.symm.trans hv⟩
      simp [hwu]
    · exact ⟨g, List.mem_map.mpr ⟨g, hg, by rw [if_pos (by simp [hv])]⟩, hval, hw⟩

theorem memG_add (av : Value) (u : JStr) (gs : List Group) (w : JStr) (v : Value) :
    memG (applyDelta none (some av) u gs) w v ↔
      (memG gs w v ∨ (w = u ∧ v = av)) := by
  rw [applyDelta_none_some]
  by_cases hf : gs.any (fun g => g.value == av)
  · rw [if_pos hf]
    constructor
    · rintro ⟨g', hg', hval, hw⟩
      simp only [List.mem_map] at hg'
      obtain ⟨g, hg, rfl⟩ := hg'
      by_cases hv : g.value = av
      · rw [if_neg (by simp [hv])] at hval hw
        simp only at hval hw
        rw [List.mem_append] at hw
        rcases hw with hw | hw
        · exact Or.inl ⟨g, hg, hval, hw⟩
        · rw [List.mem_singleton] at hw
          exact Or.inr ⟨hw, hval.symm.trans hv⟩
      · rw [if_pos (by simp [hv])] at hval hw
        exact Or.inl ⟨g, hg, hval, hw⟩
    · rintro (⟨g, hg, hval, hw⟩ | ⟨hwu, hvav⟩)
      · by_cases hv : g.value = av
        · exact ⟨⟨g.value, g.ids ++ [u]⟩,
            List.mem_map.mpr ⟨g, hg, by rw [if_neg (by simp [hv])]⟩, hval,
            List.mem_append_left _ hw⟩
        · exact ⟨g, List.mem_map.mpr ⟨g, hg, by rw [if_pos (by simp [hv])]⟩, hval, hw⟩
      · rw [List.any_eq_true] at hf
        obtain ⟨g0, hg0, hv0⟩ := hf
        rw [beq_iff_eq] at hv0
        exact ⟨⟨g0.value, g0.ids ++ [u]⟩,
          List.mem_map.mpr ⟨g0, hg0, by rw [if_neg (by simp [hv0])]⟩,
          hv0.trans hvav.symm,
          List.mem_append_right _ (List.mem_singleton.mpr hwu)⟩
  · rw [if_neg hf]
    constructor
    · rintro ⟨g', hg', hval, hw⟩
      rw [List.mem_append] at hg'
      rcases hg' with hg' | hg'
      · exact Or.inl ⟨g', hg', hval, hw⟩
      · rw [List.mem_singleton] at hg'
        subst hg'
        rw [List.mem_singleton] at hw
        exact Or.inr ⟨hw, hval.symm⟩
    · rintro (⟨g, hg, hval, hw⟩ | ⟨hwu, hvav⟩)
      · exact ⟨g, List.mem_append_left _ hg, hval, hw⟩
      · exact ⟨⟨av, [u]⟩, List.mem_append_right _ (List.mem_singleton.mpr rfl),
          hvav.symm, List.mem_singleton.mpr hwu⟩

/-- the full characterization: after the update, `w` is in the group for
`v` iff it already was (and was not just stripped) or was just added -/
theorem memG_applyDelta (rm ad : Option Value) (u : JStr) (gs : List Group)
    (w : JStr) (v : Value) :
    memG (applyDelta rm ad u gs) w v ↔
      ((memG gs w v ∧ ¬(w = u ∧ rm = some v)) ∨ (w = u ∧ ad = some v)) := by
  rw [applyDelta_split]
  cases rm with
  | none =>
    cases ad with
    | none =>
      show memG gs w v ↔ _
      simp
    | some av =>
      rw [memG_add, applyDelta_none_none]
      constructor
      · rintro (h | ⟨h1, h2⟩)
        · exact Or.inl ⟨h, fun hc => by cases hc.2⟩
        · exact Or.inr ⟨h1, by rw [h2]⟩
      · rintro (⟨h1, _⟩ | ⟨h1, h2⟩)
        · exact Or.inl h1
        · exact Or.inr ⟨h1, (Option.some.inj h2).symm⟩
  | some rv =>
    cases ad with
    | none =>
      show memG (applyDelta (some rv) none u gs) w v ↔ _
      rw [memG_strip]
      constructor
      · rintro ⟨h1, h2⟩
        exact Or.inl ⟨h1, fun hc => h2 ⟨hc.1, (Option.some.inj hc.2).symm⟩⟩
      · rintro (⟨h1, h2⟩ | ⟨_, hb⟩)
        · exact ⟨h1, fun hc => h2 ⟨hc.1, by rw [hc.2]⟩⟩
        · exact absurd hb (by simp)
    | some av =>
      rw [memG_add, memG_strip]
      constructor
      · rintro (⟨h1, h2⟩ | ⟨h1, h2⟩)
        · exact Or.inl ⟨h1, fun hc => h2 ⟨hc.1, (Option.some.inj hc.2).symm⟩⟩
        · exact Or.inr ⟨h1, by rw [h2]⟩
      · rintro (⟨h1, h2⟩ | ⟨h1, h2⟩)
        · exact Or.inl ⟨h1, fun hc => h2 ⟨hc.1, by rw [hc.2]⟩⟩
        · exact Or.inr ⟨h1, (Option.some.inj h2).symm⟩

theorem values_strip (rv : Value) (u : JStr) (gs : List Group) :
    (applyDelta (some rv) none u gs).map Group.value = gs.map Group.value := by
  rw [applyDelta_some_none, List.map_map]
  refine List.map_congr_left (fun g _ => ?_)
  by_cases hv : g.value = rv <;> simp [hv]

theorem values_add_found (av : Value) (u : JStr) (gs : List Group)
    (hf : gs.any (fun g => g.value == av) = true) :
    (applyDelta none (some av) u gs).map Group.value = gs.map Group.value := by
  rw [applyDelta_none_some, if_pos hf, List.map_map]
  refine List.map_congr_left (fun g _ => ?_)
  by_cases hv : g.value = av <;> simp [hv]

theorem values_add_new (av : Value) (u : JStr) (gs : List Group)
    (hf : gs.any (fun g => g.value == av) = false) :
    (applyDelta none (some av) u gs).map Group.value
      = gs.map Group.value ++ [av] := by
  rw [applyDelta_none_some, if_neg (by simp [hf]), List.map_append]
  rfl

theorem valsND_add (av : Value) (u : JStr) (gs : List Group)
    (h : (gs.map Group.value).Nodup) :
    ((applyDelta none (some av) u gs).map Group.value).Nodup := by
  cases hf : gs.any (fun g => g.value == av) with
  | true => rw [values_add_found av u gs hf]; exact h
  | false =>
    rw [values_add_new av u gs hf]
    have hav : av ∉ gs.map Group.value := by
      intro hmem
      rw [List.mem_map] at hmem
      obtain ⟨g, hg, hgv⟩ := hmem
      have h2 := List.any_eq_false.mp hf g hg
      exact h2 (by simp [hgv])
    exact List.Nodup.append h (List.nodup_singleton av)
      (fun x hx hx2 => hav (by rw [List.mem_singleton] at hx2; rwa [hx2] at hx))

theorem valsND_applyDelta (rm ad : Option Value) (u : JStr) (gs : List Group)
    (h : (gs.map Group.value).Nodup) :
    ((applyDelta rm ad u gs).map Group.value).Nodup := by
  rw [applyDelta_split]
  have h1 : ((applyDelta rm none u gs).map Group.value).Nodup := by
    cases rm with
    | none => exact h
    | some rv => rw [values_strip]; exact h
  cases ad with
  | none => exact h1
  | some av => exact valsND_add av u _ h1

theorem idsND_strip (rv : Value) (u : JStr) (gs : List Group)
    (h : ∀ g ∈ gs, g.ids.Nodup) :
    ∀ g ∈ applyDelta (some rv) none u gs, g.ids.Nodup := by
  intro g' hg'
  rw [applyDelta_some_none, List.mem_map] at hg'
  obtain ⟨g, hg, rfl⟩ := hg'
  by_cases hv : g.value = rv
  · rw [if_neg (by simp [hv])]
    exact List.Nodup.filter _ (h g hg)
  · rw [if_pos (by simp [hv])]
    exact h g hg

theorem idsND_add (av : Value) (u : JStr) (gs : List Group)
    (h : ∀ g ∈ gs, g.ids.Nodup) (hu : ¬ memG gs u av) :
    ∀ g ∈ applyDelta none (some av) u gs, g.ids.Nodup := by
  intro g' hg'
  rw [applyDelta_none_some] at hg'
  by_cases hf : gs.any (fun g => g.value == av)
  · rw [if_pos hf] at hg'
    rw [List.mem_map] at hg'
    obtain ⟨g, hg, rfl⟩ := hg'
    by_cases hv : g.value = av
    · rw [if_neg (by simp [hv])]
      have hun : u ∉ g.ids := fun hun => hu ⟨g, hg, hv, hun⟩
      exact List.Nodup.append (h g hg) (List.nodup_singleton u)
        (fun x hx hx2 => hun (by rw [List.mem_singleton] at hx2; rwa [hx2] at hx))
    · rw [if_pos (by simp [hv])]
      exact h g hg
  · rw [if_neg hf] at hg'
    rw [List.mem_append] at hg'
    rcases hg' with hg' | hg'
    · exact h g' hg'
    · rw [List.mem_singleton] at hg'
      subst hg'
      exact List.nodup_singleton u

theorem idsND_applyDelta (rm ad : Option Value) (u : JStr) (gs : List Group)
    (h : ∀ g ∈ gs, g.ids.Nodup)
    (hu : ∀ av, ad = some av → ¬ (memG gs u av ∧ ¬(u = u ∧ rm = some av))) :
    ∀ g ∈ applyDelta rm ad u gs, g.ids.Nodup := by
  rw [applyDelta_split]
  have h1 : ∀ g ∈ applyDelta rm none u gs, g.ids.Nodup := by
    cases rm with
    | none => exact h
    | some rv => exact idsND_strip rv u gs h
  cases ad with
  | none => exact h1
  | some av =>
    refine idsND_add av u (applyDelta rm none u gs) h1 ?_
    intro hmem
    rcases (memG_applyDelta rm none u gs u av).mp hmem with hh | ⟨_, hb⟩
    · exact hu av rfl hh
    · exact absurd hb (by simp)

/-! ### Snapshot-object lemmas: the flattened `removeFrom`/`updateTo` values -/

theorem getP_not_mem {m : Snap} {n : JStr} (h : ¬ n ∈ m.map (·.1)) :
    Snap.getP m n = none := by
  unfold Snap.getP
  rw [List.find?_eq_none.mpr ?_]
  · rfl
  · intro x hx hxn
    rw [beq_iff_eq] at hxn
    exact h (List.mem_map.mpr ⟨x, hx, hxn⟩)

theorem getP_of_hasK_false {m : Snap} {n : JStr} (h : Snap.hasK m n = false) :
    Snap.getP m n = none := by
  refine getP_not_mem (fun hmem => ?_)
  rw [List.mem_map] at hmem
  obtain ⟨x, hx, hxn⟩ := hmem
  unfold Snap.hasK at h
  have h2 := List.any_eq_false.mp h x hx
  exact h2 (by simp [hxn])

theorem recalc_find_aux (item : Row) :
    ∀ (lst : List (JStr × IndexDef)) (n : JStr) (d : IndexDef),
      (lst.map (·.1)).Nodup → (n, d) ∈ lst →
      (lst.map (fun p => (p.1, evalIdx p.2 item))).find? (·.1 == n)
        = some (n, evalIdx d item)
  | [], n, d, _, hmem => absurd hmem (List.not_mem_nil _)
  | p :: rest, n, d, hnd, hmem => by
    rw [List.map_cons]
    rw [List.map_cons, List.nodup_cons] at hnd
    rcases List.mem_cons.mp hmem with hEq | hmem2
    · subst hEq
      rw [List.find?_cons_of_pos _ (by simp)]
    · have hpn : ¬ p.1 = n := fun hEq2 => hnd.1
        (by rw [hEq2]; exact List.mem_map.mpr ⟨(n, d), hmem2, rfl⟩)
      rw [List.find?_cons_of_neg _ (by simp [hpn])]
      exact recalc_find_aux item rest n d hnd.2 hmem2

theorem recalc_find {t : TableM} {n : JStr} {d : IndexDef} (item : Row)
    (hnd : (t.indexes.map (·.1)).Nodup) (hmem : (n, d) ∈ t.indexes) :
    (recalc t item).find? (·.1 == n) = some (n, evalIdx d item) :=
  recalc_find_aux item t.indexes n d hnd hmem

theorem recalc_getP {t : TableM} {n : JStr} {d : IndexDef} (item : Row)
    (hnd : (t.indexes.map (·.1)).Nodup) (hmem : (n, d) ∈ t.indexes) :
    Snap.getP (recalc t item) n = evalIdx d item := by
  unfold Snap.getP
  rw [recalc_find item hnd hmem]
  rfl

theorem recalc_hasK {t : TableM} {n : JStr} {d : IndexDef} (item : Row)
    (hmem : (n, d) ∈ t.indexes) :
    Snap.hasK (recalc t item) n = true := by
  unfold Snap.hasK recalc
  rw [List.any_eq_true]
  exact ⟨(n, evalIdx d item), List.mem_map.mpr ⟨(n, d), hmem, rfl⟩, by simp⟩

theorem recalc_keys (t : TableM) (item : Row) :
    (recalc t item).map (·.1) = t.indexes.map (·.1) := by
  unfold recalc
  rw [List.map_map]
  rfl

theorem getP_filter (m : Snap) (p : JStr × Option Value → Bool) (n : JStr)
    (hnd : (m.map (·.1)).Nodup) :
    Snap.getP (m.filter p) n
      = ((m.find? (·.1 == n)).bind (fun e => if p e then e.2 else none)) := by
  induction m with
  | nil => rfl
  | cons q t ih =>
    rw [List.map_cons, List.nodup_cons] at hnd
    rw [List.filter_cons]
    by_cases hq : q.1 = n
    · rw [List.find?_cons_of_pos _ (by simp [hq])]
      by_cases hp : p q
      · rw [if_pos hp]
        unfold Snap.getP
        rw [List.find?_cons_of_pos _ (by simp [hq])]
        simp [hp]
      · rw [if_neg hp]
        have hnm : ¬ n ∈ (t.filter p).map (·.1) := fun hmem => hnd.1
          (by rw [hq]; exact (List.Sublist.map _ (List.filter_sublist t)).subset hmem)
        rw [getP_not_mem hnm]
        simp [hp]
    · rw [List.find?_cons_of_neg _ (by simp [hq])]
      by_cases hp : p q
      · rw [if_pos hp]
        unfold Snap.getP
        rw [List.find?_cons_of_neg _ (by simp [hq])]
        exact ih hnd.2
      · rw [if_neg hp]
        exact ih hnd.2

/-- flattened value of `removeFrom` at index `n` when the row previously
existed with snapshot `recalc t r_old` -/
theorem removeFrom_getP (t : TableM) (r_old item : Row) {n : JStr} {d : IndexDef}
    (hnd : (t.indexes.map (·.1)).Nodup) (hmem : (n, d) ∈ t.indexes) :
    Snap.getP ((recalc t r_old).filter (fun p =>
        !(Snap.hasK (recalc t item) p.1) || !(p.2 == Snap.getP (recalc t item) p.1))) n
      = if evalIdx d r_old = evalIdx d item then none else evalIdx d r_old := by
  rw [getP_filter _ _ _ (by rw [recalc_keys]; exact hnd),
    recalc_find r_old hnd hmem]
  show (if (!(Snap.hasK (recalc t item) n)
      || !((evalIdx d r_old) == Snap.getP (recalc t item) n)) = true
    then evalIdx d r_old else none) = _
  rw [recalc_hasK item hmem, recalc_getP item hnd hmem]
  by_cases hEq : evalIdx d r_old = evalIdx d item
  · simp [hEq]
  · simp [hEq]

/-- flattened value of `updateTo` at index `n` when the row previously
existed with snapshot `recalc t r_old` -/
theorem updateTo_getP (t : TableM) (r_old item : Row) {n : JStr} {d : IndexDef}
    (hnd : (t.indexes.map (·.1)).Nodup) (hmem : (n, d) ∈ t.indexes) :
    Snap.getP ((recalc t item).filter (fun p =>
        p.2.isSome && (!(Snap.hasK (recalc t r_old) p.1)
          || !(Snap.getP (recalc t r_old) p.1 == p.2)))) n
      = if evalIdx d r_old = evalIdx d item then none else evalIdx d item := by
  rw [getP_filter _ _ _ (by rw [recalc_keys]; exact hnd),
    recalc_find item hnd hmem]
  show (if ((evalIdx d item).isSome && (!(Snap.hasK (recalc t r_old) n)
      || !(Snap.getP (recalc t r_old) n == evalIdx d item))) = true
    then evalIdx d item else none) = _
  rw [recalc_hasK r_old hmem, recalc_getP r_old hnd hmem]
  by_cases hEq : evalIdx d r_old = evalIdx d item
  · simp [hEq]
  · cases hnew : evalIdx d item <;> simp [hEq, hnew]

/-- flattened value of `updateTo` at index `n` when the row did not
previously exist (`oldIndexes = {}`) -/
theorem updateTo_getP_empty (t : TableM) (item : Row) {n : JStr} {d : IndexDef}
    (hnd : (t.indexes.map (·.1)).Nodup) (hmem : (n, d) ∈ t.indexes) :
    Snap.getP ((recalc t item).filter (fun p =>
        p.2.isSome && (!(Snap.hasK ([] : Snap) p.1)
          || !(Snap.getP ([] : Snap) p.1 == p.2)))) n
      = evalIdx d item := by
  rw [getP_filter _ _ _ (by rw [recalc_keys]; exact hnd),
    recalc_find item hnd hmem]
  show (if ((evalIdx d item).isSome && (!(Snap.hasK ([] : Snap) n)
      || !(Snap.getP ([] : Snap) n == evalIdx d item))) = true
    then evalIdx d item else none) = _
  cases hnew : evalIdx d item <;> simp [Snap.hasK, Snap.getP]

/-! ### The flat instance: committed effect of the index-update loops -/

theorem flat_get (s : ObjMap) (k : JStr) :
    TxM.get (σ := ObjMap) s k = (s.getProp k, s) := rfl

theorem flat_set (s : ObjMap) (k : JStr) (v : SV) :
    TxM.set (σ := ObjMap) s k v = setK s k (some v) := rfl

theorem flat_remove (s : ObjMap) (k : JStr) :
    TxM.remove (σ := ObjMap) s k = delK s k := rfl

theorem updIdx_flat_frame (t : TableM) (u : JStr) (rmF upF : Snap) :
    ∀ (lst : List (JStr × IndexDef)) (s : ObjMap) (k : JStr),
      (∀ n ∈ lst.map (·.1), ¬ k = indexKey t.key n) →
      ObjMap.getProp (updIdx (σ := ObjMap) t u rmF upF lst s) k = s.getProp k := by
  intro lst
  induction lst with
  | nil => intro s k _; rfl
  | cons p rest ih =>
    intro s k hk
    obtain ⟨n, d⟩ := p
    simp only [updIdx, flat_get, flat_set]
    by_cases hskip : (!(Snap.hasK rmF n) && !(Snap.hasK upF n)) = true
    · rw [if_pos hskip]
      exact ih s k (fun n' h' => hk n' (List.mem_cons_of_mem _ h'))
    · rw [if_neg hskip]
      rw [ih _ k (fun n' h' => hk n' (List.mem_cons_of_mem _ h'))]
      rw [getProp_setK, if_neg (hk n (List.mem_cons_self _ _))]

theorem updIdx_flat_idxAt (t : TableM) (u : JStr) (rmF upF : Snap) :
    ∀ (lst : List (JStr × IndexDef)) (s : ObjMap) (n : JStr) (d : IndexDef),
      (lst.map (·.1)).Nodup → (n, d) ∈ lst →
      asIdx (ObjMap.getProp (updIdx (σ := ObjMap) t u rmF upF lst s)
          (indexKey t.key n))
        = applyDelta (Snap.getP rmF n) (Snap.getP upF n) u
            (asIdx (s.getProp (indexKey t.key n))) := by
  intro lst
  induction lst with
  | nil => intro s n d _ hmem; exact absurd hmem (List.not_mem_nil _)
  | cons p rest ih =>
    intro s n d hnd hmem
    obtain ⟨n1, d1⟩ := p
    rw [List.map_cons, List.nodup_cons] at hnd
    simp only [updIdx, flat_get, flat_set]
    rcases List.mem_cons.mp hmem with hEq | hmem2
    · injection hEq with hEq1 hEq2
      subst hEq1
      subst hEq2
      have hfr : ∀ n' ∈ rest.map (·.1), ¬ indexKey t.key n = indexKey t.key n' :=
        fun n' h' hik => hnd.1 (by rw [indexKey_inj hik]; exact h')
      by_cases hskip : (!(Snap.hasK rmF n) && !(Snap.hasK upF n)) = true
      · rw [if_pos hskip]
        rw [Bool.and_eq_true, Bool.not_eq_true', Bool.not_eq_true'] at hskip
        rw [updIdx_flat_frame t u rmF upF rest s (indexKey t.key n) hfr]
        rw [getP_of_hasK_false hskip.1, getP_of_hasK_false hskip.2,
          applyDelta_none_none]
      · rw [if_neg hskip]
        rw [updIdx_flat_frame t u rmF upF rest _ (indexKey t.key n) hfr]
        rw [getProp_setK, if_pos rfl]
        rfl
    · have hne : ¬ n = n1 := fun hEq2 => hnd.1
        (by rw [← hEq2]; exact List.mem_map.mpr ⟨(n, d), hmem2, rfl⟩)
      by_cases hskip : (!(Snap.hasK rmF n1) && !(Snap.hasK upF n1)) = true
      · rw [if_pos hskip]
        exact ih s n d hnd.2 hmem2
      · rw [if_neg hskip]
        rw [ih _ n d hnd.2 hmem2]
        rw [getProp_setK, if_neg (fun hEq2 => hne (indexKey_inj hEq2))]

theorem updIdx_flat_keys_mem (t : TableM) (u : JStr) (rmF upF : Snap) :
    ∀ (lst : List (JStr × IndexDef)) (s : ObjMap) (k : JStr),
      k ∈ (updIdx (σ := ObjMap) t u rmF upF lst s).map (·.1) →
      k ∈ s.map (·.1) ∨ ∃ n, n ∈ lst.map (·.1) ∧ k = indexKey t.key n := by
  intro lst
  induction lst with
  | nil => intro s k h; exact Or.inl h
  | cons p rest ih =>
    intro s k h
    obtain ⟨n1, d1⟩ := p
    simp only [updIdx, flat_get, flat_set] at h
    by_cases hskip : (!(Snap.hasK rmF n1) && !(Snap.hasK upF n1)) = true
    · rw [if_pos hskip] at h
      rcases ih s k h with h2 | ⟨n, hn, hk⟩
      · exact Or.inl h2
      · exact Or.inr ⟨n, by simp only [List.map_cons, List.mem_cons]; exact Or.inr hn, hk⟩
    · rw [if_neg hskip] at h
      rcases ih _ k h with h2 | ⟨n, hn, hk⟩
      · rcases (setK_keys_mem s _ k _).mp h2 with h3 | h3
        · exact Or.inl h3
        · exact Or.inr ⟨n1, List.mem_cons_self _ _, h3⟩
      · exact Or.inr ⟨n, by simp only [List.map_cons, List.mem_cons]; exact Or.inr hn, hk⟩

theorem updIdx_flat_keys_nodup (t : TableM) (u : JStr) (rmF upF : Snap) :
    ∀ (lst : List (JStr × IndexDef)) (s : ObjMap),
      (s.map (·.1)).Nodup →
      ((updIdx (σ := ObjMap) t u rmF upF lst s).map (·.1)).Nodup := by
  intro lst
  induction lst with
  | nil => intro s h; exact h
  | cons p rest ih =>
    intro s h
    obtain ⟨n1, d1⟩ := p
    simp only [updIdx, flat_get, flat_set]
    by_cases hskip : (!(Snap.hasK rmF n1) && !(Snap.hasK upF n1)) = true
    · rw [if_pos hskip]
      exact ih s h
    · rw [if_neg hskip]
      exact ih _ (setK_keys_nodup _ _ h)

theorem delIdx_flat_frame (t : TableM) (idv : JStr) (rf : Snap) :
    ∀ (lst : List (JStr × IndexDef)) (s : ObjMap) (k : JStr),
      (∀ n ∈ lst.map (·.1), ¬ k = indexKey t.key n) →
      ObjMap.getProp (delIdx (σ := ObjMap) t idv rf lst s) k = s.getProp k := by
  intro lst
  induction lst with
  | nil => intro s k _; rfl
  | cons p rest ih =>
    intro s k hk
    obtain ⟨n, d⟩ := p
    simp only [delIdx, flat_get, flat_set]
    rw [ih _ k (fun n' h' => hk n' (List.mem_cons_of_mem _ h'))]
    rw [getProp_setK, if_neg (hk n (List.mem_cons_self _ _))]

theorem delIdx_flat_idxAt (t : TableM) (idv : JStr) (rf : Snap) :
    ∀ (lst : List (JStr × IndexDef)) (s : ObjMap) (n : JStr) (d : IndexDef),
      (lst.map (·.1)).Nodup → (n, d) ∈ lst →
      asIdx (ObjMap.getProp (delIdx (σ := ObjMap) t idv rf lst s)
          (indexKey t.key n))
        = applyDelta (Snap.getP rf n) none idv
            (asIdx (s.getProp (indexKey t.key n))) := by
  intro lst
  induction lst with
  | nil => intro s n d _ hmem; exact absurd hmem (List.not_mem_nil _)
  | cons p rest ih =>
    intro s n d hnd hmem
    obtain ⟨n1, d1⟩ := p
    rw [List.map_cons, List.nodup_cons] at hnd
    simp only [delIdx, flat_get, flat_set]
    rcases List.mem_cons.mp hmem with hEq | hmem2
    · injection hEq with hEq1 hEq2
      subst hEq1
      subst hEq2
      have hfr : ∀ n' ∈ rest.map (·.1), ¬ indexKey t.key n = indexKey t.key n' :=
        fun n' h' hik => hnd.1 (by rw [indexKey_inj hik]; exact h')
      rw [delIdx_flat_frame t idv rf rest _ (indexKey t.key n) hfr]
      rw [getProp_setK, if_pos rfl]
      rfl
    · have hne : ¬ n = n1 := fun hEq2 => hnd.1
        (by rw [← hEq2]; exact List.mem_map.mpr ⟨(n, d), hmem2, rfl⟩)
      rw [ih _ n d hnd.2 hmem2]
      rw [getProp_setK, if_neg (fun hEq2 => hne (indexKey_inj hEq2))]

theorem delIdx_flat_keys_mem (t : TableM) (idv : JStr) (rf : Snap) :
    ∀ (lst : List (JStr × IndexDef)) (s : ObjMap) (k : JStr),
      k ∈ (delIdx (σ := ObjMap) t idv rf lst s).map (·.1) →
      k ∈ s.map (·.1) ∨ ∃ n, n ∈ lst.map (·.1) ∧ k = indexKey t.key n := by
  intro lst
  induction lst with
  | nil => intro s k h; exact Or.inl h
  | cons p rest ih =>
    intro s k h
    obtain ⟨n1, d1⟩ := p
    simp only [delIdx, flat_get, flat_set] at h
    rcases ih _ k h with h2 | ⟨n, hn, hk⟩
    · rcases (setK_keys_mem s _ k _).mp h2 with h3 | h3
      · exact Or.inl h3
      · exact Or.inr ⟨n1, List.mem_cons_self _ _, h3⟩
    · exact Or.inr ⟨n, by simp only [List.map_cons, List.mem_cons]; exact Or.inr hn, hk⟩

theorem delIdx_flat_keys_nodup (t : TableM) (idv : JStr) (rf : Snap) :
    ∀ (lst : List (JStr × IndexDef)) (s : ObjMap),
      (s.map (·.1)).Nodup →
      ((delIdx (σ := ObjMap) t idv rf lst s).map (·.1)).Nodup := by
  intro lst
  induction lst with
  | nil => intro s h; exact h
  | cons p rest ih =>
    intro s h
    obtain ⟨n1, d1⟩ := p
    simp only [delIdx, flat_get, flat_set]
    exact ih _ (setK_keys_nodup _ _ h)

/-- `setItem` on the plain root store, successful non-delete case, written
out -/
theorem setItemS_flat_ok (t : TableM) (item : Row) (s : ObjMap)
    (hfalse : t.isItemDeleted item = .ok false) :
    setItemS (σ := ObjMap) t item s
      = (updIdx (σ := ObjMap) t (idStrOf t item)
          ((asSnap (s.getProp (rowIndexKey t.key (idStrOf t item)))).filter (fun p =>
            !(Snap.hasK (recalc t item) p.1)
              || !(p.2 == Snap.getP (recalc t item) p.1)))
          ((recalc t item).filter (fun p =>
            p.2.isSome
              && (!(Snap.hasK (asSnap (s.getProp (rowIndexKey t.key (idStrOf t item)))) p.1)
                || !(Snap.getP (asSnap (s.getProp (rowIndexKey t.key (idStrOf t item)))) p.1 == p.2))))
          t.indexes
          (setK (setK s (rowKey t.key (idStrOf t item)) (some (SV.row item)))
            (rowIndexKey t.key (idStrOf t item)) (some (SV.snap (recalc t item)))),
        .ok ()) := by
  simp only [setItemS, hfalse, flat_get, flat_set]

/-- `deleteItem` on the plain root store, written out -/
theorem deleteItemS_flat_eq (t : TableM) (idv : JStr) (s : ObjMap) :
    deleteItemS (σ := ObjMap) t idv s
      = delK (delK (delIdx (σ := ObjMap) t idv
          (asSnap (s.getProp (rowIndexKey t.key idv))) t.indexes s)
            (rowKey t.key idv)) (rowIndexKey t.key idv) := by
  simp only [deleteItemS, flat_get, flat_set, flat_remove]

/-! ### Reachable-store invariant for one table

`Inv P t s` captures what `setItem`/`deleteItem`/`setTableMeta` maintain on
a flat store: keys of the `rows` namespace are row keys or snapshot keys
(of ids satisfying `P`), the stored snapshot of a row is exactly
`recalculateIndexes` of the stored row, and each index's group list is
sound and complete for the stored rows, with no duplicate ids inside a
group and no duplicate group values. -/

def rowAtS (t : TableM) (s : ObjMap) (u : JStr) : Option Row :=
  asRow (s.getProp (rowKey t.key u))

def idxAtS (t : TableM) (s : ObjMap) (n : JStr) : List Group :=
  asIdx (s.getProp (indexKey t.key n))

/-- the evaluation of index `d` on the row currently stored at `u`
(`undefined` when no row is stored there) -/
def oldEvS (t : TableM) (s : ObjMap) (u : JStr) (d : IndexDef) : Option Value :=
  match rowAtS t s u with
  | some r => evalIdx d r
  | none => none

/-- ids that are nonempty and percent-free: their raw stored form survives
the query planner's `decodeURIComponent` of group ids unchanged -/
def cleanId (u : JStr) : Bool := !u.isEmpty && !u.contains '%'

structure Inv (P : JStr → Bool) (t : TableM) (s : ObjMap) : Prop where
  keysND : (s.map (·.1)).Nodup
  shape : ∀ k, k ∈ s.map (·.1) → (rowsKey t.key).isPrefixOf k = true →
    ∃ u, P u = true ∧ (k = rowKey t.key u ∨ k = rowIndexKey t.key u)
  snapEq : ∀ u, s.getProp (rowIndexKey t.key u)
    = (rowAtS t s u).map (fun r => SV.snap (recalc t r))
  rowId : ∀ u r, rowAtS t s u = some r → u = toJSStringU (r.get t.keyPath)
  memSound : ∀ n d, (n, d) ∈ t.indexes → ∀ g, g ∈ idxAtS t s n →
    ∀ w, w ∈ g.ids → ∃ r, rowAtS t s w = some r ∧ evalIdx d r = some g.value
  memCompl : ∀ n d, (n, d) ∈ t.indexes → ∀ w r v, rowAtS t s w = some r →
    evalIdx d r = some v → memG (idxAtS t s n) w v
  idsND : ∀ n d, (n, d) ∈ t.indexes → ∀ g, g ∈ idxAtS t s n → g.ids.Nodup
  valsND : ∀ n d, (n, d) ∈ t.indexes → ((idxAtS t s n).map Group.value).Nodup

/-- core preservation step: the non-delete `setItem` path, for arbitrary
`removeFrom`/`updateTo` objects whose flattened per-index values are the
ones `setItem` computes -/
theorem inv_upd_core (P : JStr → Bool) (t : TableM) (item : Row) (s : ObjMap)
    (rmF upF : Snap) (u : JStr)
    (hwf : (t.indexes.map (·.1)).Nodup)
    (hinv : Inv P t s) (hP : P u = true)
    (hid : u = toJSStringU (item.get t.keyPath))
    (hrm : ∀ n d, (n, d) ∈ t.indexes → Snap.getP rmF n
      = if oldEvS t s u d = evalIdx d item then none else oldEvS t s u d)
    (had : ∀ n d, (n, d) ∈ t.indexes → Snap.getP upF n
      = if oldEvS t s u d = evalIdx d item then none else evalIdx d item) :
    Inv P t (updIdx (σ := ObjMap) t u rmF upF t.indexes
      (setK (setK s (rowKey t.key u) (some (SV.row item)))
        (rowIndexKey t.key u) (some (SV.snap (recalc t item))))) := by
  set s3 := setK (setK s (rowKey t.key u) (some (SV.row item)))
    (rowIndexKey t.key u) (some (SV.snap (recalc t item))) with hs3
  set s4 := updIdx (σ := ObjMap) t u rmF upF t.indexes s3 with hs4
  have hrow4 : ∀ w, rowAtS t s4 w = if w = u then some item else rowAtS t s w := by
    intro w
    unfold rowAtS
    rw [hs4, updIdx_flat_frame t u rmF upF t.indexes s3 (rowKey t.key w)
      (fun n _ hik => indexKey_ne_rowKey t.key n w hik.symm)]
    rw [hs3, getProp_setK, if_neg (fun h => rowKey_ne_rowIndexKey t.key w u h),
      getProp_setK]
    by_cases hw : w = u
    · rw [if_pos (by rw [hw]), if_pos hw]
      rfl
    · rw [if_neg (fun h => hw (rowKey_inj h)), if_neg hw]
  have hsnap4 : ∀ w, ObjMap.getProp s4 (rowIndexKey t.key w)
      = if w = u then some (SV.snap (recalc t item))
        else s.getProp (rowIndexKey t.key w) := by
    intro w
    rw [hs4, updIdx_flat_frame t u rmF upF t.indexes s3 (rowIndexKey t.key w)
      (fun n _ hik => indexKey_ne_rowIndexKey t.key n w hik.symm)]
    rw [hs3, getProp_setK]
    by_cases hw : w = u
    · rw [if_pos (by rw [hw]), if_pos hw]
    · rw [if_neg (fun h => hw (rowIndexKey_inj h)), if_neg hw,
        getProp_setK, if_neg (fun h => rowKey_ne_rowIndexKey t.key u w h.symm)]
  have hidx4 : ∀ n d, (n, d) ∈ t.indexes → idxAtS t s4 n
      = applyDelta (Snap.getP rmF n) (Snap.getP upF n) u (idxAtS t s n) := by
    intro n d hmem
    unfold idxAtS
    rw [hs4, updIdx_flat_idxAt t u rmF upF t.indexes s3 n d hwf hmem]
    rw [hs3, getProp_setK, if_neg (fun h => indexKey_ne_rowIndexKey t.key n u h),
      getProp_setK, if_neg (fun h => indexKey_ne_rowKey t.key n u h)]
  have hRu : rowAtS t s4 u = some item := by rw [hrow4, if_pos rfl]
  refine ⟨?_, ?_, ?_, ?_, ?_, ?_, ?_, ?_⟩
  · rw [hs4]
    refine updIdx_flat_keys_nodup t u rmF upF t.indexes s3 ?_
    rw [hs3]
    exact setK_keys_nodup _ _ (setK_keys_nodup _ _ hinv.keysND)
  · intro k hk hpre
    rw [hs4] at hk
    rcases updIdx_flat_keys_mem t u rmF upF t.indexes s3 k hk with h2 | ⟨n, _, rfl⟩
    · rw [hs3] at h2
      rcases (setK_keys_mem _ _ _ _).mp h2 with h3 | rfl
      · rcases (setK_keys_mem _ _ _ _).mp h3 with h4 | rfl
        · exact hinv.shape k h4 hpre
        · exact ⟨u, hP, Or.inl rfl⟩
      · exact ⟨u, hP, Or.inr rfl⟩
    · rw [rowsKey_not_prefix_indexKey] at hpre
      exact absurd hpre (by decide)
  · intro w
    rw [hsnap4 w, hrow4 w]
    by_cases hw : w = u
    · rw [if_pos hw, if_pos hw]
      rfl
    · rw [if_neg hw, if_neg hw]
      exact hinv.snapEq w
  · intro w r hrw
    rw [hrow4] at hrw
    by_cases hw : w = u
    · rw [if_pos hw] at hrw
      have hir := Option.some.inj hrw
      rw [hw, hid, hir]
    · rw [if_neg hw] at hrw
      exact hinv.rowId w r hrw
  · intro n d hmem g hg w hw
    rw [hidx4 n d hmem] at hg
    have hmemG : memG (applyDelta (Snap.getP rmF n) (Snap.getP upF n) u
        (idxAtS t s n)) w g.value := ⟨g, hg, rfl, hw⟩
    rw [memG_applyDelta] at hmemG
    rcases hmemG with ⟨hold, hnostrip⟩ | ⟨hwueq, hadv⟩
    · obtain ⟨g0, hg0, hgv, hw0⟩ := hold
      obtain ⟨r, hr, he⟩ := hinv.memSound n d hmem g0 hg0 w hw0
      by_cases hwu : w = u
      · subst hwu
        have holdE : oldEvS t s w d = some g.value := by
          unfold oldEvS
          simp only [hr]
          rw [he, hgv]
        have hrmv := hrm n d hmem
        by_cases hEq : oldEvS t s w d = evalIdx d item
        · refine ⟨item, hRu, ?_⟩
          rw [← hEq, holdE]
        · rw [if_neg hEq] at hrmv
          exact absurd ⟨rfl, by rw [hrmv, holdE]⟩ hnostrip
      · refine ⟨r, ?_, by rw [he, hgv]⟩
        rw [hrow4, if_neg hwu]
        exact hr
    · have hadv2 := had n d hmem
      by_cases hEq : oldEvS t s u d = evalIdx d item
      · rw [if_pos hEq] at hadv2
        rw [hadv2] at hadv
        exact absurd hadv (by simp)
      · rw [if_neg hEq] at hadv2
        refine ⟨item, ?_, ?_⟩
        · rw [hrow4, if_pos hwueq]
        · rw [← hadv2]
          exact hadv
  · intro n d hmem w r v hrow hev
    rw [hidx4 n d hmem, memG_applyDelta]
    by_cases hwu : w = u
    · subst hwu
      rw [hRu] at hrow
      have hri := Option.some.inj hrow
      subst hri
      by_cases hEq : oldEvS t s w d = evalIdx d item
      · refine Or.inl ⟨?_, ?_⟩
        · have holdv : oldEvS t s w d = some v := by rw [hEq, hev]
          unfold oldEvS at holdv
          cases hro : rowAtS t s w with
          | none =>
            simp only [hro] at holdv
            exact Option.noConfusion holdv
          | some r0 =>
            simp only [hro] at holdv
            exact hinv.memCompl n d hmem w r0 v hro holdv
        · rintro ⟨_, hrmv⟩
          rw [hrm n d hmem, if_pos hEq] at hrmv
          exact absurd hrmv (by simp)
      · refine Or.inr ⟨rfl, ?_⟩
        rw [had n d hmem, if_neg hEq, hev]
    · rw [hrow4, if_neg hwu] at hrow
      exact Or.inl ⟨hinv.memCompl n d hmem w r v hrow hev, fun hc => hwu hc.1⟩
  · intro n d hmem g hg
    rw [hidx4 n d hmem] at hg
    refine idsND_applyDelta _ _ u _ (fun g0 hg0 => hinv.idsND n d hmem g0 hg0) ?_ g hg
    rintro av hadv ⟨hmemG, hnos⟩
    obtain ⟨g0, hg0, hgv, hw0⟩ := hmemG
    obtain ⟨r, hr, he⟩ := hinv.memSound n d hmem g0 hg0 u hw0
    have holdE : oldEvS t s u d = some av := by
      unfold oldEvS
      simp only [hr]
      rw [he, hgv]
    rw [had n d hmem] at hadv
    by_cases hEq : oldEvS t s u d = evalIdx d item
    · rw [if_pos hEq] at hadv
      exact Option.noConfusion hadv
    · rw [if_neg hEq] at hadv
      exact hnos ⟨rfl, by rw [hrm n d hmem, if_neg hEq, holdE]⟩
  · intro n d hmem
    rw [hidx4 n d hmem]
    exact valsND_applyDelta _ _ u _ (hinv.valsND n d hmem)

/-- `deleteItem` preserves the invariant (for any id, stored or not) -/
theorem inv_delete (P : JStr → Bool) (t : TableM) (idv : JStr) (s : ObjMap)
    (hwf : (t.indexes.map (·.1)).Nodup) (hinv : Inv P t s) :
    Inv P t (deleteItemS (σ := ObjMap) t idv s) := by
  rw [deleteItemS_flat_eq]
  set rf := asSnap (s.getProp (rowIndexKey t.key idv)) with hrf
  set s2 := delIdx (σ := ObjMap) t idv rf t.indexes s with hs2
  set s5 := delK (delK s2 (rowKey t.key idv)) (rowIndexKey t.key idv) with hs5
  have hrm : ∀ n d, (n, d) ∈ t.indexes → Snap.getP rf n = oldEvS t s idv d := by
    intro n d hmem
    unfold oldEvS
    cases hro : rowAtS t s idv with
    | some r_old =>
      have hsnap : s.getProp (rowIndexKey t.key idv)
          = some (SV.snap (recalc t r_old)) := by
        rw [hinv.snapEq, hro]
        rfl
      rw [hrf, hsnap]
      exact recalc_getP r_old hwf hmem
    | none =>
      have hsnap : s.getProp (rowIndexKey t.key idv) = none := by
        rw [hinv.snapEq, hro]
        rfl
      rw [hrf, hsnap]
      rfl
  have hrow5 : ∀ w, rowAtS t s5 w = if w = idv then none else rowAtS t s w := by
    intro w
    unfold rowAtS
    rw [hs5, getProp_delK, if_neg (fun h => rowKey_ne_rowIndexKey t.key w idv h),
      getProp_delK]
    by_cases hw : w = idv
    · rw [if_pos (by rw [hw]), if_pos hw]
      rfl
    · rw [if_neg (fun h => hw (rowKey_inj h)), if_neg hw]
      rw [hs2, delIdx_flat_frame t idv rf t.indexes s (rowKey t.key w)
        (fun n _ hik => indexKey_ne_rowKey t.key n w hik.symm)]
  have hsnap5 : ∀ w, ObjMap.getProp s5 (rowIndexKey t.key w)
      = if w = idv then none else s.getProp (rowIndexKey t.key w) := by
    intro w
    rw [hs5, getProp_delK]
    by_cases hw : w = idv
    · rw [if_pos (by rw [hw]), if_pos hw]
    · rw [if_neg (fun h => hw (rowIndexKey_inj h)), getProp_delK,
        if_neg (fun h => rowKey_ne_rowIndexKey t.key idv w h.symm), if_neg hw]
      rw [hs2, delIdx_flat_frame t idv rf t.indexes s (rowIndexKey t.key w)
        (fun n _ hik => indexKey_ne_rowIndexKey t.key n w hik.symm)]
  have hidx5 : ∀ n d, (n, d) ∈ t.indexes →
      idxAtS t s5 n = applyDelta (oldEvS t s idv d) none idv (idxAtS t s n) := by
    intro n d hmem
    unfold idxAtS
    rw [hs5, getProp_delK, if_neg (fun h => indexKey_ne_rowIndexKey t.key n idv h),
      getProp_delK, if_neg (fun h => indexKey_ne_rowKey t.key n idv h)]
    rw [hs2, delIdx_flat_idxAt t idv rf t.indexes s n d hwf hmem, hrm n d hmem]
  refine ⟨?_, ?_, ?_, ?_, ?_, ?_, ?_, ?_⟩
  · rw [hs5, hs2]
    exact delK_keys_nodup _ (delK_keys_nodup _
      (delIdx_flat_keys_nodup t idv rf t.indexes s hinv.keysND))
  · intro k hk hpre
    rw [hs5] at hk
    have hk2 := delK_keys_mem (delK_keys_mem hk)
    rw [hs2] at hk2
    rcases delIdx_flat_keys_mem t idv rf t.indexes s k hk2 with h2 | ⟨n, _, rfl⟩
    · exact hinv.shape k h2 hpre
    · rw [rowsKey_not_prefix_indexKey] at hpre
      exact absurd hpre (by decide)
  · intro w
    rw [hsnap5 w, hrow5 w]
    by_cases hw : w = idv
    · rw [if_pos hw, if_pos hw]
      rfl
    · rw [if_neg hw, if_neg hw]
      exact hinv.snapEq w
  · intro w r hrw
    rw [hrow5] at hrw
    by_cases hw : w = idv
    · rw [if_pos hw] at hrw
      exact Option.noConfusion hrw
    · rw [if_neg hw] at hrw
      exact hinv.rowId w r hrw
  · intro n d hmem g hg w hw
    rw [hidx5 n d hmem] at hg
    have hmemG : memG (applyDelta (oldEvS t s idv d) none idv (idxAtS t s n))
        w g.value := ⟨g, hg, rfl, hw⟩
    rw [memG_applyDelta] at hmemG
    rcases hmemG with ⟨hold, hnostrip⟩ | ⟨_, hadv⟩
    · obtain ⟨g0, hg0, hgv, hw0⟩ := hold
      obtain ⟨r, hr, he⟩ := hinv.memSound n d hmem g0 hg0 w hw0
      have hwu : ¬ w = idv := by
        intro hwu
        subst hwu
        refine hnostrip ⟨rfl, ?_⟩
        unfold oldEvS
        simp only [hr]
        rw [he, hgv]
      refine ⟨r, ?_, by rw [he, hgv]⟩
      rw [hrow5, if_neg hwu]
      exact hr
    · exact absurd hadv (by simp)
  · intro n d hmem w r v hrow hev
    rw [hidx5 n d hmem, memG_applyDelta]
    have hwu : ¬ w = idv := by
      intro hwu
      rw [hrow5, if_pos hwu] at hrow
      exact Option.noConfusion hrow
    rw [hrow5, if_neg hwu] at hrow
    exact Or.inl ⟨hinv.memCompl n d hmem w r v hrow hev, fun hc => hwu hc.1⟩
  · intro n d hmem g hg
    rw [hidx5 n d hmem] at hg
    refine idsND_applyDelta _ _ idv _
      (fun g0 hg0 => hinv.idsND n d hmem g0 hg0) ?_ g hg
    intro av hadv
    exact absurd hadv (by simp)
  · intro n d hmem
    rw [hidx5 n d hmem]
    exact valsND_applyDelta _ _ idv _ (hinv.valsND n d hmem)

/-- `setTableMeta` preserves the invariant: the meta key is outside the
`rows` and `indexes` namespaces -/
theorem inv_meta (P : JStr → Bool) (t : TableM) (m : Meta) (s : ObjMap)
    (hinv : Inv P t s) : Inv P t (setTableMetaS (σ := ObjMap) t m s) := by
  have hEq : setTableMetaS (σ := ObjMap) t m s
      = setK s (tableMetaKey t.key) (some (SV.meta m)) := rfl
  rw [hEq]
  set sm := setK s (tableMetaKey t.key) (some (SV.meta m)) with hsm
  have hget : ∀ k, ¬ k = tableMetaKey t.key →
      ObjMap.getProp sm k = s.getProp k := by
    intro k hk
    rw [hsm, getProp_setK, if_neg hk]
  have hrow : ∀ w, rowAtS t sm w = rowAtS t s w := by
    intro w
    unfold rowAtS
    rw [hget _ (fun h => tableMetaKey_ne_rowKey t.key w h.symm)]
  have hidx : ∀ n, idxAtS t sm n = idxAtS t s n := by
    intro n
    unfold idxAtS
    rw [hget _ (fun h => tableMetaKey_ne_indexKey t.key n h.symm)]
  refine ⟨?_, ?_, ?_, ?_, ?_, ?_, ?_, ?_⟩
  · rw [hsm]
    exact setK_keys_nodup _ _ hinv.keysND
  · intro k hk hpre
    rw [hsm] at hk
    rcases (setK_keys_mem _ _ _ _).mp hk with h2 | rfl
    · exact hinv.shape k h2 hpre
    · rw [rowsKey_not_prefix_metaKey] at hpre
      exact absurd hpre (by decide)
  · intro w
    rw [hget _ (fun h => tableMetaKey_ne_rowIndexKey t.key w h.symm), hrow w]
    exact hinv.snapEq w
  · intro w r hrw
    rw [hrow w] at hrw
    exact hinv.rowId w r hrw
  · intro n d hmem g hg w hw
    rw [hidx n] at hg
    obtain ⟨r, hr, he⟩ := hinv.memSound n d hmem g hg w hw
    refine ⟨r, ?_, he⟩
    rw [hrow w]
    exact hr
  · intro n d hmem w r v hrow2 hev
    rw [hidx n]
    rw [hrow w] at hrow2
    exact hinv.memCompl n d hmem w r v hrow2 hev
  · intro n d hmem g hg
    rw [hidx n] at hg
    exact hinv.idsND n d hmem g hg
  · intro n d hmem
    rw [hidx n]
    exact hinv.valsND n d hmem

theorem inv_empty (P : JStr → Bool) (t : TableM) : Inv P t [] := by
  refine ⟨List.nodup_nil, ?_, ?_, ?_, ?_, ?_, ?_, ?_⟩
  · intro k hk _
    exact absurd hk (List.not_mem_nil k)
  · intro u
    rfl
  · intro u r hrw
    exact Option.noConfusion hrw
  · intro n d _ g hg w _
    exact absurd hg (List.not_mem_nil g)
  · intro n d _ w r v hrow _
    exact Option.noConfusion hrow
  · intro n d _ g hg
    exact absurd hg (List.not_mem_nil g)
  · intro n d _
    exact List.nodup_nil

/-- `setItem` preserves the invariant, provided the item's id string
satisfies `P` -/
theorem inv_setItem (P : JStr → Bool) (t : TableM) (item : Row) (s : ObjMap)
    (hwf : (t.indexes.map (·.1)).Nodup) (hinv : Inv P t s)
    (hP : P (idStrOf t item) = true) :
    Inv P t (setItemS (σ := ObjMap) t item s).1 := by
  cases hdel : t.isItemDeleted item with
  | error e =>
    have hstep : setItemS (σ := ObjMap) t item s = (s, .error e) := by
      simp only [setItemS, hdel]
    rw [hstep]
    exact hinv
  | ok b =>
    cases b with
    | true =>
      have hstep : setItemS (σ := ObjMap) t item s
          = (deleteItemS (σ := ObjMap) t (idStrOf t item) s, .ok ()) := by
        simp only [setItemS, hdel]
      rw [hstep]
      exact inv_delete P t _ s hwf hinv
    | false =>
      rw [setItemS_flat_ok t item s hdel]
      refine inv_upd_core P t item s _ _ (idStrOf t item) hwf hinv hP rfl ?_ ?_
      · intro n d hmem
        cases hro : rowAtS t s (idStrOf t item) with
        | some r_old =>
          have hsnap : s.getProp (rowIndexKey t.key (idStrOf t item))
              = some (SV.snap (recalc t r_old)) := by
            rw [hinv.snapEq, hro]
            rfl
          rw [hsnap]
          simp only [asSnap]
          rw [removeFrom_getP t r_old item hwf hmem]
          simp only [oldEvS, hro]
        | none =>
          have hsnap : s.getProp (rowIndexKey t.key (idStrOf t item)) = none := by
            rw [hinv.snapEq, hro]
            rfl
          rw [hsnap]
          simp only [asSnap, oldEvS, hro]
          by_cases hEq : (none : Option Value) = evalIdx d item
          · rw [if_pos hEq]
            rfl
          · rw [if_neg hEq]
            rfl
      · intro n d hmem
        cases hro : rowAtS t s (idStrOf t item) with
        | some r_old =>
          have hsnap : s.getProp (rowIndexKey t.key (idStrOf t item))
              = some (SV.snap (recalc t r_old)) := by
            rw [hinv.snapEq, hro]
            rfl
          rw [hsnap]
          simp only [asSnap]
          rw [updateTo_getP t r_old item hwf hmem]
          simp only [oldEvS, hro]
        | none =>
          have hsnap : s.getProp (rowIndexKey t.key (idStrOf t item)) = none := by
            rw [hinv.snapEq, hro]
            rfl
          rw [hsnap]
          simp only [asSnap, oldEvS, hro]
          rw [updateTo_getP_empty t item hwf hmem]
          by_cases hEq : (none : Option Value) = evalIdx d item
          · rw [if_pos hEq, ← hEq]
          · rw [if_neg hEq]

/-- per the TypeScript types, patched items carry their key-path id; its
coerced string must satisfy `P` (trivial for `P = fun _ => true`) -/
def goodOpP (P : JStr → Bool) (t : TableM) : Op → Bool
  | .patch item => P (idStrOf t item)
  | .del _ => true
  | .meta _ => true

theorem inv_applyOp (P : JStr → Bool) (t : TableM) (s : ObjMap) (op : Op)
    (hwf : (t.indexes.map (·.1)).Nodup) (hinv : Inv P t s)
    (hop : goodOpP P t op = true) : Inv P t (applyOp t s op) := by
  cases op with
  | patch item => exact inv_setItem P t item s hwf hinv hop
  | del idv => exact inv_delete P t idv s hwf hinv
  | meta m => exact inv_meta P t m s hinv

theorem inv_applyOps (P : JStr → Bool) (t : TableM)
    (hwf : (t.indexes.map (·.1)).Nodup) :
    ∀ (ops : List Op) (s : ObjMap), Inv P t s → ops.all (goodOpP P t) = true →
      Inv P t (applyOps t s ops)
  | [], _, hinv, _ => hinv
  | op :: rest, s, hinv, hops => by
    rw [List.all_cons, Bool.and_eq_true] at hops
    exact inv_applyOps P t hwf rest _
      (inv_applyOp P t s op hwf hinv hops.1) hops.2

/-! ### Claims C5 and C10: index-group invariants and the delete branch -/

theorem deleteItemS_rowAt (t : TableM) (idv : JStr) (s : ObjMap) (w : JStr) :
    rowAtS t (deleteItemS (σ := ObjMap) t idv s) w
      = if w = idv then none else rowAtS t s w := by
  rw [deleteItemS_flat_eq]
  unfold rowAtS
  rw [getProp_delK, if_neg (fun h => rowKey_ne_rowIndexKey t.key w idv h),
    getProp_delK]
  by_cases hw : w = idv
  · rw [if_pos (by rw [hw]), if_pos hw]
    rfl
  · rw [if_neg (fun h => hw (rowKey_inj h)), if_neg hw]
    rw [delIdx_flat_frame t idv _ t.indexes s (rowKey t.key w)
      (fun n _ hik => indexKey_ne_rowKey t.key n w hik.symm)]

theorem deleteItemS_snapAt (t : TableM) (idv : JStr) (s : ObjMap) (w : JStr) :
    ObjMap.getProp (deleteItemS (σ := ObjMap) t idv s) (rowIndexKey t.key w)
      = if w = idv then none else s.getProp (rowIndexKey t.key w) := by
  rw [deleteItemS_flat_eq, getProp_delK]
  by_cases hw : w = idv
  · rw [if_pos (by rw [hw]), if_pos hw]
  · rw [if_neg (fun h => hw (rowIndexKey_inj h)), getProp_delK,
      if_neg (fun h => rowKey_ne_rowIndexKey t.key idv w h.symm), if_neg hw]
    rw [delIdx_flat_frame t idv _ t.indexes s (rowIndexKey t.key w)
      (fun n _ hik => indexKey_ne_rowIndexKey t.key n w hik.symm)]

/-- **C5** (confirmed): starting from an empty store, after any sequence of
committed `setItem`/`deleteItem` (and `setTableMeta`) operations, for every
index of a table (whose index names are distinct, as JS object keys are)
each row id appears in at most one group of that index, and in each group
at most once.  Membership and lookup in the embedded code compare group
values with decidable strict equality (`==`), mirroring the source's
`===`. -/
theorem claim_C5 (t : TableM) (ops : List Op) (s : ObjMap)
    (hwf : (t.indexes.map (·.1)).Nodup)
    (hs : s = applyOps t [] ops)
    (n : JStr) (d : IndexDef) (hmem : (n, d) ∈ t.indexes) :
    (∀ w g1 g2, g1 ∈ idxAtS t s n → g2 ∈ idxAtS t s n →
      w ∈ g1.ids → w ∈ g2.ids → g1 = g2)
    ∧ (∀ g, g ∈ idxAtS t s n → g.ids.Nodup) := by
  subst hs
  have hinv : Inv (fun _ => true) t (applyOps t [] ops) :=
    inv_applyOps _ t hwf ops [] (inv_empty _ t)
      (List.all_eq_true.mpr (fun op _ => by cases op <;> rfl))
  constructor
  · intro w g1 g2 hg1 hg2 hw1 hw2
    obtain ⟨r1, hr1, he1⟩ := hinv.memSound n d hmem g1 hg1 w hw1
    obtain ⟨r2, hr2, he2⟩ := hinv.memSound n d hmem g2 hg2 w hw2
    rw [hr1] at hr2
    have hr12 := Option.some.inj hr2
    subst hr12
    rw [he1] at he2
    have hv := Option.some.inj he2
    exact List.inj_on_of_nodup_map (hinv.valsND n d hmem) hg1 hg2 hv
  · exact hinv.idsND n d hmem

theorem claim_C5_witness :
    ((tDemo.indexes.map (·.1)).Nodup)
    ∧ ((∀ w g1 g2, g1 ∈ idxAtS tDemo sDemo (("enabled").data) →
          g2 ∈ idxAtS tDemo sDemo (("enabled").data) →
          w ∈ g1.ids → w ∈ g2.ids → g1 = g2)
        ∧ (∀ g, g ∈ idxAtS tDemo sDemo (("enabled").data) → g.ids.Nodup)) :=
  ⟨by decide,
    claim_C5 tDemo [.patch rowA, .patch rowB] sDemo (by decide) rfl
      (("enabled").data) (.col (("active").data))
      (List.mem_cons_of_mem _ (List.mem_cons_self _ _))⟩

/-- a table whose `isItemDeleted` collaborator marks rows carrying
`del: true` as deleted -/
def tDel : TableM := {
  key := ("posts").data, keyPath := ("id").data,
  indexes := [(("byCat").data, .col (("cat").data))],
  isItemDeleted := fun r => .ok (r.get (("del").data) == some (.vBool true)),
  getSince := fun _ => .ok [], forceSync := false }

def rowP : Row := [(("id").data, .vStr (("p1").data)),
  (("cat").data, .vStr (("a").data))]

def rowPDel : Row := [(("id").data, .vStr (("p1").data)),
  (("cat").data, .vStr (("a").data)), (("del").data, .vBool true)]

def sDel : ObjMap := applyOps tDel [] [.patch rowP]

/-- **C10** (confirmed): patching a row whose `isItemDeleted` is true does
not store the row: the call succeeds, its committed effect is exactly
`deleteItem` at the row's coerced key-path id — the stored row is gone,
its index snapshot is gone, and the id is in no group of any index of the
table (in any store reachable from empty by committed operations). -/
theorem claim_C10 (t : TableM) (ops : List Op) (s : ObjMap) (row : Row)
    (hwf : (t.indexes.map (·.1)).Nodup)
    (hs : s = applyOps t [] ops)
    (hdel : t.isItemDeleted row = .ok true) :
    (patchF t row s).2 = .ok ()
    ∧ (patchF t row s).1 = deleteItemS (σ := ObjMap) t (idStrOf t row) s
    ∧ rowAtS t (patchF t row s).1 (idStrOf t row) = none
    ∧ ObjMap.getProp (patchF t row s).1 (rowIndexKey t.key (idStrOf t row)) = none
    ∧ (∀ n d g, (n, d) ∈ t.indexes → g ∈ idxAtS t (patchF t row s).1 n →
        ¬ idStrOf t row ∈ g.ids) := by
  subst hs
  have hinv : Inv (fun _ => true) t (applyOps t [] ops) :=
    inv_applyOps _ t hwf ops [] (inv_empty _ t)
      (List.all_eq_true.mpr (fun op _ => by cases op <;> rfl))
  have hstep : patchF t row (applyOps t [] ops)
      = (deleteItemS (σ := ObjMap) t (idStrOf t row) (applyOps t [] ops),
          .ok ()) := by
    simp only [patchF, setItemS, hdel]
  have hinv2 : Inv (fun _ => true) t
      (deleteItemS (σ := ObjMap) t (idStrOf t row) (applyOps t [] ops)) :=
    inv_delete _ t _ _ hwf hinv
  refine ⟨by rw [hstep], by rw [hstep], ?_, ?_, ?_⟩
  · rw [hstep]
    show rowAtS t (deleteItemS (σ := ObjMap) t (idStrOf t row)
      (applyOps t [] ops)) (idStrOf t row) = none
    rw [deleteItemS_rowAt, if_pos rfl]
  · rw [hstep]
    show ObjMap.getProp (deleteItemS (σ := ObjMap) t (idStrOf t row)
      (applyOps t [] ops)) (rowIndexKey t.key (idStrOf t row)) = none
    rw [deleteItemS_snapAt, if_pos rfl]
  · intro n d g hmem hg hwid
    rw [hstep] at hg
    obtain ⟨r, hr, _⟩ := hinv2.memSound n d hmem g hg (idStrOf t row) hwid
    rw [deleteItemS_rowAt, if_pos rfl] at hr
    exact Option.noConfusion hr

theorem claim_C10_witness :
    ((tDel.indexes.map (·.1)).Nodup)
    ∧ tDel.isItemDeleted rowPDel = .ok true
    ∧ ((patchF tDel rowPDel sDel).2 = .ok ()
      ∧ (patchF tDel rowPDel sDel).1
          = deleteItemS (σ := ObjMap) tDel (idStrOf tDel rowPDel) sDel
      ∧ rowAtS tDel (patchF tDel rowPDel sDel).1 (idStrOf tDel rowPDel) = none
      ∧ ObjMap.getProp (patchF tDel rowPDel sDel).1
          (rowIndexKey tDel.key (idStrOf tDel rowPDel)) = none
      ∧ (∀ n d g, (n, d) ∈ tDel.indexes →
          g ∈ idxAtS tDel (patchF tDel rowPDel sDel).1 n →
          ¬ idStrOf tDel rowPDel ∈ g.ids)) :=
  ⟨by decide, rfl, claim_C10 tDel [.patch rowP] sDel rowPDel (by decide) rfl rfl⟩

/-! ### Claim C4 groundwork: parsing the full scan and decoding group ids -/

theorem splitCh_ne_nil (sep : Char) (l : JStr) : ¬ splitCh sep l = [] := by
  cases l with
  | nil => simp [splitCh]
  | cons x xs =>
    simp only [splitCh]
    cases splitCh sep xs with
    | nil => simp
    | cons h t => by_cases hx : x = sep <;> simp [hx]

theorem splitCh_sep_cons (sep : Char) (l : JStr) :
    splitCh sep (sep :: l) = [] :: splitCh sep l := by
  simp only [splitCh]
  cases hs : splitCh sep l with
  | nil => exact absurd hs (splitCh_ne_nil sep l)
  | cons h t => simp

theorem splitCh_nosep (sep : Char) (l : JStr) (h : ∀ c ∈ l, ¬ c = sep) :
    splitCh sep l = [l] := by
  induction l with
  | nil => rfl
  | cons x xs ih =>
    have h2 := ih (fun c hc => h c (List.mem_cons_of_mem _ hc))
    simp only [splitCh, h2]
    rw [if_neg (h x (List.mem_cons_self _ _))]

theorem splitCh_nosep_append (sep : Char) (a b : JStr) (h : ∀ c ∈ a, ¬ c = sep) :
    splitCh sep (a ++ sep :: b) = a :: splitCh sep b := by
  induction a with
  | nil => rw [List.nil_append, splitCh_sep_cons]
  | cons x xs ih =>
    have h2 := ih (fun c hc => h c (List.mem_cons_of_mem _ hc))
    simp only [List.cons_append, splitCh, List.append_eq, h2]
    rw [if_neg (h x (List.mem_cons_self _ _))]

theorem replFirst_prefix_drop (k pat : JStr) (h : pat.isPrefixOf k = true) :
    replFirst k pat = k.drop pat.length := by
  cases k with
  | nil =>
    cases pat with
    | nil => rfl
    | cons p ps => simp [List.isPrefixOf] at h
  | cons c rest =>
    unfold replFirst
    rw [if_pos h]

/-- the full scan parses a row key back to its id -/
theorem rowIdFromKey_rowKey (t : TableM) (u : JStr) :
    rowIdFromKey (rowsKey t.key) (rowKey t.key u) = .ok (some u) := by
  unfold rowIdFromKey
  rw [rowKey_eq,
    replFirst_prefix_drop _ _ (isPrefixOf_append_self _ _), List.drop_left,
    splitCh_sep_cons,
    splitCh_nosep '/' (encodeURIComponent u) (fun c hc => enc_not_slash hc)]
  simp only [List.drop_succ_cons, List.drop_zero, List.head?_cons, List.drop_nil]
  rw [decode_encode]

/-- the full scan skips a snapshot key -/
theorem rowIdFromKey_rowIndexKey (t : TableM) (u : JStr) :
    rowIdFromKey (rowsKey t.key) (rowIndexKey t.key u) = .ok none := by
  unfold rowIdFromKey
  have hsplit : ("/indexes").data = '/' :: ("indexes").data := rfl
  rw [rowIndexKey_eq,
    replFirst_prefix_drop _ _ (isPrefixOf_append_self _ _), List.drop_left,
    splitCh_sep_cons, hsplit,
    splitCh_nosep_append '/' (encodeURIComponent u) (("indexes").data)
      (fun c hc => enc_not_slash hc),
    splitCh_nosep '/' (("indexes").data) (by decide)]
  simp only [List.drop_succ_cons, List.drop_zero, List.head?_cons]
  rfl

/-- successful parse of every key of the rows namespace, collecting the row
ids -/
theorem fullScan_ok (t : TableM) : ∀ (keys : List JStr),
    (∀ k ∈ keys, (∃ u, k = rowKey t.key u) ∨ (∃ u, k = rowIndexKey t.key u)) →
    ∃ l, keys.mapM (fun k => rowIdFromKey (rowsKey t.key) k) = Except.ok l
      ∧ ∀ u, rowKey t.key u ∈ keys → some u ∈ l
  | [], _ => ⟨[], rfl, fun u hu => absurd hu (List.not_mem_nil _)⟩
  | k :: rest, h => by
    obtain ⟨l, hl, hmem⟩ := fullScan_ok t rest
      (fun k' hk' => h k' (List.mem_cons_of_mem _ hk'))
    rcases h k (List.mem_cons_self _ _) with ⟨u0, rfl⟩ | ⟨u0, rfl⟩
    · refine ⟨some u0 :: l, ?_, ?_⟩
      · simp only [List.mapM_cons, rowIdFromKey_rowKey, hl]
        rfl
      · intro u hu
        rcases List.mem_cons.mp hu with hEq | hmem2
        · rw [rowKey_inj hEq]
          exact List.mem_cons_self _ _
        · exact List.mem_cons_of_mem _ (hmem u hmem2)
    · refine ⟨none :: l, ?_, ?_⟩
      · simp only [List.mapM_cons, rowIdFromKey_rowIndexKey, hl]
        rfl
      · intro u hu
        rcases List.mem_cons.mp hu with hEq | hmem2
        · exact absurd hEq (rowKey_ne_rowIndexKey t.key u u0)
        · exact List.mem_cons_of_mem _ (hmem u hmem2)

/-- under the invariant with `P = cleanId`, every stored row sits at a
clean id -/
theorem stored_clean (t : TableM) (s : ObjMap) (hinv : Inv cleanId t s)
    {u : JStr} {r : Row} (hr : rowAtS t s u = some r) : cleanId u = true := by
  have hkmem : rowKey t.key u ∈ s.map (·.1) := by
    unfold rowAtS at hr
    cases hg : s.getProp (rowKey t.key u) with
    | none =>
      rw [hg] at hr
      exact absurd hr (by simp [asRow])
    | some sv => exact getProp_mem_keys hg
  obtain ⟨u', hP, hor⟩ := hinv.shape _ hkmem (rowsKey_prefix_rowKey t.key u)
  rcases hor with h1 | h2
  · rw [rowKey_inj h1]
    exact hP
  · exact absurd h2 (rowKey_ne_rowIndexKey t.key u u')

/-- the full scan succeeds on an invariant store and lists every stored
row id -/
theorem fullScanIds_inv (t : TableM) (s : ObjMap) (hinv : Inv cleanId t s) :
    ∃ l, fullScanIds t s = .ok l
      ∧ ∀ u r, rowAtS t s u = some r → u ∈ l := by
  have hforms : ∀ k ∈ (s.map (·.1)).filter
      (fun k => (rowsKey t.key).isPrefixOf k),
      (∃ u, k = rowKey t.key u) ∨ (∃ u, k = rowIndexKey t.key u) := by
    intro k hk
    rw [List.mem_filter] at hk
    obtain ⟨u, _, hor⟩ := hinv.shape k hk.1 hk.2
    rcases hor with h1 | h2
    · exact Or.inl ⟨u, h1⟩
    · exact Or.inr ⟨u, h2⟩
  obtain ⟨l, hl, hmem⟩ := fullScan_ok t _ hforms
  refine ⟨((l.filterMap id).filter (fun u => !u.isEmpty)), ?_, ?_⟩
  · unfold fullScanIds
    simp only [hl]
  · intro u r hr
    have hkmem : rowKey t.key u ∈ s.map (·.1) := by
      unfold rowAtS at hr
      cases hg : s.getProp (rowKey t.key u) with
      | none =>
        rw [hg] at hr
        exact absurd hr (by simp [asRow])
      | some sv => exact getProp_mem_keys hg
    have hkf : rowKey t.key u ∈ (s.map (·.1)).filter
        (fun k => (rowsKey t.key).isPrefixOf k) := by
      rw [List.mem_filter]
      exact ⟨hkmem, rowsKey_prefix_rowKey t.key u⟩
    have hclean := stored_clean t s hinv hr
    unfold cleanId at hclean
    rw [Bool.and_eq_true] at hclean
    rw [List.mem_filter]
    constructor
    · rw [List.mem_filterMap]
      exact ⟨some u, hmem u hkf, rfl⟩
    · exact hclean.1

/-- clean group ids survive `map(decodeURIComponent)` unchanged -/
theorem mapM_decode_clean : ∀ (l : List JStr), (∀ u ∈ l, cleanId u = true) →
    l.mapM decodeURIComponent = some l
  | [], _ => rfl
  | u :: rest, h => by
    have hc := h u (List.mem_cons_self _ _)
    unfold cleanId at hc
    rw [Bool.and_eq_true] at hc
    have hd : decodeURIComponent u = some u := by
      refine decode_noPct u ?_
      intro ch hch hpc
      have hcf := hc.2
      rw [Bool.not_eq_true'] at hcf
      subst hpc
      have hcf2 : List.elem '%' u = false := hcf
      rw [List.elem_eq_true_of_mem hch] at hcf2
      exact Bool.noConfusion hcf2
    simp only [List.mapM_cons, hd,
      mapM_decode_clean rest (fun u2 h2 => h u2 (List.mem_cons_of_mem _ h2))]
    rfl

/-- membership characterization of the candidate-collection loop without
offset and limit -/
theorem collect_iff (t : TableM) (s : ObjMap) (sf : Filter) :
    ∀ (ids : List JStr) (r : Row),
      r ∈ collectRows t s sf ids 0 none
        ↔ ∃ u, u ∈ ids ∧ asRow (getSV s (rowKey t.key u)) = some r
            ∧ matchesScan sf r = true
  | [], r => by simp [collectRows]
  | idv :: rest, r => by
    cases hrow : asRow (getSV s (rowKey t.key idv)) with
    | none =>
      simp only [collectRows, hrow]
      rw [collect_iff t s sf rest r]
      constructor
      · rintro ⟨u, hu, hr2, hm⟩
        exact ⟨u, List.mem_cons_of_mem _ hu, hr2, hm⟩
      · rintro ⟨u, hu, hr2, hm⟩
        rcases List.mem_cons.mp hu with rfl | hu2
        · rw [hrow] at hr2
          exact Option.noConfusion hr2
        · exact ⟨u, hu2, hr2, hm⟩
    | some row =>
      simp only [collectRows, hrow]
      by_cases hm : matchesScan sf row = true
      · rw [if_pos hm, if_neg (by simp)]
        show r ∈ row :: collectRows t s sf rest 0 none ↔ _
        rw [List.mem_cons, collect_iff t s sf rest r]
        constructor
        · rintro (rfl | ⟨u, hu, hr2, hm2⟩)
          · exact ⟨idv, List.mem_cons_self _ _, hrow, hm⟩
          · exact ⟨u, List.mem_cons_of_mem _ hu, hr2, hm2⟩
        · rintro ⟨u, hu, hr2, hm2⟩
          rcases List.mem_cons.mp hu with rfl | hu2
          · rw [hrow] at hr2
            exact Or.inl (Option.some.inj hr2).symm
          · exact Or.inr ⟨u, hu2, hr2, hm2⟩
      · rw [if_neg hm]
        rw [collect_iff t s sf rest r]
        constructor
        · rintro ⟨u, hu, hr2, hm2⟩
          exact ⟨u, List.mem_cons_of_mem _ hu, hr2, hm2⟩
        · rintro ⟨u, hu, hr2, hm2⟩
          rcases List.mem_cons.mp hu with rfl | hu2
          · rw [hrow] at hr2
            have hrr := Option.some.inj hr2
            rw [← hrr] at hm2
            exact absurd hm2 hm
          · exact ⟨u, hu2, hr2, hm2⟩

/-- the function-index loop is the identity on tables whose indexes are all
column-based -/
theorem fnIndexLoop_allcol (t : TableM) (filter : Filter) (s : ObjMap) :
    ∀ (lst : List (JStr × IndexDef)),
      (∀ p ∈ lst, ∃ cn, p.2 = IndexDef.col cn) →
      ∀ ids idxs, fnIndexLoop t filter s lst ids idxs = .ok (ids, idxs)
  | [], _, ids, idxs => rfl
  | (n1, d1) :: rest, hcol, ids, idxs => by
    obtain ⟨cn, hcn⟩ := hcol (n1, d1) (List.mem_cons_self _ _)
    subst hcn
    simp only [fnIndexLoop]
    exact fnIndexLoop_allcol t filter s rest
      (fun p hp => hcol p (List.mem_cons_of_mem _ hp)) ids idxs

/-- the function-index loop is also the identity whenever every
function-valued extractor is undefined on the filter object -/
theorem fnIndexLoop_skip (t : TableM) (filter : Filter) (s : ObjMap) :
    ∀ (lst : List (JStr × IndexDef)),
      (∀ p ∈ lst, ∀ f, p.2 = IndexDef.fn f → f filter = none) →
      ∀ ids idxs, fnIndexLoop t filter s lst ids idxs = .ok (ids, idxs)
  | [], _, ids, idxs => rfl
  | (n1, d1) :: rest, hskip, ids, idxs => by
    cases d1 with
    | col cn =>
      simp only [fnIndexLoop]
      exact fnIndexLoop_skip t filter s rest
        (fun p hp => hskip p (List.mem_cons_of_mem _ hp)) ids idxs
    | fn f =>
      have hf := hskip (n1, IndexDef.fn f) (List.mem_cons_self _ _) f rfl
      simp only [fnIndexLoop, hf]
      exact fnIndexLoop_skip t filter s rest
        (fun p hp => hskip p (List.mem_cons_of_mem _ hp)) ids idxs

/-- **C4** (corrected): for a table none of whose function-valued index
extractors produces a value on the filter object (in particular a table
whose indexes are all column-based), on any store built from the empty
store by committed operations whose patched ids coerce to nonempty,
percent-free strings, querying `{c: v}` for an indexed column `c` —
including the key-path column itself — succeeds and returns exactly the
currently-stored rows whose `c` attribute strictly equals `v`.  The
claim's "including ids containing separator or percent-escape characters"
is refuted by `counter_C4`: group ids are stored raw but decoded with
`decodeURIComponent` at query time, so a stored, matching row with id
"a%2Fb" is not returned.  A function extractor that is defined on the
filter object is excluded because `queryTable` applies it to the filter
and intersects the candidate ids with the resulting group, which is
unrelated to the queried column. -/
theorem claim_C4 (t : TableM) (ops : List Op) (s : ObjMap)
    (c n : JStr) (v : Value)
    (hwf : (t.indexes.map (·.1)).Nodup)
    (hfnskip : ∀ p ∈ t.indexes, ∀ f, p.2 = IndexDef.fn f →
      f [(c, FilterVal.lit v)] = none)
    (hs : s = applyOps t [] ops)
    (hops : ops.all (goodOpP cleanId t) = true)
    (hidx : colIndexName t c = some n)
    (hmemidx : (n, IndexDef.col c) ∈ t.indexes) :
    ∃ res idxs, queryTable t s [(c, FilterVal.lit v)] none none = .ok (res, idxs)
      ∧ ∀ r : Row, r ∈ res
          ↔ (∃ u, rowAtS t s u = some r) ∧ r.get c = some v := by
  subst hs
  have hinv : Inv cleanId t (applyOps t [] ops) :=
    inv_applyOps cleanId t hwf ops [] (inv_empty _ t) hops
  have hfn := fnIndexLoop_skip t [(c, FilterVal.lit v)] (applyOps t [] ops)
    t.indexes hfnskip (seedIds t [(c, FilterVal.lit v)]) []
  cases hfind : findGroup (asIdx (getSV (applyOps t [] ops) (indexKey t.key n)))
      (FilterVal.lit v) with
  | some g =>
    have hgmem : g ∈ idxAtS t (applyOps t [] ops) n := by
      unfold findGroup at hfind
      exact List.mem_of_find?_eq_some hfind
    have hgval : g.value = v := by
      unfold findGroup at hfind
      have h2 := List.find?_some hfind
      simpa using h2
    have hcleanids : ∀ w ∈ g.ids, cleanId w = true := by
      intro w hw
      obtain ⟨r, hr, _⟩ := hinv.memSound n (IndexDef.col c) hmemidx g hgmem w hw
      exact stored_clean t _ hinv hr
    have hdecs := mapM_decode_clean g.ids hcleanids
    cases hseedv : seedIds t [(c, FilterVal.lit v)] with
    | none =>
      rw [hseedv] at hfn
      have hloop : filterLoop t (applyOps t [] ops) [(c, FilterVal.lit v)] none [] []
          = .ok (some g.ids, [], [indexKey t.key n]) := by
        simp only [filterLoop, hidx, hfind, hdecs, List.nil_append]
      have hquery : queryTable t (applyOps t [] ops) [(c, FilterVal.lit v)] none none
          = .ok (collectRows t (applyOps t [] ops) [] g.ids 0 none,
              [indexKey t.key n]) := by
        simp only [queryTable, hseedv, hfn, hloop, Option.getD_none]
      refine ⟨_, _, hquery, ?_⟩
      intro r
      rw [collect_iff t (applyOps t [] ops) [] g.ids r]
      constructor
      · rintro ⟨u, hu, hr2, _⟩
        refine ⟨⟨u, hr2⟩, ?_⟩
        obtain ⟨r', hr', he'⟩ := hinv.memSound n (IndexDef.col c) hmemidx g hgmem u hu
        have hrr : r' = r := Option.some.inj (hr'.symm.trans hr2)
        have hre : r.get c = some g.value := by
          rw [hrr] at he'
          exact he'
        rw [hre, hgval]
      · rintro ⟨⟨u, hru⟩, hrc⟩
        have hmemG := hinv.memCompl n (IndexDef.col c) hmemidx u r v hru hrc
        obtain ⟨g', hg', hgv', hu'⟩ := hmemG
        have hgg : g' = g := by
          refine List.inj_on_of_nodup_map
            (hinv.valsND n (IndexDef.col c) hmemidx) hg' hgmem ?_
          rw [hgv', hgval]
        subst hgg
        exact ⟨u, hu', hru, rfl⟩
    | some l0 =>
      rw [hseedv] at hfn
      have hparse : c = t.keyPath ∧ l0 = [Value.toJSString v] := by
        unfold seedIds at hseedv
        simp only [getK_cons] at hseedv
        by_cases hc : c = t.keyPath
        · rw [if_pos hc] at hseedv
          simp only [fvTruthy, fvToIdStr] at hseedv
          by_cases htr : Value.truthy v = true
          · rw [if_pos htr] at hseedv
            exact ⟨hc, (Option.some.inj hseedv).symm⟩
          · rw [if_neg htr] at hseedv
            exact Option.noConfusion hseedv
        · rw [if_neg hc, getK_nil] at hseedv
          exact Option.noConfusion hseedv
      obtain ⟨hckp, hl0⟩ := hparse
      subst hckp
      subst hl0
      have hloop : filterLoop t (applyOps t [] ops)
          [(t.keyPath, FilterVal.lit v)] (some [Value.toJSString v]) [] []
          = .ok (some (([Value.toJSString v]).filter (fun i => g.ids.contains i)),
              [], [indexKey t.key n]) := by
        simp only [filterLoop, hidx, hfind, hdecs, List.nil_append]
      have hquery : queryTable t (applyOps t [] ops)
          [(t.keyPath, FilterVal.lit v)] none none
          = .ok (collectRows t (applyOps t [] ops) []
              (([Value.toJSString v]).filter (fun i => g.ids.contains i)) 0 none,
              [indexKey t.key n]) := by
        simp only [queryTable, hseedv, hfn, hloop, Option.getD_none]
      refine ⟨_, _, hquery, ?_⟩
      intro r
      cases hcont : g.ids.contains (Value.toJSString v) with
      | true =>
        have hcont2 : List.elem (Value.toJSString v) g.ids = true := hcont
        have hwmem : Value.toJSString v ∈ g.ids := List.mem_of_elem_eq_true hcont2
        have hfilt : ([Value.toJSString v]).filter (fun i => g.ids.contains i)
            = [Value.toJSString v] := by
          rw [List.filter_cons, hcont, if_pos rfl, List.filter_nil]
        rw [hfilt, collect_iff t (applyOps t [] ops) [] [Value.toJSString v] r]
        constructor
        · rintro ⟨u, hu, hr2, _⟩
          rw [List.mem_singleton] at hu
          subst hu
          obtain ⟨r', hr', he'⟩ := hinv.memSound n (IndexDef.col t.keyPath)
            hmemidx g hgmem _ hwmem
          have hrr : r' = r := Option.some.inj (hr'.symm.trans hr2)
          refine ⟨⟨_, hr2⟩, ?_⟩
          have hre : r.get t.keyPath = some g.value := by
            rw [hrr] at he'
            exact he'
          rw [hre, hgval]
        · rintro ⟨⟨u, hru⟩, hrc⟩
          have huw : u = Value.toJSString v := by
            have hid := hinv.rowId u r hru
            rw [hrc] at hid
            exact hid
          subst huw
          exact ⟨Value.toJSString v, List.mem_singleton.mpr rfl, hru, rfl⟩
      | false =>
        have hfilt : ([Value.toJSString v]).filter (fun i => g.ids.contains i)
            = [] := by
          rw [List.filter_cons, hcont, if_neg Bool.false_ne_true, List.filter_nil]
        rw [hfilt]
        constructor
        · intro hmem
          rw [collect_iff t (applyOps t [] ops) [] [] r] at hmem
          obtain ⟨u, hu, _, _⟩ := hmem
          exact absurd hu (List.not_mem_nil u)
        · rintro ⟨⟨u, hru⟩, hrc⟩
          have huw : u = Value.toJSString v := by
            have hid := hinv.rowId u r hru
            rw [hrc] at hid
            exact hid
          have hmemG := hinv.memCompl n (IndexDef.col t.keyPath) hmemidx u r v hru hrc
          obtain ⟨g', hg', hgv', hu'⟩ := hmemG
          have hgg : g' = g := by
            refine List.inj_on_of_nodup_map
              (hinv.valsND n (IndexDef.col t.keyPath) hmemidx) hg' hgmem ?_
            rw [hgv', hgval]
          rw [hgg] at hu'
          rw [huw] at hu'
          have hcont2 : List.elem (Value.toJSString v) g.ids = false := hcont
          rw [List.elem_eq_true_of_mem hu'] at hcont2
          exact Bool.noConfusion hcont2
  | none =>
    cases hseedv : seedIds t [(c, FilterVal.lit v)] with
    | none =>
      rw [hseedv] at hfn
      have hloop : filterLoop t (applyOps t [] ops) [(c, FilterVal.lit v)] none [] []
          = .ok (none, [(c, FilterVal.lit v)], []) := by
        simp only [filterLoop, hidx, hfind]
        rfl
      obtain ⟨l, hscan, hscanmem⟩ := fullScanIds_inv t (applyOps t [] ops) hinv
      have hquery : queryTable t (applyOps t [] ops) [(c, FilterVal.lit v)] none none
          = .ok (collectRows t (applyOps t [] ops) [(c, FilterVal.lit v)] l 0 none,
              []) := by
        simp only [queryTable, hseedv, hfn, hloop, hscan, Option.getD_none]
      refine ⟨_, _, hquery, ?_⟩
      intro r
      rw [collect_iff t (applyOps t [] ops) [(c, FilterVal.lit v)] l r]
      have hms : ∀ r0 : Row, matchesScan [(c, FilterVal.lit v)] r0 = true
          ↔ r0.get c = some v := by
        intro r0
        unfold matchesScan
        simp
      constructor
      · rintro ⟨u, _, hr2, hm⟩
        exact ⟨⟨u, hr2⟩, (hms r).mp hm⟩
      · rintro ⟨⟨u, hru⟩, hrc⟩
        exact ⟨u, hscanmem u r hru, hru, (hms r).mpr hrc⟩
    | some l0 =>
      rw [hseedv] at hfn
      have hparse : c = t.keyPath ∧ l0 = [Value.toJSString v] := by
        unfold seedIds at hseedv
        simp only [getK_cons] at hseedv
        by_cases hc : c = t.keyPath
        · rw [if_pos hc] at hseedv
          simp only [fvTruthy, fvToIdStr] at hseedv
          by_cases htr : Value.truthy v = true
          · rw [if_pos htr] at hseedv
            exact ⟨hc, (Option.some.inj hseedv).symm⟩
          · rw [if_neg htr] at hseedv
            exact Option.noConfusion hseedv
        · rw [if_neg hc, getK_nil] at hseedv
          exact Option.noConfusion hseedv
      obtain ⟨hckp, hl0⟩ := hparse
      subst hckp
      subst hl0
      have hloop : filterLoop t (applyOps t [] ops)
          [(t.keyPath, FilterVal.lit v)] (some [Value.toJSString v]) [] []
          = .ok (some [Value.toJSString v], [(t.keyPath, FilterVal.lit v)], []) := by
        simp only [filterLoop, hidx, hfind]
        rfl
      have hquery : queryTable t (applyOps t [] ops)
          [(t.keyPath, FilterVal.lit v)] none none
          = .ok (collectRows t (applyOps t [] ops) [(t.keyPath, FilterVal.lit v)]
              [Value.toJSString v] 0 none, []) := by
        simp only [queryTable, hseedv, hfn, hloop, Option.getD_none]
      refine ⟨_, _, hquery, ?_⟩
      intro r
      rw [collect_iff t (applyOps t [] ops) [(t.keyPath, FilterVal.lit v)]
        [Value.toJSString v] r]
      have hms : ∀ r0 : Row, matchesScan [(t.keyPath, FilterVal.lit v)] r0 = true
          ↔ r0.get t.keyPath = some v := by
        intro r0
        unfold matchesScan
        simp
      constructor
      · rintro ⟨u, _, hr2, hm⟩
        exact ⟨⟨u, hr2⟩, (hms r).mp hm⟩
      · rintro ⟨⟨u, hru⟩, hrc⟩
        have hmemG := hinv.memCompl n (IndexDef.col t.keyPath) hmemidx u r v hru hrc
        obtain ⟨g', hg', hgv', _⟩ := hmemG
        have hnone := hfind
        unfold findGroup at hnone
        have h2 := List.find?_eq_none.mp hnone g' hg'
        exact absurd (by simp [hgv']) h2

/-- a one-index, column-based demonstration table for C4 -/
def tC4 : TableM := {
  key := ("c4").data, keyPath := ("id").data,
  indexes := [(("byact").data, .col (("act").data))],
  isItemDeleted := fun _ => .ok false, getSince := fun _ => .ok [],
  forceSync := false }

/-- a row whose id contains a percent escape -/
def rowC4 : Row := [(("id").data, .vStr (("a%2Fb").data)),
  (("act").data, .vNum 1)]

def sC4 : ObjMap := applyOps tC4 [] [.patch rowC4]

/-- **C4 counterexample**: the row stored under id "a%2Fb" strictly
matches the indexed filter `{act: 1}` yet the query returns no rows: the
group id is stored raw, `decodeURIComponent` turns it into "a/b", and the
row fetch then looks up `c4/rows/a%2Fb` instead of the actual key
`c4/rows/a%252Fb`. -/
theorem counter_C4 :
    rowAtS tC4 sC4 (("a%2Fb").data) = some rowC4
    ∧ rowC4.get (("act").data) = some (Value.vNum 1)
    ∧ queryTable tC4 sC4 [((("act").data), FilterVal.lit (Value.vNum 1))]
        none none
      = .ok ([], [indexKey (("c4").data) (("byact").data)]) := by
  refine ⟨by decide, rfl, by rfl⟩

/-- a clean-id variant of the C4 scenario -/
def rowC4W : Row := [(("id").data, .vStr (("x1").data)),
  (("act").data, .vNum 1)]

def sC4W : ObjMap := applyOps tC4 [] [.patch rowC4W]

theorem claim_C4_witness :
    ((tC4.indexes.map (·.1)).Nodup)
    ∧ (∀ p ∈ tC4.indexes, ∀ f, p.2 = IndexDef.fn f →
        f [((("act").data), FilterVal.lit (Value.vNum 1))] = none)
    ∧ ([Op.patch rowC4W].all (goodOpP cleanId tC4) = true)
    ∧ colIndexName tC4 (("act").data) = some (("byact").data)
    ∧ ((("byact").data : JStr), IndexDef.col (("act").data)) ∈ tC4.indexes
    ∧ (∃ res idxs, queryTable tC4 sC4W
          [((("act").data), FilterVal.lit (Value.vNum 1))] none none
        = .ok (res, idxs)
      ∧ ∀ r : Row, r ∈ res
          ↔ (∃ u, rowAtS tC4 sC4W u = some r)
            ∧ r.get (("act").data) = some (Value.vNum 1)) :=
  ⟨by decide,
   fun p hp f hf => by
     rcases List.mem_cons.mp hp with hEq | hEq
     · rw [hEq] at hf
       exact IndexDef.noConfusion hf
     · exact absurd hEq (List.not_mem_nil p),
   by decide, rfl, List.mem_cons_self _ _,
   claim_C4 tC4 [Op.patch rowC4W] sC4W (("act").data) (("byact").data)
     (Value.vNum 1) (by decide)
     (fun p hp f hf => by
       rcases List.mem_cons.mp hp with hEq | hEq
       · rw [hEq] at hf
         exact IndexDef.noConfusion hf
       · exact absurd hEq (List.not_mem_nil p))
     rfl (by decide) rfl (List.mem_cons_self _ _)⟩

end Offline
